import Mathlib

/-!
# Nelder–Mead simplex optimizer of CAFE5 (`src/fminsearch.cpp`)

A shallow embedding of `fminsearch.cpp` and theorems about it.

## Numbers

The C code computes on `double`.  The embedding uses `Dbl`: the extended
values of IEEE arithmetic (`+inf`, `-inf`, `NaN`) around *exact* rational finite
values.  Comparisons with `NaN` are false, `inf - inf` is `NaN`, `isinf` is true
for both infinities.  Rounding, overflow to infinity and signed zeros are
not modelled: finite arithmetic is exact.

## Memory

A `double*` / `int*` array is a `List`; `a[i]` is `rd a i` and `a[i] = x` is
`List.set`.  Reading outside the list yields the default element and a write
outside is dropped: the C code has undefined behaviour there, and the
theorems below only speak about states whose arrays have the sizes that
`fminsearch_set_equation` allocates (`FMinSearch.WF`).  The `int` values of the
code (sizes, indices, the iteration counter) stay far from the limits of `int` and
are natural numbers; the one subtraction that can go below zero, `(i - 1) == j`, is
computed on `Int`.

## State

A C function that updates `*pfm` is a function from the state to the new state; a
function that also returns a score returns a pair.  `fminsearch_min` returns the
new state, whose field `bymax` is the value the C function returns.

## Loops

`for (i = 0; i < n; i++) body` is `forLoop n body`.  `while` loops and the
recursion of the quicksort carry a fuel argument that is initialised with a
bound on the number of rounds (the width of the range still to be treated);
the loop condition is still tested in every round.
-/

namespace CAFE

/-! ## The `double` model -/

/-- Model of a C `double`: an exact rational, an infinity or NaN. -/
inductive Dbl where
  | fin (q : ℚ)
  | pinf
  | ninf
  | nan
deriving DecidableEq

instance : Inhabited Dbl := ⟨Dbl.fin 0⟩

namespace Dbl

/-- Unary minus. -/
def neg : Dbl → Dbl
  | fin q => fin (-q)
  | pinf => ninf
  | ninf => pinf
  | nan => nan

/-- Addition `a + b`. -/
def add : Dbl → Dbl → Dbl
  | fin a, fin b => fin (a + b)
  | nan, _ => nan
  | _, nan => nan
  | pinf, ninf => nan
  | ninf, pinf => nan
  | pinf, _ => pinf
  | _, pinf => pinf
  | ninf, _ => ninf
  | _, ninf => ninf

/-- Subtraction `a - b`. -/
def sub (a b : Dbl) : Dbl := add a (neg b)

/-- The infinity of the given sign: `-inf` for `true` (negative), `+inf` for `false`. -/
def signedInf (negative : Bool) : Dbl := if negative then ninf else pinf

/-- Multiplication `a * b`. -/
def mul : Dbl → Dbl → Dbl
  | fin a, fin b => fin (a * b)
  | nan, _ => nan
  | _, nan => nan
  | fin a, pinf => if a = 0 then nan else signedInf (decide (a < 0))
  | fin a, ninf => if a = 0 then nan else signedInf (decide (0 < a))
  | pinf, fin b => if b = 0 then nan else signedInf (decide (b < 0))
  | ninf, fin b => if b = 0 then nan else signedInf (decide (0 < b))
  | pinf, pinf => pinf
  | ninf, ninf => pinf
  | pinf, ninf => ninf
  | ninf, pinf => ninf

/-- Division `a / b` (a zero divisor counts as `+0`). -/
def div : Dbl → Dbl → Dbl
  | fin a, fin b =>
      if b = 0 then (if a = 0 then nan else signedInf (decide (a < 0))) else fin (a / b)
  | nan, _ => nan
  | _, nan => nan
  | fin _, pinf => fin 0
  | fin _, ninf => fin 0
  | pinf, fin b => signedInf (decide (b < 0))
  | ninf, fin b => signedInf (decide (0 ≤ b))
  | pinf, pinf => nan
  | ninf, ninf => nan
  | pinf, ninf => nan
  | ninf, pinf => nan

/-- The function `fabs` of `math.h`. -/
def fabs : Dbl → Dbl
  | fin q => fin |q|
  | pinf => pinf
  | ninf => pinf
  | nan => nan

/-- Comparison `a < b`; false when either side is NaN. -/
def lt : Dbl → Dbl → Bool
  | fin a, fin b => decide (a < b)
  | nan, _ => false
  | _, nan => false
  | ninf, ninf => false
  | ninf, _ => true
  | _, ninf => false
  | pinf, _ => false
  | _, pinf => true

/-- Comparison `a <= b`; false when either side is NaN. -/
def le : Dbl → Dbl → Bool
  | fin a, fin b => decide (a ≤ b)
  | nan, _ => false
  | _, nan => false
  | ninf, _ => true
  | _, pinf => true
  | pinf, _ => false
  | _, ninf => false

/-- The function `isinf` of `math.h`: true for both infinities. -/
def isinf : Dbl → Bool
  | pinf => true
  | ninf => true
  | _ => false

/-- Truth value of a `double` used as a C condition: `x != 0`. -/
def toBool : Dbl → Bool
  | fin q => decide (q ≠ 0)
  | _ => true

/-- Conversion of an `int` to `double`. -/
def ofInt (n : Int) : Dbl := fin n

/-- A value that is neither an infinity nor NaN. -/
def isFinite : Dbl → Bool
  | fin _ => true
  | _ => false

end Dbl

/-- The constant `MAX_DOUBLE = std::numeric_limits<double>::max()`,
`(2 - 2^(-52)) * 2^1023`. -/
def MAX_DOUBLE : Dbl := Dbl.fin ((2 : ℚ) ^ 1024 - (2 : ℚ) ^ 971)

/-! ## Arrays and loops -/

/-- Array read `a[i]`. -/
def rd {β : Type} [Inhabited β] (a : List β) (i : Nat) : β := a.getD i default

/-- Write into a two-dimensional array, `a[i][j] = x`. -/
def set2 (a : List (List Dbl)) (i j : Nat) (x : Dbl) : List (List Dbl) :=
  a.set i ((rd a i).set j x)

/-- The loop `for (i = 0; i < n; i++) s = body i s`. -/
def forLoop {σ : Type} : Nat → (Nat → σ → σ) → σ → σ
  | 0, _, s => s
  | n + 1, body, s => body n (forLoop n body s)

/-- The call `memcpy(dst, src, n * sizeof(double))`. -/
def memcpy (dst src : List Dbl) (n : Nat) : List Dbl :=
  forLoop n (fun j d => d.set j (rd src j)) dst

/-! ## The optimizer state -/

/-- The struct `FMinSearch`.  Its declaration (`fminsearch.h`) is not part of
the sources at hand; the fields are the ones `fminsearch.cpp` uses.  The
`int` fields hold counts and sizes and are natural numbers here; `scorer` is
the pointer to the `optimizer_scorer` (`none` is the null pointer), whose
`calculate_score` is a function of the parameter vector. -/
structure FMinSearch where
  maxiters : Nat
  bymax : Nat
  rho : Dbl
  chi : Dbl
  psi : Dbl
  sigma : Dbl
  tolx : Dbl
  tolf : Dbl
  delta : Dbl
  zero_delta : Dbl
  N : Nat
  N1 : Nat
  iters : Nat
  v : List (List Dbl)
  fv : List Dbl
  vsort : List (List Dbl)
  x_mean : List Dbl
  x_r : List Dbl
  x_tmp : List Dbl
  idx : List Nat
  scorer : Option (List Dbl → Dbl)

/-- The call `pfm->scorer->calculate_score(x)`.  Calling through a null scorer is
undefined behaviour in C; the model returns NaN there, and the theorems assume a scorer
is attached. -/
def calculate_score (pfm : FMinSearch) (x : List Dbl) : Dbl :=
  match pfm.scorer with
  | some f => f x
  | none => Dbl.nan

/-- The function `calloc_2dim(row, col, sizeof(double))`: a zeroed matrix. -/
def calloc_2dim (row col : Nat) : List (List Dbl) :=
  List.replicate row (List.replicate col (Dbl.fin 0))

/-- The function `fminsearch_new`: a zeroed struct with the default coefficients. -/
def fminsearch_new : FMinSearch where
  maxiters := 10000
  bymax := 0
  rho := Dbl.fin 1
  chi := Dbl.fin 2
  psi := Dbl.fin (1 / 2)
  sigma := Dbl.fin (1 / 2)
  tolx := Dbl.fin (1 / 1000000)
  tolf := Dbl.fin (1 / 1000000)
  delta := Dbl.fin (5 / 100)
  zero_delta := Dbl.fin (25 / 100000)
  N := 0
  N1 := 0
  iters := 0
  v := []
  fv := []
  vsort := []
  x_mean := []
  x_r := []
  x_tmp := []
  idx := []
  scorer := none

/-- The function `fminsearch_set_equation`. -/
def fminsearch_set_equation (pfm : FMinSearch) (eq : List Dbl → Dbl) (Xsize : Nat) :
    FMinSearch :=
  let pfm :=
    if pfm.N ≠ Xsize then
      { pfm with
        v := calloc_2dim (Xsize + 1) Xsize
        vsort := calloc_2dim (Xsize + 1) Xsize
        fv := List.replicate (Xsize + 1) (Dbl.fin 0)
        x_mean := List.replicate Xsize (Dbl.fin 0)
        x_r := List.replicate Xsize (Dbl.fin 0)
        x_tmp := List.replicate Xsize (Dbl.fin 0)
        idx := List.replicate (Xsize + 1) 0 }
    else pfm
  { pfm with scorer := some eq, N := Xsize, N1 := Xsize + 1 }

/-- The function `fminsearch_new_with_eq`. -/
def fminsearch_new_with_eq (eq : List Dbl → Dbl) (Xsize : Nat) : FMinSearch :=
  fminsearch_set_equation fminsearch_new eq Xsize

/-! ## Quicksort of the scores with their indices -/

/-- The loop `while (pivot <= list[to] && from < to) to--;` of
`__qsort_double_with_index`; returns the final `to`. -/
def qsort_scan_down (list : List Dbl) (pivot : Dbl) (from_ : Nat) : Nat → Nat
  | 0 => 0
  | to_ + 1 =>
      if Dbl.le pivot (rd list (to_ + 1)) && decide (from_ < to_ + 1) then
        qsort_scan_down list pivot from_ to_
      else to_ + 1

/-- The loop `while (pivot >= list[from] && from < to) from++;` of
`__qsort_double_with_index`; returns the final `from`.  The fuel is
`to - from` at the call. -/
def qsort_scan_up (list : List Dbl) (pivot : Dbl) (to_ : Nat) : Nat → Nat → Nat
  | 0, from_ => from_
  | fuel + 1, from_ =>
      if Dbl.le (rd list from_) pivot && decide (from_ < to_) then
        qsort_scan_up list pivot to_ fuel (from_ + 1)
      else from_

/-- The variables of the partition loop: both arrays and the two cursors. -/
structure QState where
  list : List Dbl
  idx : List Nat
  from_ : Nat
  to_ : Nat

/-- First half of a round of the partition loop:
`while (pivot <= list[to] && from < to) to--;`
`if (from != to) { list[from] = list[to]; idx[from] = idx[to]; from++; }`. -/
def qsort_down (pivot : Dbl) (s : QState) : QState :=
  let to_ := qsort_scan_down s.list pivot s.from_ s.to_
  if s.from_ ≠ to_ then
    { list := s.list.set s.from_ (rd s.list to_)
      idx := s.idx.set s.from_ (rd s.idx to_)
      from_ := s.from_ + 1
      to_ := to_ }
  else { s with to_ := to_ }

/-- Second half of a round of the partition loop:
`while (pivot >= list[from] && from < to) from++;`
`if (from != to) { list[to] = list[from]; idx[to] = idx[from]; to--; }`. -/
def qsort_up (pivot : Dbl) (s : QState) : QState :=
  let from_ := qsort_scan_up s.list pivot s.to_ (s.to_ - s.from_) s.from_
  if from_ ≠ s.to_ then
    { list := s.list.set s.to_ (rd s.list from_)
      idx := s.idx.set s.to_ (rd s.idx from_)
      from_ := from_
      to_ := s.to_ - 1 }
  else { s with from_ := from_ }

/-- One round of the loop `while (from < to) { ... }` of `__qsort_double_with_index`. -/
def qsort_round (pivot : Dbl) (s : QState) : QState :=
  qsort_up pivot (qsort_down pivot s)

/-- The loop `while (from < to) { ... }` of `__qsort_double_with_index`.  The fuel is
`to - from` at the call. -/
def qsort_partition (pivot : Dbl) : Nat → QState → QState
  | 0, s => s
  | fuel + 1, s =>
      if s.from_ < s.to_ then qsort_partition pivot fuel (qsort_round pivot s) else s

/-- The body of `__qsort_double_with_index(list, idx, left, right)`; the fuel bounds
the depth of the recursion. -/
def qsort_rec : Nat → List Dbl → List Nat → Nat → Nat → List Dbl × List Nat
  | 0, list, idx, _, _ => (list, idx)
  | fuel + 1, list, idx, left, right =>
      let pivot := rd list left
      let pivot_idx := rd idx left
      let s := qsort_partition pivot (right - left)
        { list := list, idx := idx, from_ := left, to_ := right }
      let list := s.list.set s.from_ pivot
      let idx := s.idx.set s.from_ pivot_idx
      let r := if left < s.from_ then qsort_rec fuel list idx left (s.from_ - 1) else (list, idx)
      if right > s.from_ then qsort_rec fuel r.1 r.2 (s.from_ + 1) right else r

/-- The function `__qsort_double_with_index(list, idx, left, right)`. -/
def __qsort_double_with_index (list : List Dbl) (idx : List Nat) (left right : Nat) :
    List Dbl × List Nat :=
  qsort_rec (right - left + 1) list idx left right

/-- The function `__fminsearch_sort`. -/
def __fminsearch_sort (pfm : FMinSearch) : FMinSearch :=
  let idx0 := forLoop pfm.N1 (fun i idx => idx.set i i) pfm.idx
  let r := __qsort_double_with_index pfm.fv idx0 0 pfm.N
  let vsort := forLoop pfm.N1 (fun i vsort =>
    let k := rd r.2 i
    forLoop pfm.N (fun j vsort => set2 vsort i j (rd (rd pfm.v k) j)) vsort) pfm.vsort
  let v := forLoop pfm.N1 (fun r v => v.set r (memcpy (rd v r) (rd vsort r) pfm.N)) pfm.v
  { pfm with idx := r.2, fv := r.1, vsort := vsort, v := v }

/-! ## Convergence tests -/

/-- The function `__fminsearch_checkV`: the largest coordinate difference between
consecutive vertices is at most `tolx`. -/
def __fminsearch_checkV (pfm : FMinSearch) : Bool :=
  let max := forLoop pfm.N (fun i max =>
    forLoop pfm.N (fun j max =>
      let t := Dbl.fabs (Dbl.sub (rd (rd pfm.v (i + 1)) j) (rd (rd pfm.v i) j))
      if Dbl.lt max t then t else max) max) (Dbl.neg MAX_DOUBLE)
  Dbl.le max pfm.tolx

/-- The function `__fminsearch_checkF`: the largest difference between a score and
the score of vertex 0 is at most `tolf`.  The loop `for (i = 1; i < N1; i++)` runs
`N1 - 1` rounds. -/
def __fminsearch_checkF (pfm : FMinSearch) : Bool :=
  let max := forLoop (pfm.N1 - 1) (fun k max =>
    let i := k + 1
    let t := Dbl.fabs (Dbl.sub (rd pfm.fv i) (rd pfm.fv 0))
    if Dbl.lt max t then t else max) (Dbl.neg MAX_DOUBLE)
  Dbl.le max pfm.tolf

/-! ## Construction of the initial simplex -/

/-- The value stored in `v[i][j]` by `__fminsearch_min_init`.  The test `(i - 1) == j`
is on `int`, so it fails for `i = 0`. -/
def init_entry (pfm : FMinSearch) (X0 : List Dbl) (i j : Nat) : Dbl :=
  if decide (i > 1) && Dbl.isinf (rd pfm.fv (i - 1)) then
    if (i : Int) - 1 = (j : Int) then
      if (rd X0 j).toBool then
        Dbl.mul (Dbl.add (Dbl.ofInt 1) (Dbl.mul pfm.delta (Dbl.ofInt 100))) (rd X0 j)
      else pfm.zero_delta
    else rd X0 j
  else
    if (i : Int) - 1 = (j : Int) then
      if (rd X0 j).toBool then Dbl.mul (Dbl.add (Dbl.ofInt 1) pfm.delta) (rd X0 j)
      else pfm.zero_delta
    else rd X0 j

/-- The two nested loops of `__fminsearch_min_init`: every vertex is built and scored. -/
def __fminsearch_min_init_loop (pfm : FMinSearch) (X0 : List Dbl) : FMinSearch :=
  forLoop pfm.N1 (fun i pfm =>
    let pfm := forLoop pfm.N (fun j pfm =>
      { pfm with v := set2 pfm.v i j (init_entry pfm X0 i j) }) pfm
    { pfm with fv := pfm.fv.set i (calculate_score pfm (rd pfm.v i)) }) pfm

/-- The function `__fminsearch_min_init`. -/
def __fminsearch_min_init (pfm : FMinSearch) (X0 : List Dbl) : FMinSearch :=
  __fminsearch_sort (__fminsearch_min_init_loop pfm X0)

/-! ## The moves -/

/-- The function `__fminsearch_x_mean`: the centroid of the vertices `0 .. N-1`. -/
def __fminsearch_x_mean (pfm : FMinSearch) : FMinSearch :=
  { pfm with
    x_mean := forLoop pfm.N (fun i x_mean =>
      let x_mean := x_mean.set i (Dbl.ofInt 0)
      let x_mean := forLoop pfm.N (fun j x_mean =>
        x_mean.set i (Dbl.add (rd x_mean i) (rd (rd pfm.v j) i))) x_mean
      x_mean.set i (Dbl.div (rd x_mean i) (Dbl.ofInt pfm.N))) pfm.x_mean }

/-- The function `__fminsearch_x_reflection`; the returned score is the second component. -/
def __fminsearch_x_reflection (pfm : FMinSearch) : FMinSearch × Dbl :=
  let pfm := { pfm with
    x_r := forLoop pfm.N (fun i x_r =>
      x_r.set i (Dbl.add (rd pfm.x_mean i)
        (Dbl.mul pfm.rho (Dbl.sub (rd pfm.x_mean i) (rd (rd pfm.v pfm.N) i))))) pfm.x_r }
  (pfm, calculate_score pfm pfm.x_r)

/-- The function `__fminsearch_x_expansion`. -/
def __fminsearch_x_expansion (pfm : FMinSearch) : FMinSearch × Dbl :=
  let pfm := { pfm with
    x_tmp := forLoop pfm.N (fun i x_tmp =>
      x_tmp.set i (Dbl.add (rd pfm.x_mean i)
        (Dbl.mul pfm.chi (Dbl.sub (rd pfm.x_r i) (rd pfm.x_mean i))))) pfm.x_tmp }
  (pfm, calculate_score pfm pfm.x_tmp)

/-- The function `__fminsearch_x_contract_outside`. -/
def __fminsearch_x_contract_outside (pfm : FMinSearch) : FMinSearch × Dbl :=
  let pfm := { pfm with
    x_tmp := forLoop pfm.N (fun i x_tmp =>
      x_tmp.set i (Dbl.add (rd pfm.x_mean i)
        (Dbl.mul pfm.psi (Dbl.sub (rd pfm.x_r i) (rd pfm.x_mean i))))) pfm.x_tmp }
  (pfm, calculate_score pfm pfm.x_tmp)

/-- The function `__fminsearch_x_contract_inside`. -/
def __fminsearch_x_contract_inside (pfm : FMinSearch) : FMinSearch × Dbl :=
  let pfm := { pfm with
    x_tmp := forLoop pfm.N (fun i x_tmp =>
      x_tmp.set i (Dbl.add (rd pfm.x_mean i)
        (Dbl.mul pfm.psi (Dbl.sub (rd pfm.x_mean i) (rd (rd pfm.v pfm.N) i))))) pfm.x_tmp }
  (pfm, calculate_score pfm pfm.x_tmp)

/-- The loops of `__fminsearch_x_shrink`, before the sort: the vertices `1 .. N` move
towards vertex 0 and are scored again.  The loop `for (i = 1; i < N1; i++)` runs
`N1 - 1` rounds. -/
def __fminsearch_x_shrink_loop (pfm : FMinSearch) : FMinSearch :=
  forLoop (pfm.N1 - 1) (fun k pfm =>
    let i := k + 1
    let pfm := forLoop pfm.N (fun j pfm =>
      { pfm with
        v := set2 pfm.v i j (Dbl.add (rd (rd pfm.v 0) j)
          (Dbl.mul pfm.sigma (Dbl.sub (rd (rd pfm.v i) j) (rd (rd pfm.v 0) j)))) }) pfm
    { pfm with fv := pfm.fv.set i (calculate_score pfm (rd pfm.v i)) }) pfm

/-- The function `__fminsearch_x_shrink`. -/
def __fminsearch_x_shrink (pfm : FMinSearch) : FMinSearch :=
  __fminsearch_sort (__fminsearch_x_shrink_loop pfm)

/-- The assignments of `__fminsearch_set_last_element`, before the sort. -/
def __fminsearch_set_last_element_loop (pfm : FMinSearch) (x : List Dbl) (f : Dbl) :
    FMinSearch :=
  let v := forLoop pfm.N (fun i v => set2 v pfm.N i (rd x i)) pfm.v
  { pfm with v := v, fv := pfm.fv.set pfm.N f }

/-- The function `__fminsearch_set_last_element`. -/
def __fminsearch_set_last_element (pfm : FMinSearch) (x : List Dbl) (f : Dbl) : FMinSearch :=
  __fminsearch_sort (__fminsearch_set_last_element_loop pfm x f)

/-! ## The main loop -/

/-- The body of the loop of `fminsearch_min` after the convergence test: one
Nelder–Mead iteration. -/
def fminsearch_iteration (pfm : FMinSearch) : FMinSearch :=
  let pfm := __fminsearch_x_mean pfm
  let r := __fminsearch_x_reflection pfm
  let pfm := r.1
  let fv_r := r.2
  if Dbl.lt fv_r (rd pfm.fv 0) then
    let e := __fminsearch_x_expansion pfm
    let pfm := e.1
    let fv_e := e.2
    if Dbl.lt fv_e fv_r then __fminsearch_set_last_element pfm pfm.x_tmp fv_e
    else __fminsearch_set_last_element pfm pfm.x_r fv_r
  else if Dbl.le (rd pfm.fv pfm.N) fv_r then
    if Dbl.lt (rd pfm.fv pfm.N) fv_r then
      let c := __fminsearch_x_contract_inside pfm
      let pfm := c.1
      let fv_cc := c.2
      if Dbl.lt fv_cc (rd pfm.fv pfm.N) then __fminsearch_set_last_element pfm pfm.x_tmp fv_cc
      else __fminsearch_x_shrink pfm
    else
      let c := __fminsearch_x_contract_outside pfm
      let pfm := c.1
      let fv_c := c.2
      if Dbl.le fv_c fv_r then __fminsearch_set_last_element pfm pfm.x_tmp fv_c
      else __fminsearch_x_shrink pfm
  else __fminsearch_set_last_element pfm pfm.x_r fv_r

/-- The loop `for (i = 0; i < maxiters; i++) { if (converged) break; ... }` of
`fminsearch_min`, started with `remaining = maxiters - i` rounds to go; returns the
final state and the final `i`. -/
def fminsearch_loop : Nat → FMinSearch → Nat → FMinSearch × Nat
  | 0, pfm, i => (pfm, i)
  | remaining + 1, pfm, i =>
      if __fminsearch_checkV pfm && __fminsearch_checkF pfm then (pfm, i)
      else fminsearch_loop remaining (fminsearch_iteration pfm) (i + 1)

/-- The function `fminsearch_min`.  The value the C function returns is the field
`bymax` of the resulting state. -/
def fminsearch_min (pfm : FMinSearch) (X0 : List Dbl) : FMinSearch :=
  let pfm := __fminsearch_min_init pfm X0
  let r := fminsearch_loop pfm.maxiters pfm 0
  let pfm := r.1
  let i := r.2
  { pfm with bymax := if i = pfm.maxiters then 1 else 0, iters := i }

/-- The function `fminsearch_get_minX`. -/
def fminsearch_get_minX (pfm : FMinSearch) : List Dbl := rd pfm.v 0

/-- The function `fminsearch_get_minF`. -/
def fminsearch_get_minF (pfm : FMinSearch) : Dbl := rd pfm.fv 0

/-! ## Predicates used in the statements -/

/-- The scores `list[lo .. hi-1]` contain no NaN, so that `<=` is a total order on them. -/
def NoNaN (list : List Dbl) (lo hi : Nat) : Prop :=
  ∀ k, lo ≤ k → k < hi → rd list k ≠ Dbl.nan

/-- The scores `list[lo .. hi-1]` are in non-decreasing order. -/
def SortedOn (list : List Dbl) (lo hi : Nat) : Prop :=
  ∀ a b, lo ≤ a → a ≤ b → b < hi → Dbl.le (rd list a) (rd list b) = true

/-- The arrays `list2`, `idx2` are the arrays `list`, `idx` rearranged in step: one
permutation `σ` of the positions, the identity outside `[lo, hi)`, gives
`list2[k] = list[σ k]` and `idx2[k] = idx[σ k]` for all `k`. -/
def Rearranged (list : List Dbl) (idx : List Nat) (list2 : List Dbl) (idx2 : List Nat)
    (lo hi : Nat) : Prop :=
  list2.length = list.length ∧ idx2.length = idx.length ∧
  ∃ σ : Equiv.Perm ℕ, (∀ k, (k < lo ∨ hi ≤ k) → σ k = k) ∧
    ∀ k, rd list2 k = rd list (σ k) ∧ rd idx2 k = rd idx (σ k)

/-- Invariant of the partition loop of `__qsort_double_with_index` on the range
`[left, right]`.  The position `hole` (one of the two cursors) holds a stale copy;
with the pivot put there the arrays are a rearrangement of the arrays at entry.
Left of `from` everything is `<= pivot`, right of `to` everything is `>= pivot`. -/
structure HoleInv (orig : List Dbl) (oidx : List Nat) (left right : Nat) (pivot : Dbl)
    (pidx : Nat) (s : QState) (hole : Nat) : Prop where
  hlf : left ≤ s.from_
  hft : s.from_ ≤ s.to_
  htr : s.to_ ≤ right
  hlen : s.list.length = orig.length
  hilen : s.idx.length = oidx.length
  hhole : hole = s.from_ ∨ hole = s.to_
  hperm : ∃ σ : Equiv.Perm ℕ, (∀ k, (k < left ∨ right + 1 ≤ k) → σ k = k) ∧
      (∀ k, k ≠ hole → rd s.list k = rd orig (σ k) ∧ rd s.idx k = rd oidx (σ k)) ∧
      pivot = rd orig (σ hole) ∧ pidx = rd oidx (σ hole)
  hord : NoNaN orig left (right + 1) →
      (∀ k, left ≤ k → k < s.from_ → Dbl.le (rd s.list k) pivot = true) ∧
      (∀ k, s.to_ < k → k ≤ right → Dbl.le pivot (rd s.list k) = true)

/-- The arrays of the state have the sizes that `fminsearch_set_equation` allocates for
dimension `N`: `N + 1` vertices of `N` coordinates, `N + 1` scores and indices, and
scratch vectors of `N` coordinates. -/
structure FMinSearch.WF (pfm : FMinSearch) : Prop where
  hN1 : pfm.N1 = pfm.N + 1
  hfv : pfm.fv.length = pfm.N1
  hidx : pfm.idx.length = pfm.N1
  hv : pfm.v.length = pfm.N1
  hvrow : ∀ i, i < pfm.N1 → (rd pfm.v i).length = pfm.N
  hvsort : pfm.vsort.length = pfm.N1
  hvsortrow : ∀ i, i < pfm.N1 → (rd pfm.vsort i).length = pfm.N
  hx_mean : pfm.x_mean.length = pfm.N
  hx_r : pfm.x_r.length = pfm.N
  hx_tmp : pfm.x_tmp.length = pfm.N

/-- The state `q` has the configuration of `p`: dimension, scorer, coefficients,
tolerances and iteration cap. -/
structure SameConfig (p q : FMinSearch) : Prop where
  hN : q.N = p.N
  hN1 : q.N1 = p.N1
  hscorer : q.scorer = p.scorer
  hmaxiters : q.maxiters = p.maxiters
  hrho : q.rho = p.rho
  hchi : q.chi = p.chi
  hpsi : q.psi = p.psi
  hsigma : q.sigma = p.sigma
  htolx : q.tolx = p.tolx
  htolf : q.tolf = p.tolf
  hdelta : q.delta = p.delta
  hzero_delta : q.zero_delta = p.zero_delta

/-- The simplex of `q` is the simplex of `p` with its vertices reordered: one
permutation `σ` of the vertex numbers `0 .. N` gives `q.fv[k] = p.fv[σ k]` and
`q.v[k] = p.v[σ k]`. -/
def SimplexPerm (p q : FMinSearch) : Prop :=
  ∃ σ : Equiv.Perm ℕ, (∀ k, p.N1 ≤ k → σ k = k) ∧
    ∀ k, k < p.N1 → rd q.fv k = rd p.fv (σ k) ∧ rd q.v k = rd p.v (σ k) ∧ rd q.idx k = σ k

/-- The state `q` is the state `p` with at most the scratch vectors `x_mean`, `x_r`,
`x_tmp` changed: same configuration, same simplex, same scores. -/
structure Keeps (p q : FMinSearch) : Prop where
  hwf : q.WF
  hcfg : SameConfig p q
  hfv : q.fv = p.fv
  hv : q.v = p.v

/-- The coordinate `j` that `__fminsearch_x_shrink` gives to vertex `i` of the simplex
of `p`: `v[0][j] + sigma * (v[i][j] - v[0][j])`. -/
def shrink_entry (p : FMinSearch) (i j : Nat) : Dbl :=
  Dbl.add (rd (rd p.v 0) j)
    (Dbl.mul p.sigma (Dbl.sub (rd (rd p.v i) j) (rd (rd p.v 0) j)))

/-- Invariant of a run with the scorer `f`: the arrays have their sizes, the scorer is
attached and every vertex carries its own score, `fv[i] = f(v[i])`. -/
structure RunInv (f : List Dbl → Dbl) (q : FMinSearch) : Prop where
  hwf : q.WF
  hscorer : q.scorer = some f
  hpair : ∀ i, i < q.N1 → rd q.fv i = f (rd q.v i)

/-- A scorer of one parameter, `f(x) = x[0]^2`, with `+inf` where the square is not a
number. -/
def sqScore (x : List Dbl) : Dbl :=
  match rd x 0 with
  | Dbl.fin q => Dbl.fin (q * q)
  | _ => Dbl.pinf

/-- The optimizer for `sqScore` in dimension 1 with the default configuration. -/
def sqOptimizer : FMinSearch := fminsearch_new_with_eq sqScore 1

/-- The optimizer for `sqScore` in dimension 1 with the iteration cap set to 0. -/
def sqOptimizerCap0 : FMinSearch := { sqOptimizer with maxiters := 0 }

/-- A scorer of two parameters, `f(x, y) = (x - 3)^2 + (y + 1)^2`. -/
def quadScore (x : List Dbl) : Dbl :=
  Dbl.add (Dbl.mul (Dbl.sub (rd x 0) (Dbl.fin 3)) (Dbl.sub (rd x 0) (Dbl.fin 3)))
    (Dbl.mul (Dbl.add (rd x 1) (Dbl.fin 1)) (Dbl.add (rd x 1) (Dbl.fin 1)))

/-- The optimizer for `quadScore` in dimension 2 with the default configuration. -/
def quadOptimizer : FMinSearch := fminsearch_new_with_eq quadScore 2

/-- The convex quadratic `f(x) = sum_i (x[i] - c[i])^2` with centre `c`. -/
def quadratic (c : List Dbl) (x : List Dbl) : Dbl :=
  forLoop c.length (fun i acc =>
    Dbl.add acc (Dbl.mul (Dbl.sub (rd x i) (rd c i)) (Dbl.sub (rd x i) (rd c i)))) (Dbl.fin 0)

/-- A scorer of one parameter, `f(x) = x[0]^2` for `lo <= x[0] <= hi` and NaN outside
this interval. -/
def nanScore (lo hi : ℚ) (x : List Dbl) : Dbl :=
  match rd x 0 with
  | Dbl.fin q => if q < lo ∨ hi < q then Dbl.nan else Dbl.fin (q * q)
  | _ => Dbl.nan

/-- The optimizer for `nanScore lo hi` in dimension 1 with the default configuration. -/
def nanOptimizer (lo hi : ℚ) : FMinSearch := fminsearch_new_with_eq (nanScore lo hi) 1

/-- The optimizer for `nanScore 0 1.01` in dimension 1 with the iteration cap set to 0. -/
def nanOptimizerCap0 : FMinSearch := { nanOptimizer 0 (101 / 100) with maxiters := 0 }

/-! ## The points of a Nelder–Mead step, written as formulas

The functions `__fminsearch_x_*` compute the trial points in loops over the scratch
vectors.  The definitions below state the same points coordinate by coordinate, as the
specification words them; the theorems relate the two. -/

/-- Coordinate `j` of the centroid of the vertices `0 .. N-1` (the worst vertex `N` is
left out): the sum of their coordinates `j`, added up from vertex 0 on, divided by `N`. -/
def centroid (p : FMinSearch) (j : Nat) : Dbl :=
  Dbl.div (forLoop p.N (fun i acc => Dbl.add acc (rd (rd p.v i) j)) (Dbl.ofInt 0))
    (Dbl.ofInt p.N)

/-- The centroid as a vector of `N` coordinates. -/
def centroid_point (p : FMinSearch) : List Dbl :=
  (List.range p.N).map (fun j => centroid p j)

/-- The reflected point `centroid + rho * (centroid - v[N])`. -/
def reflection_point (p : FMinSearch) : List Dbl :=
  (List.range p.N).map (fun j =>
    Dbl.add (centroid p j) (Dbl.mul p.rho (Dbl.sub (centroid p j) (rd (rd p.v p.N) j))))

/-- The expanded point `centroid + chi * (x_r - centroid)`. -/
def expansion_point (p : FMinSearch) : List Dbl :=
  (List.range p.N).map (fun j =>
    Dbl.add (centroid p j)
      (Dbl.mul p.chi (Dbl.sub (rd (reflection_point p) j) (centroid p j))))

/-- The outside contraction `centroid + psi * (x_r - centroid)`. -/
def contract_outside_point (p : FMinSearch) : List Dbl :=
  (List.range p.N).map (fun j =>
    Dbl.add (centroid p j)
      (Dbl.mul p.psi (Dbl.sub (rd (reflection_point p) j) (centroid p j))))

/-- The inside contraction `centroid + psi * (centroid - v[N])`. -/
def contract_inside_point (p : FMinSearch) : List Dbl :=
  (List.range p.N).map (fun j =>
    Dbl.add (centroid p j) (Dbl.mul p.psi (Dbl.sub (centroid p j) (rd (rd p.v p.N) j))))

/-- The point `v[0] + sigma * (v[i] - v[0])` to which a shrink moves vertex `i`. -/
def shrink_point (p : FMinSearch) (i : Nat) : List Dbl :=
  (List.range p.N).map (fun j => shrink_entry p i j)

/-- The simplex of `p` with vertex `N`, the worst one of a sorted simplex, replaced by
the point `x` with the score `val`; nothing is sorted yet. -/
def replace_worst (p : FMinSearch) (x : List Dbl) (val : Dbl) : FMinSearch :=
  { p with v := p.v.set p.N x, fv := p.fv.set p.N val }

/-- The state `p` with the scratch vectors `x_mean`, `x_r`, `x_tmp` set to `a`, `b`, `c`. -/
def with_scratch (a b c : List Dbl) (p : FMinSearch) : FMinSearch :=
  { p with x_mean := a, x_r := b, x_tmp := c }

/-- Two arrays agree at every position of the range `[lo, hi]`. -/
def AgreeOn {β : Type} [Inhabited β] (a b : List β) (lo hi : Nat) : Prop :=
  ∀ k, lo ≤ k → k ≤ hi → rd a k = rd b k

/-! ## Further concrete inputs -/

/-- A scorer of two parameters with a tie: 2 at the point `(1, 1)` and 1 everywhere
else. -/
def tieScore (x : List Dbl) : Dbl :=
  if rd x 0 = Dbl.fin 1 ∧ rd x 1 = Dbl.fin 1 then Dbl.fin 2 else Dbl.fin 1

/-- The optimizer for `tieScore` in dimension 2 with the default configuration. -/
def tieOptimizer : FMinSearch := fminsearch_new_with_eq tieScore 2

/-- The sorted start simplex of `sqOptimizer` at `x0 = 1`: the vertices 1 and 1.05. -/
def sqStart : FMinSearch := __fminsearch_min_init sqOptimizer [Dbl.fin 1]

/-- The sorted start simplex of `sqOptimizer` at `x0 = 0`: the vertices 0 and 0.00025. -/
def sqStartZero : FMinSearch := __fminsearch_min_init sqOptimizer [Dbl.fin 0]

/-- The optimizer for `f(x) = (x - 1.06)^2` in dimension 1 with the default
configuration. -/
def offsetOptimizer : FMinSearch := fminsearch_new_with_eq (quadratic [Dbl.fin (53 / 50)]) 1

/-- The sorted start simplex of `offsetOptimizer` at `x0 = 1`: the vertices 1.05 and 1. -/
def offsetStart : FMinSearch := __fminsearch_min_init offsetOptimizer [Dbl.fin 1]

/-- Two states of the partition loop with the same cursors inside `[lo, hi]` whose arrays
have the same lengths and agree at every position of `[lo, hi]`. -/
structure QAgree (lo hi : Nat) (s1 s2 : QState) : Prop where
  hfrom : s2.from_ = s1.from_
  hto : s2.to_ = s1.to_
  hlist : AgreeOn s1.list s2.list lo hi
  hidx : AgreeOn s1.idx s2.idx lo hi
  hlen : s2.list.length = s1.list.length
  hilen : s2.idx.length = s1.idx.length
  hlo : lo ≤ s1.from_
  hft : s1.from_ ≤ s1.to_
  hhi : s1.to_ ≤ hi

/-! ## Basic facts about arrays and loops -/

theorem rd_set {β : Type} [Inhabited β] (a : List β) (i j : Nat) (x : β) :
    rd (a.set i x) j = if i = j ∧ i < a.length then x else rd a j := by
  unfold rd
  simp only [List.getD_eq_getElem?_getD, List.getElem?_set]
  by_cases hij : i = j
  · subst hij
    by_cases hi : i < a.length
    · simp [hi]
    · have hj : a.length ≤ i := by omega
      simp [hi, List.getElem?_eq_none hj]
  · simp [hij]

theorem rd_set_self {β : Type} [Inhabited β] (a : List β) (i : Nat) (x : β)
    (h : i < a.length) : rd (a.set i x) i = x := by
  simp [rd_set, h]

theorem rd_set_ne {β : Type} [Inhabited β] (a : List β) (i j : Nat) (x : β)
    (h : i ≠ j) : rd (a.set i x) j = rd a j := by
  simp [rd_set, h]

theorem rd_eq_getElem {β : Type} [Inhabited β] (a : List β) (i : Nat) (h : i < a.length) :
    rd a i = a[i] := by
  unfold rd
  simp [List.getD_eq_getElem?_getD, List.getElem?_eq_getElem h]

theorem rd_of_le {β : Type} [Inhabited β] (a : List β) (i : Nat) (h : a.length ≤ i) :
    rd a i = default := by
  unfold rd
  simp [List.getD_eq_getElem?_getD, List.getElem?_eq_none h]

/-- Two arrays of the same size with the same entries are equal. -/
theorem list_ext_rd {β : Type} [Inhabited β] (a b : List β) (hlen : a.length = b.length)
    (h : ∀ i, i < a.length → rd a i = rd b i) : a = b := by
  apply List.ext_getElem hlen
  intro i h1 h2
  have := h i h1
  rwa [rd_eq_getElem a i h1, rd_eq_getElem b i h2] at this

theorem forLoop_zero {σ : Type} (body : Nat → σ → σ) (s : σ) : forLoop 0 body s = s := rfl

theorem forLoop_succ {σ : Type} (n : Nat) (body : Nat → σ → σ) (s : σ) :
    forLoop (n + 1) body s = body n (forLoop n body s) := rfl

/-- Loop invariant rule for `forLoop`. -/
theorem forLoop_inv {σ : Type} (P : Nat → σ → Prop) (n : Nat) (body : Nat → σ → σ) (s : σ)
    (h0 : P 0 s) (hstep : ∀ i t, i < n → P i t → P (i + 1) (body i t)) :
    P n (forLoop n body s) := by
  induction n with
  | zero => exact h0
  | succ m ih =>
    rw [forLoop_succ]
    exact hstep m _ (Nat.lt_succ_self m)
      (ih (fun i t hi hp => hstep i t (Nat.lt_succ_of_lt hi) hp))

/-- Two loops whose bodies agree on the indices that are run are equal. -/
theorem forLoop_congr {σ : Type} (n : Nat) (f g : Nat → σ → σ) (s : σ)
    (h : ∀ i t, i < n → f i t = g i t) : forLoop n f s = forLoop n g s := by
  induction n with
  | zero => rfl
  | succ m ih =>
    rw [forLoop_succ, forLoop_succ, ih (fun i t hi => h i t (Nat.lt_succ_of_lt hi))]
    exact h m _ (Nat.lt_succ_self m)

/-! ## The order on `Dbl` -/

namespace Dbl

theorem le_refl_of_ne_nan (a : Dbl) (h : a ≠ nan) : le a a = true := by
  cases a <;> simp_all [le]

theorem le_transitive {a b c : Dbl} (h1 : le a b = true) (h2 : le b c = true) : le a c = true := by
  cases a <;> cases b <;> cases c <;> simp_all [le]
  exact le_trans h1 h2

theorem le_total_of_ne_nan {a b : Dbl} (ha : a ≠ nan) (hb : b ≠ nan) (h : le a b = false) :
    le b a = true := by
  cases a <;> cases b <;> simp_all [le]
  exact h.le

theorem ne_nan_of_le_right {a b : Dbl} (h : le a b = true) : b ≠ nan := by
  cases a <;> cases b <;> simp_all [le]

theorem lt_iff_not_le {a b : Dbl} (ha : a ≠ nan) (hb : b ≠ nan) :
    lt a b = true ↔ le b a = false := by
  cases a <;> cases b <;> simp_all [le, lt]

theorem le_of_lt_true {a b : Dbl} (h : lt a b = true) : le a b = true := by
  cases a <;> cases b <;> simp_all [le, lt]
  exact h.le

theorem ne_nan_of_lt_left {a b : Dbl} (h : lt a b = true) : a ≠ nan := by
  cases a <;> cases b <;> simp_all [lt]

end Dbl

/-- A permutation of the indices that fixes everything outside `[lo, hi)` maps
`[lo, hi)` into itself. -/
theorem perm_maps_range (σ : Equiv.Perm ℕ) (lo hi : Nat)
    (hfix : ∀ k, (k < lo ∨ hi ≤ k) → σ k = k) (k : Nat) (h1 : lo ≤ k) (h2 : k < hi) :
    lo ≤ σ k ∧ σ k < hi := by
  by_contra hc
  have hout : σ k < lo ∨ hi ≤ σ k := by omega
  have h3 : σ (σ k) = σ k := hfix _ hout
  have h4 : σ k = k := σ.injective h3
  omega

/-! ## Correctness of the quicksort -/

theorem qsort_scan_down_spec (list : List Dbl) (pivot : Dbl) (from_ : Nat) :
    ∀ to_, from_ ≤ to_ →
      from_ ≤ qsort_scan_down list pivot from_ to_ ∧
      qsort_scan_down list pivot from_ to_ ≤ to_ ∧
      (∀ k, qsort_scan_down list pivot from_ to_ < k → k ≤ to_ →
        Dbl.le pivot (rd list k) = true) ∧
      (qsort_scan_down list pivot from_ to_ = from_ ∨
        Dbl.le pivot (rd list (qsort_scan_down list pivot from_ to_)) = false) := by
  intro to_
  induction to_ with
  | zero =>
    intro h
    have : from_ = 0 := by omega
    subst this
    simp only [qsort_scan_down]
    exact ⟨le_refl _, le_refl _, fun k hk1 hk2 => by omega, Or.inl trivial⟩
  | succ t ih =>
    intro h
    unfold qsort_scan_down
    by_cases hc : (Dbl.le pivot (rd list (t + 1)) && decide (from_ < t + 1)) = true
    · rw [if_pos hc]
      simp only [Bool.and_eq_true, decide_eq_true_eq] at hc
      obtain ⟨h1, h2, h3, h4⟩ := ih (by omega)
      refine ⟨h1, by omega, ?_, h4⟩
      intro k hk1 hk2
      by_cases hk : k = t + 1
      · subst hk; exact hc.1
      · exact h3 k hk1 (by omega)
    · rw [if_neg hc]
      simp only [Bool.and_eq_true, decide_eq_true_eq, not_and] at hc
      refine ⟨h, le_refl _, fun k hk1 hk2 => by omega, ?_⟩
      by_cases hlt : from_ < t + 1
      · right
        by_contra hle
        simp only [Bool.not_eq_false] at hle
        exact hc hle hlt
      · left; omega

theorem qsort_scan_up_spec (list : List Dbl) (pivot : Dbl) (to_ : Nat) :
    ∀ fuel from_, from_ ≤ to_ → to_ - from_ ≤ fuel →
      from_ ≤ qsort_scan_up list pivot to_ fuel from_ ∧
      qsort_scan_up list pivot to_ fuel from_ ≤ to_ ∧
      (∀ k, from_ ≤ k → k < qsort_scan_up list pivot to_ fuel from_ →
        Dbl.le (rd list k) pivot = true) ∧
      (qsort_scan_up list pivot to_ fuel from_ = to_ ∨
        Dbl.le (rd list (qsort_scan_up list pivot to_ fuel from_)) pivot = false) := by
  intro fuel
  induction fuel with
  | zero =>
    intro from_ h1 h2
    have : from_ = to_ := by omega
    subst this
    simp only [qsort_scan_up]
    exact ⟨le_refl _, le_refl _, fun k hk1 hk2 => by omega, Or.inl trivial⟩
  | succ n ih =>
    intro from_ h1 h2
    unfold qsort_scan_up
    by_cases hc : (Dbl.le (rd list from_) pivot && decide (from_ < to_)) = true
    · rw [if_pos hc]
      simp only [Bool.and_eq_true, decide_eq_true_eq] at hc
      obtain ⟨g1, g2, g3, g4⟩ := ih (from_ + 1) (by omega) (by omega)
      refine ⟨by omega, g2, ?_, g4⟩
      intro k hk1 hk2
      by_cases hk : k = from_
      · subst hk; exact hc.1
      · exact g3 k (by omega) hk2
    · rw [if_neg hc]
      simp only [Bool.and_eq_true, decide_eq_true_eq, not_and] at hc
      refine ⟨le_refl _, h1, fun k hk1 hk2 => by omega, ?_⟩
      by_cases hlt : from_ < to_
      · right
        by_contra hle
        simp only [Bool.not_eq_false] at hle
        exact hc hle hlt
      · left; omega
/-- Moving the element at `src` into the hole `h` moves the hole to `src`. -/
theorem hole_move (orig : List Dbl) (oidx : List Nat) (left right : Nat) (pivot : Dbl)
    (pidx : Nat) (list : List Dbl) (idx : List Nat) (h src : Nat)
    (hh1 : left ≤ h) (hh2 : h ≤ right) (hs1 : left ≤ src) (hs2 : src ≤ right)
    (hne : h ≠ src) (hr : right < list.length) (hri : right < idx.length)
    (hperm : ∃ σ : Equiv.Perm ℕ, (∀ k, (k < left ∨ right + 1 ≤ k) → σ k = k) ∧
      (∀ k, k ≠ h → rd list k = rd orig (σ k) ∧ rd idx k = rd oidx (σ k)) ∧
      pivot = rd orig (σ h) ∧ pidx = rd oidx (σ h)) :
    ∃ σ : Equiv.Perm ℕ, (∀ k, (k < left ∨ right + 1 ≤ k) → σ k = k) ∧
      (∀ k, k ≠ src → rd (list.set h (rd list src)) k = rd orig (σ k) ∧
        rd (idx.set h (rd idx src)) k = rd oidx (σ k)) ∧
      pivot = rd orig (σ src) ∧ pidx = rd oidx (σ src) := by
  obtain ⟨σ, hfix, hval, hp, hpi⟩ := hperm
  refine ⟨σ * Equiv.swap h src, ?_, ?_, ?_, ?_⟩
  · intro k hk
    have h1 : k ≠ h := by omega
    have h2 : k ≠ src := by omega
    rw [Equiv.Perm.mul_apply, Equiv.swap_apply_of_ne_of_ne h1 h2]
    exact hfix k hk
  · intro k hk
    by_cases hkh : k = h
    · subst hkh
      rw [Equiv.Perm.mul_apply, Equiv.swap_apply_left, rd_set_self _ _ _ (by omega),
        rd_set_self _ _ _ (by omega)]
      exact hval src (Ne.symm hne)
    · rw [Equiv.Perm.mul_apply, Equiv.swap_apply_of_ne_of_ne hkh hk,
        rd_set_ne _ _ _ _ (Ne.symm hkh), rd_set_ne _ _ _ _ (Ne.symm hkh)]
      exact hval k hkh
  · rw [Equiv.Perm.mul_apply, Equiv.swap_apply_right]; exact hp
  · rw [Equiv.Perm.mul_apply, Equiv.swap_apply_right]; exact hpi

/-- Under the invariant, an element of the range other than the hole is not NaN, and
neither is the pivot. -/
theorem HoleInv.ne_nan {orig : List Dbl} {oidx : List Nat} {left right : Nat} {pivot : Dbl}
    {pidx : Nat} {s : QState} {hole : Nat}
    (h : HoleInv orig oidx left right pivot pidx s hole)
    (hnn : NoNaN orig left (right + 1)) :
    pivot ≠ Dbl.nan ∧ ∀ k, left ≤ k → k ≤ right → k ≠ hole → rd s.list k ≠ Dbl.nan := by
  obtain ⟨σ, hfix, hval, hp, _⟩ := h.hperm
  have hhole : left ≤ hole ∧ hole ≤ right := by
    have := h.hlf; have := h.hft; have := h.htr
    rcases h.hhole with e | e <;> omega
  constructor
  · rw [hp]
    have := perm_maps_range σ left (right + 1) hfix hole hhole.1 (by omega)
    exact hnn _ this.1 this.2
  · intro k hk1 hk2 hk3
    rw [(hval k hk3).1]
    have := perm_maps_range σ left (right + 1) hfix k hk1 (by omega)
    exact hnn _ this.1 this.2

theorem HoleInv.scan_down {orig : List Dbl} {oidx : List Nat} {left right : Nat}
    {pivot : Dbl} {pidx : Nat} {s : QState}
    (h : HoleInv orig oidx left right pivot pidx s s.from_) :
    HoleInv orig oidx left right pivot pidx
      { s with to_ := qsort_scan_down s.list pivot s.from_ s.to_ } s.from_ := by
  obtain ⟨h1, h2, h3, _⟩ := qsort_scan_down_spec s.list pivot s.from_ s.to_ h.hft
  refine ⟨h.hlf, h1, le_trans h2 h.htr, h.hlen, h.hilen, Or.inl rfl, h.hperm, ?_⟩
  intro hnn
  obtain ⟨o1, o2⟩ := h.hord hnn
  refine ⟨o1, ?_⟩
  intro k hk1 hk2
  by_cases hk : k ≤ s.to_
  · exact h3 k hk1 hk
  · exact o2 k (by omega) hk2

theorem HoleInv.move_down {orig : List Dbl} {oidx : List Nat} {left right : Nat}
    {pivot : Dbl} {pidx : Nat} {s : QState}
    (h : HoleInv orig oidx left right pivot pidx s s.from_)
    (hr : right < orig.length) (hio : oidx.length = orig.length)
    (hne : s.from_ ≠ s.to_) (hstop : Dbl.le pivot (rd s.list s.to_) = false) :
    HoleInv orig oidx left right pivot pidx
      { list := s.list.set s.from_ (rd s.list s.to_)
        idx := s.idx.set s.from_ (rd s.idx s.to_)
        from_ := s.from_ + 1
        to_ := s.to_ } s.to_ := by
  have hlf := h.hlf; have hft := h.hft; have htr := h.htr
  have hlen := h.hlen; have hilen := h.hilen
  refine ⟨by simp only; omega, by simp only; omega, htr, by simp [hlen], by simp [hilen],
    Or.inr rfl, ?_, ?_⟩
  · exact hole_move orig oidx left right pivot pidx s.list s.idx s.from_ s.to_
      hlf (by omega) (by omega) htr hne (by omega) (by omega) h.hperm
  · intro hnn
    obtain ⟨o1, o2⟩ := h.hord hnn
    obtain ⟨n1, n2⟩ := h.ne_nan hnn
    constructor
    · intro k hk1 hk2
      simp only at hk2 ⊢
      by_cases hk : k = s.from_
      · subst hk
        rw [rd_set_self _ _ _ (by omega)]
        exact Dbl.le_total_of_ne_nan n1 (n2 s.to_ (by omega) htr (Ne.symm hne)) hstop
      · rw [rd_set_ne _ _ _ _ (Ne.symm hk)]
        exact o1 k hk1 (by omega)
    · intro k hk1 hk2
      simp only at hk1 ⊢
      rw [rd_set_ne _ _ _ _ (by omega)]
      exact o2 k hk1 hk2

theorem HoleInv.scan_up {orig : List Dbl} {oidx : List Nat} {left right : Nat}
    {pivot : Dbl} {pidx : Nat} {s : QState}
    (h : HoleInv orig oidx left right pivot pidx s s.to_) :
    HoleInv orig oidx left right pivot pidx
      { s with from_ := qsort_scan_up s.list pivot s.to_ (s.to_ - s.from_) s.from_ }
      s.to_ := by
  obtain ⟨h1, h2, h3, _⟩ :=
    qsort_scan_up_spec s.list pivot s.to_ (s.to_ - s.from_) s.from_ h.hft (le_refl _)
  refine ⟨le_trans h.hlf h1, h2, h.htr, h.hlen, h.hilen, Or.inr rfl, h.hperm, ?_⟩
  intro hnn
  obtain ⟨o1, o2⟩ := h.hord hnn
  refine ⟨?_, o2⟩
  intro k hk1 hk2
  by_cases hk : k < s.from_
  · exact o1 k hk1 hk
  · exact h3 k (by omega) hk2

theorem HoleInv.move_up {orig : List Dbl} {oidx : List Nat} {left right : Nat}
    {pivot : Dbl} {pidx : Nat} {s : QState}
    (h : HoleInv orig oidx left right pivot pidx s s.to_)
    (hr : right < orig.length) (hio : oidx.length = orig.length)
    (hne : s.from_ ≠ s.to_) (hstop : Dbl.le (rd s.list s.from_) pivot = false) :
    HoleInv orig oidx left right pivot pidx
      { list := s.list.set s.to_ (rd s.list s.from_)
        idx := s.idx.set s.to_ (rd s.idx s.from_)
        from_ := s.from_
        to_ := s.to_ - 1 } s.from_ := by
  have hlf := h.hlf; have hft := h.hft; have htr := h.htr
  have hlen := h.hlen; have hilen := h.hilen
  refine ⟨hlf, by simp only; omega, by simp only; omega, by simp [hlen], by simp [hilen],
    Or.inl rfl, ?_, ?_⟩
  · exact hole_move orig oidx left right pivot pidx s.list s.idx s.to_ s.from_
      (by omega) htr hlf (by omega) (Ne.symm hne) (by omega) (by omega) h.hperm
  · intro hnn
    obtain ⟨o1, o2⟩ := h.hord hnn
    obtain ⟨n1, n2⟩ := h.ne_nan hnn
    constructor
    · intro k hk1 hk2
      simp only at hk2 ⊢
      rw [rd_set_ne _ _ _ _ (by omega)]
      exact o1 k hk1 hk2
    · intro k hk1 hk2
      simp only at hk1 ⊢
      by_cases hk : k = s.to_
      · subst hk
        rw [rd_set_self _ _ _ (by omega)]
        exact Dbl.le_total_of_ne_nan (n2 s.from_ hlf (by omega) hne) n1 hstop
      · rw [rd_set_ne _ _ _ _ (Ne.symm hk)]
        exact o2 k (by omega) hk2
theorem qsort_down_inv {orig : List Dbl} {oidx : List Nat} {left right : Nat}
    {pivot : Dbl} {pidx : Nat} {s : QState}
    (h : HoleInv orig oidx left right pivot pidx s s.from_)
    (hr : right < orig.length) (hio : oidx.length = orig.length) (hlt : s.from_ < s.to_) :
    HoleInv orig oidx left right pivot pidx (qsort_down pivot s) (qsort_down pivot s).to_ ∧
    (qsort_down pivot s).to_ - (qsort_down pivot s).from_ < s.to_ - s.from_ := by
  have hd := h.scan_down
  obtain ⟨d1, d2, _, d4⟩ := qsort_scan_down_spec s.list pivot s.from_ s.to_ h.hft
  unfold qsort_down
  simp only
  by_cases c : s.from_ = qsort_scan_down s.list pivot s.from_ s.to_
  · rw [if_neg (not_not.mpr c)]
    simp only
    constructor
    · have e : qsort_scan_down s.list pivot s.from_ s.to_ = s.from_ := c.symm
      rw [e] at hd ⊢
      exact hd
    · omega
  · rw [if_pos c]
    simp only
    have hstop : Dbl.le pivot (rd s.list (qsort_scan_down s.list pivot s.from_ s.to_)) = false := by
      rcases d4 with e | e
      · exact absurd e.symm c
      · exact e
    exact ⟨HoleInv.move_down hd hr hio c hstop, by omega⟩

theorem qsort_up_inv {orig : List Dbl} {oidx : List Nat} {left right : Nat}
    {pivot : Dbl} {pidx : Nat} {s : QState}
    (h : HoleInv orig oidx left right pivot pidx s s.to_)
    (hr : right < orig.length) (hio : oidx.length = orig.length) :
    HoleInv orig oidx left right pivot pidx (qsort_up pivot s) (qsort_up pivot s).from_ ∧
    (qsort_up pivot s).to_ - (qsort_up pivot s).from_ ≤ s.to_ - s.from_ := by
  have hu := h.scan_up
  obtain ⟨u1, u2, _, u4⟩ :=
    qsort_scan_up_spec s.list pivot s.to_ (s.to_ - s.from_) s.from_ h.hft (le_refl _)
  unfold qsort_up
  simp only
  by_cases c : qsort_scan_up s.list pivot s.to_ (s.to_ - s.from_) s.from_ = s.to_
  · rw [if_neg (not_not.mpr c)]
    simp only
    constructor
    · rw [c] at hu ⊢
      exact hu
    · omega
  · rw [if_pos c]
    simp only
    have hstop : Dbl.le (rd s.list (qsort_scan_up s.list pivot s.to_ (s.to_ - s.from_) s.from_))
        pivot = false := by
      rcases u4 with e | e
      · exact absurd e c
      · exact e
    exact ⟨HoleInv.move_up hu hr hio c hstop, by omega⟩

theorem qsort_round_inv {orig : List Dbl} {oidx : List Nat} {left right : Nat}
    {pivot : Dbl} {pidx : Nat} {s : QState}
    (h : HoleInv orig oidx left right pivot pidx s s.from_)
    (hr : right < orig.length) (hio : oidx.length = orig.length) (hlt : s.from_ < s.to_) :
    HoleInv orig oidx left right pivot pidx (qsort_round pivot s) (qsort_round pivot s).from_ ∧
    (qsort_round pivot s).to_ - (qsort_round pivot s).from_ < s.to_ - s.from_ := by
  obtain ⟨h1, h2⟩ := qsort_down_inv h hr hio hlt
  obtain ⟨h3, h4⟩ := qsort_up_inv h1 hr hio
  exact ⟨h3, by unfold qsort_round; omega⟩

theorem qsort_partition_inv {orig : List Dbl} {oidx : List Nat} {left right : Nat}
    {pivot : Dbl} {pidx : Nat} (hr : right < orig.length) (hio : oidx.length = orig.length) :
    ∀ (fuel : Nat) (s : QState), HoleInv orig oidx left right pivot pidx s s.from_ →
      s.to_ - s.from_ ≤ fuel →
      HoleInv orig oidx left right pivot pidx (qsort_partition pivot fuel s)
        (qsort_partition pivot fuel s).from_ ∧
      (qsort_partition pivot fuel s).from_ = (qsort_partition pivot fuel s).to_ := by
  intro fuel
  induction fuel with
  | zero =>
    intro s h hf
    have := h.hft
    exact ⟨h, by simp only [qsort_partition]; omega⟩
  | succ n ih =>
    intro s h hf
    unfold qsort_partition
    by_cases c : s.from_ < s.to_
    · rw [if_pos c]
      obtain ⟨h1, h2⟩ := qsort_round_inv h hr hio c
      exact ih _ h1 (by omega)
    · rw [if_neg c]
      have := h.hft
      exact ⟨h, by omega⟩
theorem Rearranged.id_perm (list : List Dbl) (idx : List Nat) (lo hi : Nat) :
    Rearranged list idx list idx lo hi :=
  ⟨rfl, rfl, 1, fun _ _ => rfl, fun _ => ⟨rfl, rfl⟩⟩

/-- Rearrangements compose; the second may act on a part of the range of the first. -/
theorem Rearranged.comp {l0 l1 l2 : List Dbl} {i0 i1 i2 : List Nat} {lo hi lo2 hi2 : Nat}
    (h1 : Rearranged l0 i0 l1 i1 lo hi) (h2 : Rearranged l1 i1 l2 i2 lo2 hi2)
    (hlo : lo ≤ lo2) (hhi : hi2 ≤ hi) : Rearranged l0 i0 l2 i2 lo hi := by
  obtain ⟨a1, a2, σ1, f1, v1⟩ := h1
  obtain ⟨b1, b2, σ2, f2, v2⟩ := h2
  refine ⟨b1.trans a1, b2.trans a2, σ1 * σ2, ?_, ?_⟩
  · intro k hk
    rw [Equiv.Perm.mul_apply, f2 k (by omega), f1 k hk]
  · intro k
    rw [Equiv.Perm.mul_apply, (v2 k).1, (v2 k).2, (v1 _).1, (v1 _).2]
    exact ⟨rfl, rfl⟩

/-- Outside the range nothing changes. -/
theorem Rearranged.outside {l0 l1 : List Dbl} {i0 i1 : List Nat} {lo hi : Nat}
    (h : Rearranged l0 i0 l1 i1 lo hi) (k : Nat) (hk : k < lo ∨ hi ≤ k) :
    rd l1 k = rd l0 k ∧ rd i1 k = rd i0 k := by
  obtain ⟨_, _, σ, f, v⟩ := h
  rw [(v k).1, (v k).2, f k hk]
  exact ⟨rfl, rfl⟩

/-- Inside the range every new element is an old element of the range. -/
theorem Rearranged.inside {l0 l1 : List Dbl} {i0 i1 : List Nat} {lo hi : Nat}
    (h : Rearranged l0 i0 l1 i1 lo hi) (k : Nat) (hk1 : lo ≤ k) (hk2 : k < hi) :
    ∃ m, lo ≤ m ∧ m < hi ∧ rd l1 k = rd l0 m ∧ rd i1 k = rd i0 m := by
  obtain ⟨_, _, σ, f, v⟩ := h
  have := perm_maps_range σ lo hi f k hk1 hk2
  exact ⟨σ k, this.1, this.2, (v k).1, (v k).2⟩

/-- Inside the range every old element is a new element of the range. -/
theorem Rearranged.inside_inv {l0 l1 : List Dbl} {i0 i1 : List Nat} {lo hi : Nat}
    (h : Rearranged l0 i0 l1 i1 lo hi) (m : Nat) (hm1 : lo ≤ m) (hm2 : m < hi) :
    ∃ k, lo ≤ k ∧ k < hi ∧ rd l1 k = rd l0 m ∧ rd i1 k = rd i0 m := by
  obtain ⟨_, _, σ, f, v⟩ := h
  have hfix : ∀ k, (k < lo ∨ hi ≤ k) → σ.symm k = k := by
    intro k hk
    have := f k hk
    exact (Equiv.symm_apply_eq σ).mpr this.symm
  have := perm_maps_range σ.symm lo hi hfix m hm1 hm2
  refine ⟨σ.symm m, this.1, this.2, ?_, ?_⟩
  · rw [(v _).1, Equiv.apply_symm_apply]
  · rw [(v _).2, Equiv.apply_symm_apply]

theorem Rearranged.keeps_noNaN {l0 l1 : List Dbl} {i0 i1 : List Nat} {lo hi : Nat}
    (h : Rearranged l0 i0 l1 i1 lo hi) {a b : Nat} (hn : NoNaN l0 a b)
    (ha : a ≤ lo) (hb : hi ≤ b) : NoNaN l1 a b := by
  intro k hk1 hk2
  by_cases hin : lo ≤ k ∧ k < hi
  · obtain ⟨m, m1, m2, e, _⟩ := h.inside k hin.1 hin.2
    rw [e]
    exact hn m (by omega) (by omega)
  · rw [(h.outside k (by omega)).1]
    exact hn k hk1 hk2

theorem NoNaN.mono {l : List Dbl} {a b c d : Nat} (h : NoNaN l a b) (h1 : a ≤ c) (h2 : d ≤ b) :
    NoNaN l c d :=
  fun k hk1 hk2 => h k (by omega) (by omega)

/-- The partition step of `__qsort_double_with_index`: afterwards the pivot sits at
`from`, smaller-or-equal scores left of it and greater-or-equal scores right of it. -/
theorem qsort_partition_spec (list : List Dbl) (idx : List Nat) (left right : Nat)
    (hlr : left ≤ right) (hr : right < list.length) (hio : idx.length = list.length)
    (s : QState)
    (hs : s = qsort_partition (rd list left) (right - left)
      { list := list, idx := idx, from_ := left, to_ := right }) :
    left ≤ s.from_ ∧ s.from_ ≤ right ∧
    Rearranged list idx (s.list.set s.from_ (rd list left)) (s.idx.set s.from_ (rd idx left))
      left (right + 1) ∧
    rd (s.list.set s.from_ (rd list left)) s.from_ = rd list left ∧
    (NoNaN list left (right + 1) →
      (∀ k, left ≤ k → k < s.from_ →
        Dbl.le (rd (s.list.set s.from_ (rd list left)) k) (rd list left) = true) ∧
      (∀ k, s.from_ < k → k ≤ right →
        Dbl.le (rd list left) (rd (s.list.set s.from_ (rd list left)) k) = true)) := by
  have h0 : HoleInv list idx left right (rd list left) (rd idx left)
      { list := list, idx := idx, from_ := left, to_ := right } left := by
    refine ⟨le_refl _, hlr, le_refl _, rfl, rfl, Or.inl rfl, ?_, ?_⟩
    · exact ⟨1, fun _ _ => rfl, fun _ _ => ⟨rfl, rfl⟩, rfl, rfl⟩
    · intro _
      exact ⟨fun k h1 h2 => by simp only at h2; omega, fun k h1 h2 => by simp only at h1; omega⟩
  have hboth := qsort_partition_inv hr hio (right - left) _ h0 (le_refl _)
  rw [← hs] at hboth
  obtain ⟨hinv, heq⟩ := hboth
  have hlf := hinv.hlf
  have htr := hinv.htr
  have hlen := hinv.hlen
  have hilen := hinv.hilen
  have hfr : s.from_ ≤ right := by omega
  refine ⟨hlf, hfr, ?_, rd_set_self _ _ _ (by omega), ?_⟩
  · obtain ⟨σ, hfix, hval, hp, hpi⟩ := hinv.hperm
    refine ⟨by simp only [List.length_set]; exact hlen,
      by simp only [List.length_set]; exact hilen, σ, hfix, ?_⟩
    intro k
    by_cases hk : k = s.from_
    · subst hk
      rw [rd_set_self _ _ _ (by omega), rd_set_self _ _ _ (by omega)]
      exact ⟨hp, hpi⟩
    · rw [rd_set_ne _ _ _ _ (Ne.symm hk), rd_set_ne _ _ _ _ (Ne.symm hk)]
      exact hval k hk
  · intro hnn
    obtain ⟨o1, o2⟩ := hinv.hord hnn
    constructor
    · intro k hk1 hk2
      rw [rd_set_ne _ _ _ _ (by omega)]
      exact o1 k hk1 hk2
    · intro k hk1 hk2
      rw [rd_set_ne _ _ _ _ (by omega)]
      exact o2 k (by omega) hk2
/-- Correctness of the recursive quicksort on `[left, right]`, given enough fuel for
the depth of the recursion: the two arrays are rearranged in step inside the range,
and the scores of the range end up in non-decreasing order when none of them is NaN. -/
theorem qsort_rec_spec : ∀ (fuel : Nat) (list : List Dbl) (idx : List Nat) (left right : Nat),
    left ≤ right → right < list.length → idx.length = list.length → right - left < fuel →
    Rearranged list idx (qsort_rec fuel list idx left right).1
      (qsort_rec fuel list idx left right).2 left (right + 1) ∧
    (NoNaN list left (right + 1) →
      SortedOn (qsort_rec fuel list idx left right).1 left (right + 1)) := by
  intro fuel
  induction fuel with
  | zero => intro _ _ _ _ _ _ _ h; omega
  | succ n ih =>
    intro list idx left right hlr hr hio hf
    obtain ⟨s, hs⟩ : ∃ s, s = qsort_partition (rd list left) (right - left)
      { list := list, idx := idx, from_ := left, to_ := right } := ⟨_, rfl⟩
    obtain ⟨p1, p2, p3, p4, p5⟩ := qsort_partition_spec list idx left right hlr hr hio s hs
    obtain ⟨l1, hl1⟩ : ∃ l1, l1 = s.list.set s.from_ (rd list left) := ⟨_, rfl⟩
    obtain ⟨i1, hi1⟩ : ∃ i1, i1 = s.idx.set s.from_ (rd idx left) := ⟨_, rfl⟩
    obtain ⟨r1, hr1⟩ : ∃ r1, r1 =
      if left < s.from_ then qsort_rec n l1 i1 left (s.from_ - 1) else (l1, i1) := ⟨_, rfl⟩
    have hres : qsort_rec (n + 1) list idx left right =
        if right > s.from_ then qsort_rec n r1.1 r1.2 (s.from_ + 1) right else r1 := by
      rw [hr1, hl1, hi1, hs]; rfl
    rw [hres]
    rw [← hl1] at p3 p4 p5
    rw [← hi1] at p3
    have hl1len : l1.length = list.length := p3.1
    have hi1len : i1.length = idx.length := p3.2.1
    -- the call on the left part
    have R1 : Rearranged l1 i1 r1.1 r1.2 left s.from_ ∧
        (NoNaN l1 left s.from_ → SortedOn r1.1 left s.from_) := by
      by_cases c : left < s.from_
      · rw [hr1, if_pos c]
        have e : s.from_ - 1 + 1 = s.from_ := by omega
        have := ih l1 i1 left (s.from_ - 1) (by omega) (by omega) (by omega) (by omega)
        rw [e] at this
        exact this
      · rw [hr1, if_neg c]
        exact ⟨Rearranged.id_perm _ _ _ _, fun _ a b h1 h2 h3 => by omega⟩
    have hr1len : r1.1.length = list.length := R1.1.1.trans hl1len
    have hr1ilen : r1.2.length = idx.length := R1.1.2.1.trans hi1len
    -- the call on the right part
    obtain ⟨r2, hr2⟩ : ∃ r2, r2 =
      if right > s.from_ then qsort_rec n r1.1 r1.2 (s.from_ + 1) right else r1 := ⟨_, rfl⟩
    rw [← hr2]
    have R2 : Rearranged r1.1 r1.2 r2.1 r2.2 (s.from_ + 1) (right + 1) ∧
        (NoNaN r1.1 (s.from_ + 1) (right + 1) → SortedOn r2.1 (s.from_ + 1) (right + 1)) := by
      by_cases c : right > s.from_
      · rw [hr2, if_pos c]
        exact ih r1.1 r1.2 (s.from_ + 1) right (by omega) (by omega) (by omega) (by omega)
      · rw [hr2, if_neg c]
        exact ⟨Rearranged.id_perm _ _ _ _, fun _ a b h1 h2 h3 => by omega⟩
    have hR : Rearranged list idx r2.1 r2.2 left (right + 1) :=
      (p3.comp R1.1 (le_refl _) (by omega)).comp R2.1 (by omega) (le_refl _)
    refine ⟨hR, ?_⟩
    intro hnn
    obtain ⟨F1, F2⟩ := p5 hnn
    have hpiv : rd list left ≠ Dbl.nan := hnn left (le_refl _) (by omega)
    have hnn1 : NoNaN l1 left (right + 1) := p3.keeps_noNaN hnn (le_refl _) (le_refl _)
    have S1 := R1.2 (hnn1.mono (le_refl _) (by omega))
    have hnnr1 : NoNaN r1.1 left (right + 1) := R1.1.keeps_noNaN hnn1 (le_refl _) (by omega)
    have S2 := R2.2 (hnnr1.mono (by omega) (le_refl _))
    have E1 : ∀ k, k ≤ s.from_ → rd r2.1 k = rd r1.1 k :=
      fun k hk => (R2.1.outside k (Or.inl (by omega))).1
    have G0 : rd r2.1 s.from_ = rd list left := by
      rw [E1 _ (le_refl _), (R1.1.outside s.from_ (Or.inr (le_refl _))).1]
      exact p4
    have G1 : ∀ k, left ≤ k → k < s.from_ → Dbl.le (rd r2.1 k) (rd list left) = true := by
      intro k hk1 hk2
      rw [E1 k (by omega)]
      obtain ⟨m, m1, m2, e, _⟩ := R1.1.inside k hk1 hk2
      rw [e]
      exact F1 m m1 m2
    have G2 : ∀ k, s.from_ < k → k ≤ right → Dbl.le (rd list left) (rd r2.1 k) = true := by
      intro k hk1 hk2
      obtain ⟨m, m1, m2, e, _⟩ := R2.1.inside k (by omega) (by omega)
      rw [e, (R1.1.outside m (Or.inr (by omega))).1]
      exact F2 m (by omega) (by omega)
    intro a b ha hab hb
    by_cases hbf : b < s.from_
    · rw [E1 a (by omega), E1 b (by omega)]
      exact S1 a b ha hab hbf
    · by_cases haf : s.from_ < a
      · exact S2 a b (by omega) hab hb
      · by_cases ha2 : a = s.from_
        · by_cases hb2 : b = s.from_
          · rw [ha2, hb2, G0]
            exact Dbl.le_refl_of_ne_nan _ hpiv
          · rw [ha2, G0]
            exact G2 b (by omega) (by omega)
        · by_cases hb2 : b = s.from_
          · rw [hb2, G0]
            exact G1 a ha (by omega)
          · exact Dbl.le_transitive (G1 a ha (by omega)) (G2 b (by omega) (by omega))

/-- Correctness of `__qsort_double_with_index(list, idx, left, right)`. -/
theorem qsort_spec (list : List Dbl) (idx : List Nat) (left right : Nat)
    (hlr : left ≤ right) (hr : right < list.length) (hio : idx.length = list.length) :
    Rearranged list idx (__qsort_double_with_index list idx left right).1
      (__qsort_double_with_index list idx left right).2 left (right + 1) ∧
    (NoNaN list left (right + 1) →
      SortedOn (__qsort_double_with_index list idx left right).1 left (right + 1)) :=
  qsort_rec_spec (right - left + 1) list idx left right hlr hr hio (by omega)

/-! ## Loops that fill an array -/

/-- A loop `for (i = 0; i < n; i++) a[i] = g(i)`. -/
theorem forLoop_fill {β : Type} [Inhabited β] (n : Nat) (g : Nat → β) (a0 : List β) :
    (forLoop n (fun i a => a.set i (g i)) a0).length = a0.length ∧
    ∀ k, rd (forLoop n (fun i a => a.set i (g i)) a0) k =
      if k < n ∧ k < a0.length then g k else rd a0 k := by
  induction n with
  | zero => simp [forLoop]
  | succ m ih =>
    rw [forLoop_succ]
    obtain ⟨h1, h2⟩ := ih
    refine ⟨by simp [h1], ?_⟩
    intro k
    rw [rd_set, h1, h2]
    by_cases hk : m = k
    · subst hk
      by_cases hl : m < a0.length
      · simp [hl]
      · simp [hl]
    · have : ¬ (m = k ∧ m < a0.length) := fun h => hk h.1
      rw [if_neg this]
      by_cases hkm : k < m
      · have e : k < m + 1 := by omega
        simp [hkm, e]
      · have e : ¬ k < m + 1 := by omega
        simp [hkm, e]

theorem forLoop_fill_length {β : Type} [Inhabited β] (n : Nat) (g : Nat → β) (a0 : List β) :
    (forLoop n (fun i a => a.set i (g i)) a0).length = a0.length :=
  (forLoop_fill n g a0).1

/-- Filling a whole array of size `n` gives the array of the values `g 0 .. g (n-1)`. -/
theorem forLoop_fill_rd {β : Type} [Inhabited β] (n : Nat) (g : Nat → β) (a0 : List β)
    (k : Nat) (hk : k < n) (hl : k < a0.length) :
    rd (forLoop n (fun i a => a.set i (g i)) a0) k = g k := by
  rw [(forLoop_fill n g a0).2 k, if_pos ⟨hk, hl⟩]

theorem memcpy_length (dst src : List Dbl) (n : Nat) : (memcpy dst src n).length = dst.length :=
  forLoop_fill_length n _ dst

/-- Copying `n` entries between two arrays of size `n` makes them equal. -/
theorem memcpy_eq (dst src : List Dbl) (n : Nat) (hd : dst.length = n) (hs : src.length = n) :
    memcpy dst src n = src := by
  apply list_ext_rd
  · rw [memcpy_length, hd, hs]
  · intro i hi
    rw [memcpy_length] at hi
    unfold memcpy
    rw [forLoop_fill_rd n _ dst i (by omega) hi]

/-- A loop `for (j = 0; j < n; j++) a[i][j] = g(j)` rewrites row `i`. -/
theorem forLoop_fill_row (n i : Nat) (g : Nat → Dbl) (a0 : List (List Dbl)) :
    forLoop n (fun j a => set2 a i j (g j)) a0 =
      a0.set i (forLoop n (fun j row => row.set j (g j)) (rd a0 i)) := by
  by_cases hi : i < a0.length
  · induction n with
    | zero =>
      simp only [forLoop]
      apply list_ext_rd
      · simp
      · intro k hk
        rw [rd_set]
        by_cases hik : i = k
        · subst hik; simp [hi]
        · simp [hik]
    | succ m ih =>
      rw [forLoop_succ, forLoop_succ, ih]
      unfold set2
      rw [rd_set_self _ _ _ hi, List.set_set]
  · have hset : ∀ (a : List (List Dbl)) (r : List Dbl), a.length = a0.length → a.set i r = a := by
      intro a r ha
      apply list_ext_rd
      · simp
      · intro k hk
        rw [rd_set]
        have : ¬ (i = k ∧ i < a.length) := by omega
        rw [if_neg this]
    rw [hset a0 _ rfl]
    induction n with
    | zero => rfl
    | succ m ih =>
      rw [forLoop_succ, ih]
      unfold set2
      exact hset a0 _ rfl
/-! ## The sort of the simplex -/

/-- Correctness of `__fminsearch_sort`: the vertices and their scores are reordered
together, `idx` records the permutation, nothing else changes, and the scores end
up in non-decreasing order when none of them is NaN. -/
theorem fminsearch_sort_spec (pfm : FMinSearch) (hwf : pfm.WF) :
    (__fminsearch_sort pfm).WF ∧ SameConfig pfm (__fminsearch_sort pfm) ∧
    (__fminsearch_sort pfm).x_mean = pfm.x_mean ∧
    (__fminsearch_sort pfm).x_r = pfm.x_r ∧
    (__fminsearch_sort pfm).x_tmp = pfm.x_tmp ∧
    SimplexPerm pfm (__fminsearch_sort pfm) ∧
    (NoNaN pfm.fv 0 pfm.N1 → SortedOn (__fminsearch_sort pfm).fv 0 pfm.N1) := by
  have hN1 := hwf.hN1
  have hfv := hwf.hfv
  have hidx := hwf.hidx
  have hv := hwf.hv
  have hvrow := hwf.hvrow
  obtain ⟨idx0, hidx0⟩ : ∃ x, x = forLoop pfm.N1 (fun i idx => idx.set i i) pfm.idx := ⟨_, rfl⟩
  have hidx0len : idx0.length = pfm.N1 := by rw [hidx0, forLoop_fill_length, hidx]
  have hidx0rd : ∀ k, k < pfm.N1 → rd idx0 k = k := by
    intro k hk
    rw [hidx0, forLoop_fill_rd _ _ _ k hk (by omega)]
  obtain ⟨r, hr⟩ : ∃ x, x = __qsort_double_with_index pfm.fv idx0 0 pfm.N := ⟨_, rfl⟩
  have Q := qsort_spec pfm.fv idx0 0 pfm.N (Nat.zero_le _) (by omega) (by omega)
  rw [← hr, ← hN1] at Q
  obtain ⟨⟨q1, q2, σ, qfix, qval⟩, qsorted⟩ := Q
  have hσlt : ∀ k, k < pfm.N1 → σ k < pfm.N1 := fun k hk =>
    (perm_maps_range σ 0 pfm.N1 qfix k (Nat.zero_le _) hk).2
  have hr2 : ∀ k, k < pfm.N1 → rd r.2 k = σ k := by
    intro k hk
    rw [(qval k).2, hidx0rd _ (hσlt k hk)]
  obtain ⟨vs, hvs⟩ : ∃ x, x = forLoop pfm.N1 (fun i vsort =>
      forLoop pfm.N (fun j vsort => set2 vsort i j (rd (rd pfm.v (rd r.2 i)) j)) vsort)
      pfm.vsort := ⟨_, rfl⟩
  have hvsP : vs.length = pfm.N1 ∧ (∀ k, k < pfm.N1 → (rd vs k).length = pfm.N) ∧
      ∀ k, k < pfm.N1 → rd vs k = rd pfm.v (σ k) := by
    rw [hvs]
    apply forLoop_inv (fun i (a : List (List Dbl)) => a.length = pfm.N1 ∧
      (∀ k, k < pfm.N1 → (rd a k).length = pfm.N) ∧ ∀ k, k < i → rd a k = rd pfm.v (σ k))
    · exact ⟨hwf.hvsort, hwf.hvsortrow, fun k hk => by omega⟩
    · intro i a hi ⟨a1, a2, a3⟩
      rw [forLoop_fill_row]
      have hrow : forLoop pfm.N (fun j row => row.set j (rd (rd pfm.v (rd r.2 i)) j)) (rd a i) =
          rd pfm.v (σ i) := by
        apply list_ext_rd
        · rw [forLoop_fill_length, a2 i hi, hvrow _ (hσlt i hi)]
        · intro j hj
          rw [forLoop_fill_length, a2 i hi] at hj
          rw [forLoop_fill_rd _ _ _ j hj (by rw [a2 i hi]; exact hj), hr2 i hi]
      rw [hrow]
      refine ⟨by simp [a1], ?_, ?_⟩
      · intro k hk
        rw [rd_set]
        split_ifs
        · exact hvrow _ (hσlt i hi)
        · exact a2 k hk
      · intro k hk
        rw [rd_set]
        by_cases hik : i = k
        · subst hik
          rw [if_pos ⟨rfl, by omega⟩]
        · rw [if_neg (fun h => hik h.1)]
          exact a3 k (by omega)
  obtain ⟨vs1, vs2, vs3⟩ := hvsP
  obtain ⟨v2, hv2⟩ : ∃ x, x = forLoop pfm.N1 (fun r v =>
      v.set r (memcpy (rd v r) (rd vs r) pfm.N)) pfm.v := ⟨_, rfl⟩
  have hv2P : v2.length = pfm.N1 ∧ (∀ k, k < pfm.N1 → (rd v2 k).length = pfm.N) ∧
      ∀ k, k < pfm.N1 → rd v2 k = rd pfm.v (σ k) := by
    rw [hv2]
    apply forLoop_inv (fun i (a : List (List Dbl)) => a.length = pfm.N1 ∧
      (∀ k, k < pfm.N1 → (rd a k).length = pfm.N) ∧ ∀ k, k < i → rd a k = rd pfm.v (σ k))
    · exact ⟨hv, hvrow, fun k hk => by omega⟩
    · intro i a hi ⟨a1, a2, a3⟩
      rw [memcpy_eq _ _ _ (a2 i hi) (vs2 i hi), vs3 i hi]
      refine ⟨by simp [a1], ?_, ?_⟩
      · intro k hk
        rw [rd_set]
        split_ifs
        · exact hvrow _ (hσlt i hi)
        · exact a2 k hk
      · intro k hk
        rw [rd_set]
        by_cases hik : i = k
        · subst hik
          rw [if_pos ⟨rfl, by omega⟩]
        · rw [if_neg (fun h => hik h.1)]
          exact a3 k (by omega)
  obtain ⟨w1, w2, w3⟩ := hv2P
  have hres : __fminsearch_sort pfm = { pfm with idx := r.2, fv := r.1, vsort := vs, v := v2 } := by
    rw [hv2, hvs, hr, hidx0]; rfl
  rw [hres]
  refine ⟨?_, ?_, rfl, rfl, rfl, ?_, ?_⟩
  · exact ⟨hN1, by simp only; omega, by simp only; omega, w1, w2, vs1, vs2,
      hwf.hx_mean, hwf.hx_r, hwf.hx_tmp⟩
  · exact ⟨rfl, rfl, rfl, rfl, rfl, rfl, rfl, rfl, rfl, rfl, rfl, rfl⟩
  · refine ⟨σ, fun k hk => qfix k (Or.inr hk), ?_⟩
    intro k hk
    exact ⟨(qval k).1, w3 k hk, hr2 k hk⟩
  · intro hnn
    exact qsorted hnn

/-! ## The trial points -/

theorem SameConfig.same (p : FMinSearch) : SameConfig p p :=
  ⟨rfl, rfl, rfl, rfl, rfl, rfl, rfl, rfl, rfl, rfl, rfl, rfl⟩

theorem SameConfig.chain {p q r : FMinSearch} (h1 : SameConfig p q) (h2 : SameConfig q r) :
    SameConfig p r :=
  ⟨h2.hN.trans h1.hN, h2.hN1.trans h1.hN1, h2.hscorer.trans h1.hscorer,
    h2.hmaxiters.trans h1.hmaxiters, h2.hrho.trans h1.hrho, h2.hchi.trans h1.hchi,
    h2.hpsi.trans h1.hpsi, h2.hsigma.trans h1.hsigma, h2.htolx.trans h1.htolx,
    h2.htolf.trans h1.htolf, h2.hdelta.trans h1.hdelta, h2.hzero_delta.trans h1.hzero_delta⟩

theorem Keeps.self (p : FMinSearch) (h : p.WF) : Keeps p p :=
  ⟨h, SameConfig.same p, rfl, rfl⟩

theorem Keeps.andThen {p q r : FMinSearch} (h1 : Keeps p q) (h2 : Keeps q r) : Keeps p r :=
  ⟨h2.hwf, h1.hcfg.chain h2.hcfg, h2.hfv.trans h1.hfv, h2.hv.trans h1.hv⟩

/-- A loop whose body keeps the size of the array keeps the size of the array. -/
theorem forLoop_length {β : Type} (n : Nat) (body : Nat → List β → List β) (a0 : List β)
    (h : ∀ i a, (body i a).length = a.length) : (forLoop n body a0).length = a0.length := by
  induction n with
  | zero => rfl
  | succ m ih => rw [forLoop_succ, h, ih]

theorem fminsearch_x_mean_keeps (pfm : FMinSearch) (hwf : pfm.WF) :
    Keeps pfm (__fminsearch_x_mean pfm) := by
  have hlen : (__fminsearch_x_mean pfm).x_mean.length = pfm.N := by
    unfold __fminsearch_x_mean
    simp only
    rw [forLoop_length, hwf.hx_mean]
    intro i a
    simp only [List.length_set]
    rw [forLoop_length]
    · simp
    · intro j b
      simp
  exact ⟨⟨hwf.hN1, hwf.hfv, hwf.hidx, hwf.hv, hwf.hvrow, hwf.hvsort, hwf.hvsortrow, hlen,
    hwf.hx_r, hwf.hx_tmp⟩, ⟨rfl, rfl, rfl, rfl, rfl, rfl, rfl, rfl, rfl, rfl, rfl, rfl⟩, rfl, rfl⟩

theorem fminsearch_x_reflection_keeps (pfm : FMinSearch) (hwf : pfm.WF) :
    Keeps pfm (__fminsearch_x_reflection pfm).1 ∧
    (__fminsearch_x_reflection pfm).2 =
      calculate_score pfm (__fminsearch_x_reflection pfm).1.x_r := by
  refine ⟨⟨⟨hwf.hN1, hwf.hfv, hwf.hidx, hwf.hv, hwf.hvrow, hwf.hvsort, hwf.hvsortrow,
    hwf.hx_mean, ?_, hwf.hx_tmp⟩, ⟨rfl, rfl, rfl, rfl, rfl, rfl, rfl, rfl, rfl, rfl, rfl, rfl⟩,
    rfl, rfl⟩, rfl⟩
  unfold __fminsearch_x_reflection
  simp only
  rw [forLoop_fill_length, hwf.hx_r]

theorem fminsearch_x_expansion_keeps (pfm : FMinSearch) (hwf : pfm.WF) :
    Keeps pfm (__fminsearch_x_expansion pfm).1 ∧
    (__fminsearch_x_expansion pfm).2 =
      calculate_score pfm (__fminsearch_x_expansion pfm).1.x_tmp := by
  refine ⟨⟨⟨hwf.hN1, hwf.hfv, hwf.hidx, hwf.hv, hwf.hvrow, hwf.hvsort, hwf.hvsortrow,
    hwf.hx_mean, hwf.hx_r, ?_⟩, ⟨rfl, rfl, rfl, rfl, rfl, rfl, rfl, rfl, rfl, rfl, rfl, rfl⟩,
    rfl, rfl⟩, rfl⟩
  unfold __fminsearch_x_expansion
  simp only
  rw [forLoop_fill_length, hwf.hx_tmp]

theorem fminsearch_x_contract_outside_keeps (pfm : FMinSearch) (hwf : pfm.WF) :
    Keeps pfm (__fminsearch_x_contract_outside pfm).1 ∧
    (__fminsearch_x_contract_outside pfm).2 =
      calculate_score pfm (__fminsearch_x_contract_outside pfm).1.x_tmp := by
  refine ⟨⟨⟨hwf.hN1, hwf.hfv, hwf.hidx, hwf.hv, hwf.hvrow, hwf.hvsort, hwf.hvsortrow,
    hwf.hx_mean, hwf.hx_r, ?_⟩, ⟨rfl, rfl, rfl, rfl, rfl, rfl, rfl, rfl, rfl, rfl, rfl, rfl⟩,
    rfl, rfl⟩, rfl⟩
  unfold __fminsearch_x_contract_outside
  simp only
  rw [forLoop_fill_length, hwf.hx_tmp]

theorem fminsearch_x_contract_inside_keeps (pfm : FMinSearch) (hwf : pfm.WF) :
    Keeps pfm (__fminsearch_x_contract_inside pfm).1 ∧
    (__fminsearch_x_contract_inside pfm).2 =
      calculate_score pfm (__fminsearch_x_contract_inside pfm).1.x_tmp := by
  refine ⟨⟨⟨hwf.hN1, hwf.hfv, hwf.hidx, hwf.hv, hwf.hvrow, hwf.hvsort, hwf.hvsortrow,
    hwf.hx_mean, hwf.hx_r, ?_⟩, ⟨rfl, rfl, rfl, rfl, rfl, rfl, rfl, rfl, rfl, rfl, rfl, rfl⟩,
    rfl, rfl⟩, rfl⟩
  unfold __fminsearch_x_contract_inside
  simp only
  rw [forLoop_fill_length, hwf.hx_tmp]
/-! ## Loops that build a vertex -/

theorem set_rd_self {β : Type} [Inhabited β] (a : List β) (i : Nat) : a.set i (rd a i) = a := by
  apply list_ext_rd
  · simp
  · intro k hk
    rw [rd_set]
    by_cases hik : i = k
    · subst hik; simp
    · simp [hik]

/-- A loop `for (j = 0; j < n; j++) v[i][j] = E(j)` on the state, where the value
`E(j)` does not depend on the entries `v[i][0 .. j-1]` already written, rewrites
row `i` with the values `e j`. -/
theorem forLoop_row_record (n i : Nat) (q0 : FMinSearch) (E : FMinSearch → Nat → Dbl)
    (e : Nat → Dbl) (hi : i < q0.v.length)
    (hE : ∀ (row : List Dbl) (j : Nat), j < n →
      (∀ j', j ≤ j' → rd row j' = rd (rd q0.v i) j') →
      E { q0 with v := q0.v.set i row } j = e j) :
    forLoop n (fun j q => { q with v := set2 q.v i j (E q j) }) q0 =
      { q0 with v := q0.v.set i (forLoop n (fun j row => row.set j (e j)) (rd q0.v i)) } := by
  induction n with
  | zero =>
    simp only [forLoop]
    rw [set_rd_self]
  | succ m ih =>
    rw [forLoop_succ, forLoop_succ, ih (fun row j hj h => hE row j (by omega) h)]
    have hrow : ∀ j', m ≤ j' →
        rd (forLoop m (fun j row => row.set j (e j)) (rd q0.v i)) j' = rd (rd q0.v i) j' := by
      intro j' hj'
      rw [(forLoop_fill m e (rd q0.v i)).2 j']
      have : ¬ (j' < m ∧ j' < (rd q0.v i).length) := by omega
      rw [if_neg this]
    simp only
    rw [hE _ m (Nat.lt_succ_self m) hrow]
    unfold set2
    rw [rd_set_self _ _ _ hi, List.set_set]

/-- The assignments of `__fminsearch_set_last_element`: vertex `N` becomes `x` with
score `f`. -/
theorem fminsearch_set_last_element_loop_spec (pfm : FMinSearch) (hwf : pfm.WF)
    (x : List Dbl) (f : Dbl) (hx : x.length = pfm.N) :
    (__fminsearch_set_last_element_loop pfm x f).WF ∧
    SameConfig pfm (__fminsearch_set_last_element_loop pfm x f) ∧
    (__fminsearch_set_last_element_loop pfm x f).fv = pfm.fv.set pfm.N f ∧
    (__fminsearch_set_last_element_loop pfm x f).v = pfm.v.set pfm.N x := by
  have hN1 := hwf.hN1
  have hrowN : (rd pfm.v pfm.N).length = pfm.N := hwf.hvrow pfm.N (by omega)
  have hv : forLoop pfm.N (fun i v => set2 v pfm.N i (rd x i)) pfm.v = pfm.v.set pfm.N x := by
    rw [forLoop_fill_row]
    congr 1
    apply list_ext_rd
    · rw [forLoop_fill_length, hrowN, hx]
    · intro j hj
      rw [forLoop_fill_length, hrowN] at hj
      rw [forLoop_fill_rd _ _ _ j hj (by omega)]
  have hres : __fminsearch_set_last_element_loop pfm x f =
      { pfm with v := pfm.v.set pfm.N x, fv := pfm.fv.set pfm.N f } := by
    unfold __fminsearch_set_last_element_loop
    simp only
    rw [hv]
  rw [hres]
  refine ⟨⟨hN1, by simp [hwf.hfv], hwf.hidx, by simp [hwf.hv], ?_, hwf.hvsort, hwf.hvsortrow,
    hwf.hx_mean, hwf.hx_r, hwf.hx_tmp⟩,
    ⟨rfl, rfl, rfl, rfl, rfl, rfl, rfl, rfl, rfl, rfl, rfl, rfl⟩, rfl, rfl⟩
  intro i hi
  simp only
  rw [rd_set]
  split_ifs
  · exact hx
  · exact hwf.hvrow i hi
theorem calculate_score_congr {p q : FMinSearch} (h : q.scorer = p.scorer) (x : List Dbl) :
    calculate_score q x = calculate_score p x := by
  unfold calculate_score
  rw [h]

/-- One round of the outer loop of `__fminsearch_x_shrink`: vertex `i` is rewritten and
scored. -/
theorem shrink_round_eq (q : FMinSearch) (i : Nat) (hi0 : 1 ≤ i) (hi : i < q.v.length) :
    (let pfm := forLoop q.N (fun j pfm =>
        { pfm with
          v := set2 pfm.v i j (Dbl.add (rd (rd pfm.v 0) j)
            (Dbl.mul pfm.sigma (Dbl.sub (rd (rd pfm.v i) j) (rd (rd pfm.v 0) j)))) }) q;
      { pfm with fv := pfm.fv.set i (calculate_score pfm (rd pfm.v i)) }) =
    { q with
      v := q.v.set i (forLoop q.N (fun j row => row.set j (shrink_entry q i j)) (rd q.v i))
      fv := q.fv.set i (calculate_score q
        (forLoop q.N (fun j row => row.set j (shrink_entry q i j)) (rd q.v i))) } := by
  have hE : ∀ (row : List Dbl) (j : Nat), j < q.N →
      (∀ j', j ≤ j' → rd row j' = rd (rd q.v i) j') →
      (fun (pfm : FMinSearch) (j : Nat) => Dbl.add (rd (rd pfm.v 0) j)
        (Dbl.mul pfm.sigma (Dbl.sub (rd (rd pfm.v i) j) (rd (rd pfm.v 0) j))))
        { q with v := q.v.set i row } j = shrink_entry q i j := by
    intro row j hj hrow
    simp only
    unfold shrink_entry
    rw [rd_set_ne _ _ _ _ (by omega), rd_set_self _ _ _ hi, hrow j (le_refl _)]
  have h := forLoop_row_record q.N i q
    (fun pfm j => Dbl.add (rd (rd pfm.v 0) j)
      (Dbl.mul pfm.sigma (Dbl.sub (rd (rd pfm.v i) j) (rd (rd pfm.v 0) j))))
    (fun j => shrink_entry q i j) hi hE
  simp only
  rw [h]
  simp only
  rw [rd_set_self _ _ _ hi]
  rfl

/-- The loops of `__fminsearch_x_shrink`: vertex 0 and its score stay, every other
vertex moves towards vertex 0 and carries the score of its new position. -/
theorem fminsearch_x_shrink_loop_spec (p : FMinSearch) (hwf : p.WF) :
    (__fminsearch_x_shrink_loop p).WF ∧ SameConfig p (__fminsearch_x_shrink_loop p) ∧
    rd (__fminsearch_x_shrink_loop p).fv 0 = rd p.fv 0 ∧
    rd (__fminsearch_x_shrink_loop p).v 0 = rd p.v 0 ∧
    ∀ i, 1 ≤ i → i < p.N1 →
      (∀ j, j < p.N → rd (rd (__fminsearch_x_shrink_loop p).v i) j = shrink_entry p i j) ∧
      rd (__fminsearch_x_shrink_loop p).fv i =
        calculate_score p (rd (__fminsearch_x_shrink_loop p).v i) := by
  have key : (fun (n : Nat) (q : FMinSearch) => q.WF ∧ SameConfig p q ∧
      (∀ i, (i = 0 ∨ n < i) → rd q.fv i = rd p.fv i ∧ rd q.v i = rd p.v i) ∧
      (∀ i, 1 ≤ i → i ≤ n →
        (∀ j, j < p.N → rd (rd q.v i) j = shrink_entry p i j) ∧
        rd q.fv i = calculate_score p (rd q.v i))) (p.N1 - 1) (__fminsearch_x_shrink_loop p) := by
    unfold __fminsearch_x_shrink_loop
    apply forLoop_inv (fun (n : Nat) (q : FMinSearch) => q.WF ∧ SameConfig p q ∧
      (∀ i, (i = 0 ∨ n < i) → rd q.fv i = rd p.fv i ∧ rd q.v i = rd p.v i) ∧
      (∀ i, 1 ≤ i → i ≤ n →
        (∀ j, j < p.N → rd (rd q.v i) j = shrink_entry p i j) ∧
        rd q.fv i = calculate_score p (rd q.v i)))
    · exact ⟨hwf, SameConfig.same p, fun i _ => ⟨rfl, rfl⟩, fun i h1 h2 => by omega⟩
    · intro k q hk ⟨qwf, qcfg, qold, qnew⟩
      have hi : k + 1 < q.v.length := by
        rw [qwf.hv, qcfg.hN1]; omega
      rw [shrink_round_eq q (k + 1) (by omega) hi]
      have hrowlen : (forLoop q.N (fun j row => row.set j (shrink_entry q (k + 1) j))
          (rd q.v (k + 1))).length = q.N := by
        rw [forLoop_fill_length]
        exact qwf.hvrow (k + 1) (by rw [qcfg.hN1]; omega)
      have hrowval : ∀ j, j < p.N →
          rd (forLoop q.N (fun j row => row.set j (shrink_entry q (k + 1) j))
            (rd q.v (k + 1))) j = shrink_entry p (k + 1) j := by
        intro j hj
        rw [forLoop_fill_rd _ _ _ j (by rw [qcfg.hN]; exact hj)
          (by rw [qwf.hvrow (k + 1) (by rw [qcfg.hN1]; omega), qcfg.hN]; exact hj)]
        unfold shrink_entry
        rw [(qold 0 (Or.inl rfl)).2, (qold (k + 1) (Or.inr (Nat.lt_succ_self k))).2, qcfg.hsigma]
      refine ⟨?_, ?_, ?_, ?_⟩
      · refine ⟨qwf.hN1, by simp [qwf.hfv], qwf.hidx, by simp [qwf.hv], ?_, qwf.hvsort,
          qwf.hvsortrow, qwf.hx_mean, qwf.hx_r, qwf.hx_tmp⟩
        intro i hi'
        simp only
        rw [rd_set]
        split_ifs
        · exact hrowlen
        · exact qwf.hvrow i hi'
      · exact ⟨qcfg.hN, qcfg.hN1, qcfg.hscorer, qcfg.hmaxiters, qcfg.hrho, qcfg.hchi, qcfg.hpsi,
          qcfg.hsigma, qcfg.htolx, qcfg.htolf, qcfg.hdelta, qcfg.hzero_delta⟩
      · intro i hi'
        simp only
        rw [rd_set_ne _ _ _ _ (by omega), rd_set_ne _ _ _ _ (by omega)]
        exact qold i (by omega)
      · intro i hi1 hi2
        simp only
        by_cases hik : i = k + 1
        · subst hik
          have hfvlen : k + 1 < q.fv.length := by rw [qwf.hfv, qcfg.hN1]; omega
          rw [rd_set_self _ _ _ hi, rd_set_self _ _ _ hfvlen]
          exact ⟨hrowval, calculate_score_congr qcfg.hscorer _⟩
        · rw [rd_set_ne _ _ _ _ (Ne.symm hik), rd_set_ne _ _ _ _ (Ne.symm hik)]
          exact qnew i hi1 (by omega)
  obtain ⟨k1, k2, k3, k4⟩ := key
  refine ⟨k1, k2, (k3 0 (Or.inl rfl)).1, (k3 0 (Or.inl rfl)).2, ?_⟩
  intro i hi1 hi2
  exact k4 i hi1 (by omega)
/-! ## The initial simplex -/

theorem init_entry_congr (p q : FMinSearch) (X0 : List Dbl) (i j : Nat)
    (hd : q.delta = p.delta) (hz : q.zero_delta = p.zero_delta)
    (hfv : 1 < i → rd q.fv (i - 1) = rd p.fv (i - 1)) :
    init_entry q X0 i j = init_entry p X0 i j := by
  unfold init_entry
  rw [hd, hz]
  by_cases hi : 1 < i
  · rw [hfv hi]
  · have : decide (i > 1) = false := by simp; omega
    rw [this]
    simp

/-- One round of the outer loop of `__fminsearch_min_init`: vertex `i` is built and
scored. -/
theorem init_round_eq (q : FMinSearch) (X0 : List Dbl) (i : Nat) (hi : i < q.v.length) :
    (let pfm := forLoop q.N (fun j pfm =>
        { pfm with v := set2 pfm.v i j (init_entry pfm X0 i j) }) q;
      { pfm with fv := pfm.fv.set i (calculate_score pfm (rd pfm.v i)) }) =
    { q with
      v := q.v.set i (forLoop q.N (fun j row => row.set j (init_entry q X0 i j)) (rd q.v i))
      fv := q.fv.set i (calculate_score q
        (forLoop q.N (fun j row => row.set j (init_entry q X0 i j)) (rd q.v i))) } := by
  have hE : ∀ (row : List Dbl) (j : Nat), j < q.N →
      (∀ j', j ≤ j' → rd row j' = rd (rd q.v i) j') →
      (fun (pfm : FMinSearch) (j : Nat) => init_entry pfm X0 i j)
        { q with v := q.v.set i row } j = init_entry q X0 i j := by
    intro row j _ _
    rfl
  have h := forLoop_row_record q.N i q (fun pfm j => init_entry pfm X0 i j)
    (fun j => init_entry q X0 i j) hi hE
  simp only
  rw [h]
  simp only
  rw [rd_set_self _ _ _ hi]
  rfl

/-- The loops of `__fminsearch_min_init`: every vertex `i` gets the coordinates
`init_entry .. i j` and the score of the vertex built. -/
theorem fminsearch_min_init_loop_spec (p : FMinSearch) (hwf : p.WF) (X0 : List Dbl) :
    (__fminsearch_min_init_loop p X0).WF ∧ SameConfig p (__fminsearch_min_init_loop p X0) ∧
    ∀ i, i < p.N1 →
      (∀ j, j < p.N → rd (rd (__fminsearch_min_init_loop p X0).v i) j =
        init_entry (__fminsearch_min_init_loop p X0) X0 i j) ∧
      rd (__fminsearch_min_init_loop p X0).fv i =
        calculate_score p (rd (__fminsearch_min_init_loop p X0).v i) := by
  unfold __fminsearch_min_init_loop
  apply forLoop_inv (fun (n : Nat) (q : FMinSearch) => q.WF ∧ SameConfig p q ∧
    ∀ i, i < n →
      (∀ j, j < p.N → rd (rd q.v i) j = init_entry q X0 i j) ∧
      rd q.fv i = calculate_score p (rd q.v i))
  · exact ⟨hwf, SameConfig.same p, fun i h => by omega⟩
  · intro k q hk ⟨qwf, qcfg, qdone⟩
    have hi : k < q.v.length := by rw [qwf.hv, qcfg.hN1]; exact hk
    have hfvlen : k < q.fv.length := by rw [qwf.hfv, qcfg.hN1]; exact hk
    rw [init_round_eq q X0 k hi]
    have hrowlen : (forLoop q.N (fun j row => row.set j (init_entry q X0 k j))
        (rd q.v k)).length = q.N := by
      rw [forLoop_fill_length]
      exact qwf.hvrow k (by rw [qcfg.hN1]; exact hk)
    have hrowval : ∀ j, j < p.N →
        rd (forLoop q.N (fun j row => row.set j (init_entry q X0 k j)) (rd q.v k)) j =
          init_entry q X0 k j := by
      intro j hj
      rw [forLoop_fill_rd _ _ _ j (by rw [qcfg.hN]; exact hj)
        (by rw [qwf.hvrow k (by rw [qcfg.hN1]; exact hk), qcfg.hN]; exact hj)]
    refine ⟨?_, ?_, ?_⟩
    · refine ⟨qwf.hN1, by simp [qwf.hfv], qwf.hidx, by simp [qwf.hv], ?_, qwf.hvsort,
        qwf.hvsortrow, qwf.hx_mean, qwf.hx_r, qwf.hx_tmp⟩
      intro i hi'
      simp only
      rw [rd_set]
      split_ifs
      · exact hrowlen
      · exact qwf.hvrow i hi'
    · exact ⟨qcfg.hN, qcfg.hN1, qcfg.hscorer, qcfg.hmaxiters, qcfg.hrho, qcfg.hchi, qcfg.hpsi,
        qcfg.hsigma, qcfg.htolx, qcfg.htolf, qcfg.hdelta, qcfg.hzero_delta⟩
    · intro i hi'
      have hcongr : ∀ j, init_entry
          { q with
            v := q.v.set k (forLoop q.N (fun j row => row.set j (init_entry q X0 k j)) (rd q.v k))
            fv := q.fv.set k (calculate_score q
              (forLoop q.N (fun j row => row.set j (init_entry q X0 k j)) (rd q.v k))) }
          X0 i j = init_entry q X0 i j := by
        intro j
        refine init_entry_congr q _ X0 i j ?_ ?_ ?_
        · rfl
        · rfl
        · intro h1
          simp only
          rw [rd_set_ne _ _ _ _ (by omega)]
      simp only
      by_cases hik : i = k
      · subst hik
        rw [rd_set_self _ _ _ hi, rd_set_self _ _ _ hfvlen]
        refine ⟨fun j hj => ?_, calculate_score_congr qcfg.hscorer _⟩
        rw [hrowval j hj]
        exact (hcongr j).symm
      · rw [rd_set_ne _ _ _ _ (Ne.symm hik), rd_set_ne _ _ _ _ (Ne.symm hik)]
        obtain ⟨d1, d2⟩ := qdone i (by omega)
        refine ⟨fun j hj => ?_, d2⟩
        rw [d1 j hj]
        exact (hcongr j).symm

/-! ## One iteration -/

theorem calculate_score_eq {p : FMinSearch} {f : List Dbl → Dbl} (h : p.scorer = some f)
    (x : List Dbl) : calculate_score p x = f x := by
  unfold calculate_score
  rw [h]

/-- Under the invariant of a run with a scorer that never returns NaN, no score of the
simplex is NaN. -/
theorem RunInv.scores_noNaN {f : List Dbl → Dbl} {q : FMinSearch} (h : RunInv f q)
    (hf : ∀ x, f x ≠ Dbl.nan) : NoNaN q.fv 0 q.N1 := by
  intro k _ hk
  rw [h.hpair k hk]
  exact hf _

/-- After `__fminsearch_sort` the scores are sorted and the first one is a lower bound
of all the scores there were. -/
theorem fminsearch_sort_min (pre : FMinSearch) (hwf : pre.WF) (hnn : NoNaN pre.fv 0 pre.N1) :
    SortedOn (__fminsearch_sort pre).fv 0 pre.N1 ∧
    ∀ k, k < pre.N1 → Dbl.le (rd (__fminsearch_sort pre).fv 0) (rd pre.fv k) = true := by
  obtain ⟨_, _, _, _, _, ⟨σ, sfix, sval⟩, s7⟩ := fminsearch_sort_spec pre hwf
  have hsorted := s7 hnn
  have hσs : ∀ k, k < pre.N1 → σ.symm k < pre.N1 := by
    intro k hk
    have hfix : ∀ m, (m < 0 ∨ pre.N1 ≤ m) → σ.symm m = m := by
      intro m hm
      exact (Equiv.symm_apply_eq σ).mpr (sfix m (by omega)).symm
    exact (perm_maps_range σ.symm 0 pre.N1 hfix k (Nat.zero_le _) hk).2
  refine ⟨hsorted, ?_⟩
  intro k hk
  have h1 := hsorted 0 (σ.symm k) (le_refl _) (Nat.zero_le _) (hσs k hk)
  rw [(sval (σ.symm k) (hσs k hk)).1, Equiv.apply_symm_apply] at h1
  exact h1

/-- The sort keeps the invariant of the run. -/
theorem fminsearch_sort_inv (f : List Dbl → Dbl) (pre : FMinSearch) (h : RunInv f pre) :
    RunInv f (__fminsearch_sort pre) ∧ SameConfig pre (__fminsearch_sort pre) := by
  obtain ⟨s1, s2, _, _, _, ⟨σ, sfix, sval⟩, _⟩ := fminsearch_sort_spec pre h.hwf
  have hσ : ∀ k, k < pre.N1 → σ k < pre.N1 := fun k hk =>
    (perm_maps_range σ 0 pre.N1 (fun k hk => sfix k (by omega)) k (Nat.zero_le _) hk).2
  refine ⟨⟨s1, s2.hscorer.trans h.hscorer, ?_⟩, s2⟩
  intro i hi
  rw [s2.hN1] at hi
  rw [(sval i hi).1, (sval i hi).2.1]
  exact h.hpair _ (hσ i hi)

/-- The state before the sort in `__fminsearch_set_last_element`, when the new point
comes with its score. -/
theorem set_last_element_loop_inv (f : List Dbl → Dbl) (p p2 : FMinSearch) (hp : RunInv f p)
    (hk : Keeps p p2) (x : List Dbl) (hx : x.length = p2.N) (val : Dbl)
    (hval : val = f x) :
    RunInv f (__fminsearch_set_last_element_loop p2 x val) ∧
    SameConfig p (__fminsearch_set_last_element_loop p2 x val) := by
  obtain ⟨l1, l2, l3, l4⟩ := fminsearch_set_last_element_loop_spec p2 hk.hwf x val hx
  have hN1 : p.N1 = p.N + 1 := hp.hwf.hN1
  have hcfg := hk.hcfg.chain l2
  refine ⟨⟨l1, hcfg.hscorer.trans hp.hscorer, ?_⟩, hcfg⟩
  intro i hi
  rw [hcfg.hN1] at hi
  rw [l3, l4, hk.hfv, hk.hv, hk.hcfg.hN]
  by_cases hiN : i = p.N
  · subst hiN
    rw [rd_set_self _ _ _ (by rw [hp.hwf.hfv]; exact hi),
      rd_set_self _ _ _ (by rw [hp.hwf.hv]; exact hi)]
    exact hval
  · rw [rd_set_ne _ _ _ _ (Ne.symm hiN), rd_set_ne _ _ _ _ (Ne.symm hiN)]
    exact hp.hpair i hi

/-- Replacing the worst vertex by a scored point and sorting keeps the invariant of the
run and does not raise the best score. -/
theorem set_last_element_good (f : List Dbl → Dbl) (hf : ∀ x, f x ≠ Dbl.nan)
    (p p2 : FMinSearch) (hp : RunInv f p)
    (hk : Keeps p p2) (hN : 1 ≤ p.N) (x : List Dbl) (hx : x.length = p2.N) (val : Dbl)
    (hval : val = f x) :
    RunInv f (__fminsearch_set_last_element p2 x val) ∧
    SameConfig p (__fminsearch_set_last_element p2 x val) ∧
    SortedOn (__fminsearch_set_last_element p2 x val).fv 0 p.N1 ∧
    Dbl.le (rd (__fminsearch_set_last_element p2 x val).fv 0) (rd p.fv 0) = true := by
  obtain ⟨_, _, l3, _⟩ := fminsearch_set_last_element_loop_spec p2 hk.hwf x val hx
  obtain ⟨i1, i2⟩ := set_last_element_loop_inv f p p2 hp hk x hx val hval
  obtain ⟨j1, j2⟩ := fminsearch_sort_inv f _ i1
  obtain ⟨m1, m2⟩ := fminsearch_sort_min _ i1.hwf (i1.scores_noNaN hf)
  have hN1 : p.N1 = p.N + 1 := hp.hwf.hN1
  rw [i2.hN1] at m1 m2
  unfold __fminsearch_set_last_element
  refine ⟨j1, i2.chain j2, m1, ?_⟩
  have := m2 0 (by omega)
  rw [l3, rd_set_ne _ _ _ _ (by rw [hk.hcfg.hN]; omega), hk.hfv] at this
  exact this

/-- The state before the sort in `__fminsearch_x_shrink`. -/
theorem shrink_loop_inv (f : List Dbl → Dbl) (p p2 : FMinSearch) (hp : RunInv f p)
    (hk : Keeps p p2) :
    RunInv f (__fminsearch_x_shrink_loop p2) ∧ SameConfig p (__fminsearch_x_shrink_loop p2) := by
  obtain ⟨l1, l2, l3, l4, l5⟩ := fminsearch_x_shrink_loop_spec p2 hk.hwf
  have hN1 : p.N1 = p.N + 1 := hp.hwf.hN1
  have hcfg := hk.hcfg.chain l2
  have hsc2 : p2.scorer = some f := hk.hcfg.hscorer.trans hp.hscorer
  refine ⟨⟨l1, hcfg.hscorer.trans hp.hscorer, ?_⟩, hcfg⟩
  intro i hi
  rw [hcfg.hN1] at hi
  by_cases hi0 : i = 0
  · subst hi0
    rw [l3, l4, hk.hfv, hk.hv]
    exact hp.hpair 0 hi
  · rw [(l5 i (by omega) (by rw [hk.hcfg.hN1]; exact hi)).2, calculate_score_eq hsc2]

/-- A shrink keeps the invariant of the run and does not raise the best score. -/
theorem shrink_good (f : List Dbl → Dbl) (hf : ∀ x, f x ≠ Dbl.nan) (p p2 : FMinSearch)
    (hp : RunInv f p) (hk : Keeps p p2) (hN : 1 ≤ p.N) :
    RunInv f (__fminsearch_x_shrink p2) ∧ SameConfig p (__fminsearch_x_shrink p2) ∧
    SortedOn (__fminsearch_x_shrink p2).fv 0 p.N1 ∧
    Dbl.le (rd (__fminsearch_x_shrink p2).fv 0) (rd p.fv 0) = true := by
  obtain ⟨_, _, l3, _, _⟩ := fminsearch_x_shrink_loop_spec p2 hk.hwf
  obtain ⟨i1, i2⟩ := shrink_loop_inv f p p2 hp hk
  obtain ⟨j1, j2⟩ := fminsearch_sort_inv f _ i1
  obtain ⟨m1, m2⟩ := fminsearch_sort_min _ i1.hwf (i1.scores_noNaN hf)
  have hN1 : p.N1 = p.N + 1 := hp.hwf.hN1
  rw [i2.hN1] at m1 m2
  unfold __fminsearch_x_shrink
  refine ⟨j1, i2.chain j2, m1, ?_⟩
  have := m2 0 (by omega)
  rw [l3, hk.hfv] at this
  exact this

/-- The five outcomes of one iteration of `fminsearch_min`: the worst vertex is
replaced by a trial point that carries its score, or the simplex shrinks; the trial
points are computed on a state that differs from `p` in the scratch vectors only. -/
theorem fminsearch_iteration_cases (f : List Dbl → Dbl) (p : FMinSearch) (hp : RunInv f p) :
    (∃ p2 x, Keeps p p2 ∧ x.length = p2.N ∧
      fminsearch_iteration p = __fminsearch_set_last_element p2 x (f x)) ∨
    (∃ p2, Keeps p p2 ∧ fminsearch_iteration p = __fminsearch_x_shrink p2) := by
  have k1 := fminsearch_x_mean_keeps p hp.hwf
  obtain ⟨k2, e2⟩ := fminsearch_x_reflection_keeps _ k1.hwf
  have k12 := k1.andThen k2
  have hsc1 : (__fminsearch_x_mean p).scorer = some f := k1.hcfg.hscorer.trans hp.hscorer
  have hsc2 : (__fminsearch_x_reflection (__fminsearch_x_mean p)).1.scorer = some f :=
    k12.hcfg.hscorer.trans hp.hscorer
  rw [calculate_score_eq hsc1] at e2
  obtain ⟨k3, e3⟩ := fminsearch_x_expansion_keeps _ k2.hwf
  obtain ⟨k4, e4⟩ := fminsearch_x_contract_inside_keeps _ k2.hwf
  obtain ⟨k5, e5⟩ := fminsearch_x_contract_outside_keeps _ k2.hwf
  rw [calculate_score_eq hsc2] at e3 e4 e5
  have k13 := k12.andThen k3
  have k14 := k12.andThen k4
  have k15 := k12.andThen k5
  unfold fminsearch_iteration
  simp only
  split_ifs
  · exact Or.inl ⟨_, _, k13, k3.hwf.hx_tmp, by rw [← e3]⟩
  · refine Or.inl ⟨_, _, k13, k3.hwf.hx_r, ?_⟩
    rw [e2]
    rfl
  · exact Or.inl ⟨_, _, k14, k4.hwf.hx_tmp, by rw [← e4]⟩
  · exact Or.inr ⟨_, k14, rfl⟩
  · exact Or.inl ⟨_, _, k15, k5.hwf.hx_tmp, by rw [← e5]⟩
  · exact Or.inr ⟨_, k15, rfl⟩
  · exact Or.inl ⟨_, _, k12, k2.hwf.hx_r, by rw [← e2]⟩

/-- One iteration of `fminsearch_min` keeps the invariant of the run. -/
theorem fminsearch_iteration_inv (f : List Dbl → Dbl) (p : FMinSearch) (hp : RunInv f p) :
    RunInv f (fminsearch_iteration p) ∧ SameConfig p (fminsearch_iteration p) := by
  rcases fminsearch_iteration_cases f p hp with ⟨p2, x, hk, hx, e⟩ | ⟨p2, hk, e⟩
  · rw [e]
    obtain ⟨i1, i2⟩ := set_last_element_loop_inv f p p2 hp hk x hx (f x) rfl
    obtain ⟨j1, j2⟩ := fminsearch_sort_inv f _ i1
    exact ⟨j1, i2.chain j2⟩
  · rw [e]
    obtain ⟨i1, i2⟩ := shrink_loop_inv f p p2 hp hk
    obtain ⟨j1, j2⟩ := fminsearch_sort_inv f _ i1
    exact ⟨j1, i2.chain j2⟩

/-- One iteration of `fminsearch_min` with a scorer that never returns NaN leaves the
scores sorted and does not raise the best score. -/
theorem fminsearch_iteration_spec (f : List Dbl → Dbl) (hf : ∀ x, f x ≠ Dbl.nan)
    (p : FMinSearch) (hp : RunInv f p) (hN : 1 ≤ p.N) :
    SortedOn (fminsearch_iteration p).fv 0 p.N1 ∧
    Dbl.le (rd (fminsearch_iteration p).fv 0) (rd p.fv 0) = true := by
  rcases fminsearch_iteration_cases f p hp with ⟨p2, x, hk, hx, e⟩ | ⟨p2, hk, e⟩
  · rw [e]
    exact (set_last_element_good f hf p p2 hp hk hN x hx (f x) rfl).2.2
  · rw [e]
    exact (shrink_good f hf p p2 hp hk hN).2.2

/-! ## The run -/

/-- The state allocated by `fminsearch_set_equation` for a new dimension has arrays
of the right sizes. -/
theorem fminsearch_set_equation_WF (pfm : FMinSearch) (eq : List Dbl → Dbl) (Xsize : Nat)
    (h : pfm.N ≠ Xsize) : (fminsearch_set_equation pfm eq Xsize).WF := by
  unfold fminsearch_set_equation
  simp only [h, ne_eq, not_false_eq_true, if_true]
  have hrow : ∀ i, i < Xsize + 1 → (rd (calloc_2dim (Xsize + 1) Xsize) i).length = Xsize := by
    intro i hi
    unfold calloc_2dim
    rw [rd_eq_getElem _ _ (by simp; omega)]
    simp
  exact ⟨rfl, by simp, by simp, by simp [calloc_2dim], hrow, by simp [calloc_2dim], hrow,
    by simp, by simp, by simp⟩

theorem fminsearch_new_with_eq_WF (eq : List Dbl → Dbl) (Xsize : Nat) (h : 1 ≤ Xsize) :
    (fminsearch_new_with_eq eq Xsize).WF :=
  fminsearch_set_equation_WF fminsearch_new eq Xsize (by
    show (0 : Nat) ≠ Xsize
    omega)

/-- After `__fminsearch_min_init` the invariant of the run holds. -/
theorem fminsearch_min_init_inv (f : List Dbl → Dbl)
    (p : FMinSearch) (hwf : p.WF) (hsc : p.scorer = some f) (X0 : List Dbl) :
    RunInv f (__fminsearch_min_init_loop p X0) ∧
    RunInv f (__fminsearch_min_init p X0) ∧ SameConfig p (__fminsearch_min_init p X0) := by
  obtain ⟨l1, l2, l3⟩ := fminsearch_min_init_loop_spec p hwf X0
  have hpre : RunInv f (__fminsearch_min_init_loop p X0) := by
    refine ⟨l1, l2.hscorer.trans hsc, ?_⟩
    intro i hi
    rw [(l3 i (by rw [← l2.hN1]; exact hi)).2, calculate_score_eq hsc]
  obtain ⟨j1, j2⟩ := fminsearch_sort_inv f _ hpre
  exact ⟨hpre, j1, l2.chain j2⟩

/-- The invariant of the run holds after any number of iterations. -/
theorem fminsearch_iterate_inv (f : List Dbl → Dbl)
    (p : FMinSearch) (hwf : p.WF) (hsc : p.scorer = some f) (X0 : List Dbl) (n : Nat) :
    RunInv f (fminsearch_iteration^[n] (__fminsearch_min_init p X0)) ∧
    SameConfig p (fminsearch_iteration^[n] (__fminsearch_min_init p X0)) := by
  induction n with
  | zero =>
    obtain ⟨_, h1, h2⟩ := fminsearch_min_init_inv f p hwf hsc X0
    exact ⟨h1, h2⟩
  | succ m ih =>
    obtain ⟨i1, i2⟩ := ih
    rw [Function.iterate_succ_apply']
    obtain ⟨j1, j2⟩ := fminsearch_iteration_inv f _ i1
    exact ⟨j1, i2.chain j2⟩

/-- The loop of `fminsearch_min` applies `fminsearch_iteration` a number of times: started
with `remaining` rounds to go it stops after `m <= remaining` iterations, either
because the convergence test passed or because no round is left. -/
theorem fminsearch_loop_iterate : ∀ (remaining : Nat) (q : FMinSearch) (i : Nat),
    ∃ m, m ≤ remaining ∧
      fminsearch_loop remaining q i = (fminsearch_iteration^[m] q, i + m) ∧
      (∀ k, k < m → (__fminsearch_checkV (fminsearch_iteration^[k] q) &&
        __fminsearch_checkF (fminsearch_iteration^[k] q)) = false) ∧
      (m < remaining → (__fminsearch_checkV (fminsearch_iteration^[m] q) &&
        __fminsearch_checkF (fminsearch_iteration^[m] q)) = true) := by
  intro remaining
  induction remaining with
  | zero =>
    intro q i
    exact ⟨0, le_refl _, rfl, fun k hk => by omega, fun h => by omega⟩
  | succ r ih =>
    intro q i
    unfold fminsearch_loop
    by_cases c : (__fminsearch_checkV q && __fminsearch_checkF q) = true
    · rw [if_pos c]
      exact ⟨0, Nat.zero_le _, rfl, fun k hk => by omega, fun _ => c⟩
    · rw [if_neg c]
      obtain ⟨m, m1, m2, m3, m4⟩ := ih (fminsearch_iteration q) (i + 1)
      refine ⟨m + 1, by omega, ?_, ?_, ?_⟩
      · rw [m2, Function.iterate_succ_apply]
        congr 1
        omega
      · intro k hk
        cases k with
        | zero => simpa using c
        | succ k' =>
          rw [Function.iterate_succ_apply]
          exact m3 k' (by omega)
      · intro h
        rw [Function.iterate_succ_apply]
        exact m4 (by omega)

/-- The outcome of `fminsearch_min`: the state after `m <= maxiters` iterations from the
sorted initial simplex, with `iters = m` and `bymax = 1` exactly when `m = maxiters`.
The convergence test failed at the top of each of the `m` iterations, and it passed on
the final state when `m < maxiters`. -/
theorem fminsearch_min_run (f : List Dbl → Dbl) (p : FMinSearch) (hwf : p.WF)
    (hsc : p.scorer = some f) (X0 : List Dbl) :
    ∃ m, m ≤ p.maxiters ∧
      fminsearch_min p X0 =
        { fminsearch_iteration^[m] (__fminsearch_min_init p X0) with
          bymax := if m = p.maxiters then 1 else 0, iters := m } ∧
      (∀ k, k < m →
        (__fminsearch_checkV (fminsearch_iteration^[k] (__fminsearch_min_init p X0)) &&
          __fminsearch_checkF (fminsearch_iteration^[k] (__fminsearch_min_init p X0))) = false) ∧
      (m < p.maxiters →
        (__fminsearch_checkV (fminsearch_iteration^[m] (__fminsearch_min_init p X0)) &&
          __fminsearch_checkF (fminsearch_iteration^[m] (__fminsearch_min_init p X0))) = true) := by
  obtain ⟨_, _, hcfg⟩ := fminsearch_min_init_inv f p hwf hsc X0
  obtain ⟨m, m1, m2, m3, m4⟩ :=
    fminsearch_loop_iterate (__fminsearch_min_init p X0).maxiters (__fminsearch_min_init p X0) 0
  rw [hcfg.hmaxiters] at m1 m2 m4
  have hm : (fminsearch_iteration^[m] (__fminsearch_min_init p X0)).maxiters = p.maxiters :=
    (fminsearch_iterate_inv f p hwf hsc X0 m).2.hmaxiters
  refine ⟨m, m1, ?_, m3, m4⟩
  unfold fminsearch_min
  simp only
  rw [hcfg.hmaxiters, m2]
  simp only [Nat.zero_add]
  rw [hm]

/-- C1 (sorted invariant).  For a scorer that never returns NaN (scores totally
ordered), after `__fminsearch_min_init`, after every iteration of the loop of
`fminsearch_min` and at the end of `fminsearch_min` the scores are in non-decreasing
order: `fv[a] <= fv[b]` for all `0 <= a <= b <= N`. -/
theorem sorted_invariant (f : List Dbl → Dbl) (hf : ∀ x, f x ≠ Dbl.nan) (p : FMinSearch)
    (hwf : p.WF) (hsc : p.scorer = some f) (X0 : List Dbl) :
    (∀ n, SortedOn (fminsearch_iteration^[n] (__fminsearch_min_init p X0)).fv 0 (p.N + 1)) ∧
    SortedOn (fminsearch_min p X0).fv 0 (p.N + 1) := by
  have hall : ∀ n,
      SortedOn (fminsearch_iteration^[n] (__fminsearch_min_init p X0)).fv 0 (p.N + 1) := by
    intro n
    rw [← hwf.hN1]
    cases n with
    | zero =>
      obtain ⟨hpre, _, _⟩ := fminsearch_min_init_inv f p hwf hsc X0
      obtain ⟨_, l2, _⟩ := fminsearch_min_init_loop_spec p hwf X0
      have := (fminsearch_sort_min _ hpre.hwf (hpre.scores_noNaN hf)).1
      rw [l2.hN1] at this
      exact this
    | succ m =>
      rw [Function.iterate_succ_apply']
      obtain ⟨i1, i2⟩ := fminsearch_iterate_inv f p hwf hsc X0 m
      rcases fminsearch_iteration_cases f _ i1 with ⟨p2, x, hk, hx, e⟩ | ⟨p2, hk, e⟩
      · rw [e]
        obtain ⟨j1, j2⟩ := set_last_element_loop_inv f _ p2 i1 hk x hx (f x) rfl
        have := (fminsearch_sort_min _ j1.hwf (j1.scores_noNaN hf)).1
        rw [j2.hN1, i2.hN1] at this
        exact this
      · rw [e]
        obtain ⟨j1, j2⟩ := shrink_loop_inv f _ p2 i1 hk
        have := (fminsearch_sort_min _ j1.hwf (j1.scores_noNaN hf)).1
        rw [j2.hN1, i2.hN1] at this
        exact this
  refine ⟨hall, ?_⟩
  obtain ⟨m, _, e, _, _⟩ := fminsearch_min_run f p hwf hsc X0
  rw [e]
  exact hall m

theorem sqScore_ne_nan (x : List Dbl) : sqScore x ≠ Dbl.nan := by
  unfold sqScore
  split <;> simp

theorem sqOptimizer_WF : sqOptimizer.WF := fminsearch_new_with_eq_WF sqScore 1 (le_refl _)

/-- Witness of `sorted_invariant`: the optimizer of `sqScore` started at `x0 = 1`. -/
theorem sorted_invariant_witness :
    (∀ x, sqScore x ≠ Dbl.nan) ∧ sqOptimizer.WF ∧ sqOptimizer.scorer = some sqScore ∧
    (∀ n, SortedOn (fminsearch_iteration^[n] (__fminsearch_min_init sqOptimizer
      [Dbl.fin 1])).fv 0 (sqOptimizer.N + 1)) ∧
    SortedOn (fminsearch_min sqOptimizer [Dbl.fin 1]).fv 0 (sqOptimizer.N + 1) :=
  ⟨sqScore_ne_nan, sqOptimizer_WF, rfl,
    sorted_invariant sqScore sqScore_ne_nan sqOptimizer sqOptimizer_WF rfl [Dbl.fin 1]⟩

/-- C2, counterexample.  With the default configuration, `N = 1`, `x0 = (1)` and the
scorer `x^2` that returns NaN below 0.96, the sorted initial simplex has the scores
`(1, 1.1025)`; the reflected point 0.95 scores NaN, replaces the worst vertex, and the
sort moves it to vertex 0: after the first iteration the best score is NaN, which is
not `<=` the best score 1 before it. -/
theorem monotonic_improvement_counterexample :
    fminsearch_get_minF (fminsearch_iteration^[0]
      (__fminsearch_min_init (nanOptimizer (96 / 100) 2) [Dbl.fin 1])) = Dbl.fin 1 ∧
    fminsearch_get_minF (fminsearch_iteration^[0 + 1]
      (__fminsearch_min_init (nanOptimizer (96 / 100) 2) [Dbl.fin 1])) = Dbl.nan ∧
    Dbl.le
      (fminsearch_get_minF (fminsearch_iteration^[0 + 1]
        (__fminsearch_min_init (nanOptimizer (96 / 100) 2) [Dbl.fin 1])))
      (fminsearch_get_minF (fminsearch_iteration^[0]
        (__fminsearch_min_init (nanOptimizer (96 / 100) 2) [Dbl.fin 1]))) = false := by
  decide!

/-- C2, amended (monotonic improvement).  For `N >= 1` and a scorer that never returns NaN, the
best score `fv[0]` after iteration `n + 1` of `fminsearch_min` is `<=` the best score
after iteration `n`, for every `n`, iteration 0 being the sorted initial simplex; this
covers every branch of the iteration, the shrink included. -/
theorem monotonic_improvement (f : List Dbl → Dbl) (hf : ∀ x, f x ≠ Dbl.nan)
    (p : FMinSearch) (hwf : p.WF) (hsc : p.scorer = some f) (hN : 1 ≤ p.N) (X0 : List Dbl)
    (n : Nat) :
    Dbl.le
      (fminsearch_get_minF (fminsearch_iteration^[n + 1] (__fminsearch_min_init p X0)))
      (fminsearch_get_minF (fminsearch_iteration^[n] (__fminsearch_min_init p X0))) = true := by
  obtain ⟨i1, i2⟩ := fminsearch_iterate_inv f p hwf hsc X0 n
  rw [Function.iterate_succ_apply']
  exact (fminsearch_iteration_spec f hf _ i1 (by rw [i2.hN]; exact hN)).2

/-- Witness of `monotonic_improvement`: the optimizer of `sqScore` started at `x0 = 1`,
second iteration. -/
theorem monotonic_improvement_witness :
    (∀ x, sqScore x ≠ Dbl.nan) ∧ sqOptimizer.WF ∧ sqOptimizer.scorer = some sqScore ∧
    1 ≤ sqOptimizer.N ∧
    Dbl.le
      (fminsearch_get_minF (fminsearch_iteration^[1 + 1] (__fminsearch_min_init sqOptimizer
        [Dbl.fin 1])))
      (fminsearch_get_minF (fminsearch_iteration^[1] (__fminsearch_min_init sqOptimizer
        [Dbl.fin 1]))) = true :=
  ⟨sqScore_ne_nan, sqOptimizer_WF, rfl, le_refl _,
    monotonic_improvement sqScore sqScore_ne_nan sqOptimizer sqOptimizer_WF rfl (le_refl _)
      [Dbl.fin 1] 1⟩

/-! ## The convergence tests -/

/-- C5, counterexample.  With `maxiters = 0`, `N = 1`, `x0 = (1)` and the scorer `x^2`
that returns NaN above 1.01, the initial simplex has the scores `(1, NaN)`; the sort
puts the NaN first, so `fminsearch_get_minF` is NaN: it is not the minimum of the
initial scores and not `<=` the score 1 of the initial vertex 0. -/
theorem cap_zero_counterexample :
    (fminsearch_min nanOptimizerCap0 [Dbl.fin 1]).iters = 0 ∧
    (__fminsearch_min_init_loop nanOptimizerCap0 [Dbl.fin 1]).fv = [Dbl.fin 1, Dbl.nan] ∧
    fminsearch_get_minF (fminsearch_min nanOptimizerCap0 [Dbl.fin 1]) = Dbl.nan ∧
    Dbl.le (fminsearch_get_minF (fminsearch_min nanOptimizerCap0 [Dbl.fin 1]))
      (rd (__fminsearch_min_init_loop nanOptimizerCap0 [Dbl.fin 1]).fv 0) = false := by
  decide!

/-- C5, amended (cap behaviour with `maxiters = 0`).  For a scorer that never returns NaN,
`fminsearch_min` with `maxiters = 0` runs no iteration: `iters = 0`, and the simplex
is the sorted initial simplex (the vertices built by `__fminsearch_min_init`, reordered
with their scores into non-decreasing order).  `fminsearch_get_minF` is the score of
one of the `N + 1` initial vertices and is `<=` the score of each of them, and
`fminsearch_get_minX` is an initial vertex with that score. -/
theorem cap_zero (f : List Dbl → Dbl) (hf : ∀ x, f x ≠ Dbl.nan) (p : FMinSearch)
    (hwf : p.WF) (hsc : p.scorer = some f) (X0 : List Dbl) (h0 : p.maxiters = 0) :
    (fminsearch_min p X0).iters = 0 ∧
    (fminsearch_min p X0).v = (__fminsearch_min_init p X0).v ∧
    (fminsearch_min p X0).fv = (__fminsearch_min_init p X0).fv ∧
    SimplexPerm (__fminsearch_min_init_loop p X0) (fminsearch_min p X0) ∧
    SortedOn (fminsearch_min p X0).fv 0 (p.N + 1) ∧
    (∃ k, k ≤ p.N ∧
      fminsearch_get_minF (fminsearch_min p X0) = rd (__fminsearch_min_init_loop p X0).fv k ∧
      fminsearch_get_minX (fminsearch_min p X0) = rd (__fminsearch_min_init_loop p X0).v k ∧
      fminsearch_get_minF (fminsearch_min p X0) = f (fminsearch_get_minX (fminsearch_min p X0))) ∧
    (∀ k, k ≤ p.N → Dbl.le (fminsearch_get_minF (fminsearch_min p X0))
      (rd (__fminsearch_min_init_loop p X0).fv k) = true) := by
  obtain ⟨m, m1, e, _, _⟩ := fminsearch_min_run f p hwf hsc X0
  have hm : m = 0 := by omega
  subst hm
  obtain ⟨hpre, hinit, hcfg⟩ := fminsearch_min_init_inv f p hwf hsc X0
  obtain ⟨_, l2, _⟩ := fminsearch_min_init_loop_spec p hwf X0
  obtain ⟨_, _, _, _, _, hperm, _⟩ := fminsearch_sort_spec _ hpre.hwf
  obtain ⟨s1, s2⟩ := fminsearch_sort_min _ hpre.hwf (hpre.scores_noNaN hf)
  rw [l2.hN1, hwf.hN1] at s1 s2
  have hv : (fminsearch_min p X0).v = (__fminsearch_min_init p X0).v := by rw [e]; rfl
  have hfv : (fminsearch_min p X0).fv = (__fminsearch_min_init p X0).fv := by rw [e]; rfl
  have hidx : (fminsearch_min p X0).idx = (__fminsearch_min_init p X0).idx := by rw [e]; rfl
  have hperm2 : SimplexPerm (__fminsearch_min_init_loop p X0) (fminsearch_min p X0) := by
    obtain ⟨σ, h1, h2⟩ := hperm
    refine ⟨σ, h1, ?_⟩
    intro k hk
    rw [hv, hfv, hidx]
    exact h2 k hk
  refine ⟨by rw [e], hv, hfv, hperm2, by rw [hfv]; exact s1, ?_, ?_⟩
  · obtain ⟨σ, h1, h2⟩ := hperm2
    have hlt : σ 0 < (__fminsearch_min_init_loop p X0).N1 :=
      (perm_maps_range σ 0 _ (fun k hk => h1 k (by omega)) 0 (le_refl _)
        (by rw [l2.hN1, hwf.hN1]; omega)).2
    have h20 := h2 0 (by rw [l2.hN1, hwf.hN1]; omega)
    refine ⟨σ 0, by rw [l2.hN1, hwf.hN1] at hlt; omega, h20.1, h20.2.1, ?_⟩
    unfold fminsearch_get_minF fminsearch_get_minX
    rw [h20.1, h20.2.1]
    exact hpre.hpair _ hlt
  · intro k hk
    unfold fminsearch_get_minF
    rw [hfv]
    exact s2 k (by omega)

/-- The iteration cap plays no part in the sizes of the arrays. -/
theorem WF_with_maxiters (q : FMinSearch) (h : q.WF) (n : Nat) :
    ({ q with maxiters := n } : FMinSearch).WF :=
  ⟨h.hN1, h.hfv, h.hidx, h.hv, h.hvrow, h.hvsort, h.hvsortrow, h.hx_mean, h.hx_r, h.hx_tmp⟩

theorem sqOptimizerCap0_WF : sqOptimizerCap0.WF := WF_with_maxiters sqOptimizer sqOptimizer_WF 0

/-- Witness of `cap_zero`: the optimizer of `sqScore` with `maxiters = 0`, started at
`x0 = 1`. -/
theorem cap_zero_witness :
    (∀ x, sqScore x ≠ Dbl.nan) ∧ sqOptimizerCap0.WF ∧ sqOptimizerCap0.scorer = some sqScore ∧
    sqOptimizerCap0.maxiters = 0 ∧ (fminsearch_min sqOptimizerCap0 [Dbl.fin 1]).iters = 0 :=
  ⟨sqScore_ne_nan, sqOptimizerCap0_WF, rfl, rfl,
    (cap_zero sqScore sqScore_ne_nan sqOptimizerCap0 sqOptimizerCap0_WF rfl [Dbl.fin 1] rfl).1⟩

/-! ## C10: the initial simplex -/

theorem Dbl.toBool_eq_false_iff (x : Dbl) : x.toBool = false ↔ x = Dbl.fin 0 := by
  cases x <;> simp [Dbl.toBool]

theorem Dbl.mul_comm_dbl (a b : Dbl) : Dbl.mul a b = Dbl.mul b a := by
  cases a <;> cases b <;> simp [Dbl.mul, mul_comm]

/-- The entry `v[i][j]` written by `__fminsearch_min_init`, in the words of the
specification. -/
theorem init_entry_eq (q : FMinSearch) (X0 : List Dbl) (i j : Nat) :
    init_entry q X0 i j =
      if i = j + 1 then
        if rd X0 j = Dbl.fin 0 then q.zero_delta
        else if 1 < i ∧ Dbl.isinf (rd q.fv (i - 1)) = true then
          Dbl.mul (Dbl.add (Dbl.fin 1) (Dbl.mul (Dbl.fin 100) q.delta)) (rd X0 j)
        else Dbl.mul (Dbl.add (Dbl.fin 1) q.delta) (rd X0 j)
      else rd X0 j := by
  unfold init_entry
  have e1 : Dbl.ofInt 1 = Dbl.fin 1 := by simp [Dbl.ofInt]
  have e100 : Dbl.ofInt 100 = Dbl.fin 100 := by simp [Dbl.ofInt]
  rw [e1, e100, Dbl.mul_comm_dbl q.delta (Dbl.fin 100)]
  have hij : ((i : Int) - 1 = (j : Int)) ↔ i = j + 1 := by omega
  have hgt : (i > 1) ↔ 1 < i := Iff.rfl
  generalize rd X0 j = x
  generalize Dbl.isinf (rd q.fv (i - 1)) = b
  by_cases c1 : i = j + 1 <;> by_cases c2 : 1 < i <;> cases b <;>
    cases x with
    | fin r => by_cases hr : r = 0 <;> simp [hij, hgt, c1, c2, hr, Dbl.toBool]
    | pinf => simp [hij, hgt, c1, c2, Dbl.toBool]
    | ninf => simp [hij, hgt, c1, c2, Dbl.toBool]
    | nan => simp [hij, hgt, c1, c2, Dbl.toBool]

/-- C10 (initial simplex construction).  Before the first sort, for `x0` of length `N`,
`__fminsearch_min_init` has built vertex 0 equal to `x0` and, for `i = 1 .. N`, vertex
`i` equal to `x0` in every coordinate except coordinate `i - 1`, which is `zero_delta`
when `x0[i-1] = 0`, `(1 + 100 * delta) * x0[i-1]` when `x0[i-1] != 0`, `i > 1` and the
score of vertex `i - 1` is infinite, and `(1 + delta) * x0[i-1]` otherwise; `fv[i]` is
the scorer's value at vertex `i`. -/
theorem initial_simplex (f : List Dbl → Dbl) (p : FMinSearch) (hwf : p.WF)
    (hsc : p.scorer = some f) (X0 : List Dbl) (hlen : X0.length = p.N) :
    rd (__fminsearch_min_init_loop p X0).v 0 = X0 ∧
    (∀ i j, 1 ≤ i → i ≤ p.N → j < p.N → j ≠ i - 1 →
      rd (rd (__fminsearch_min_init_loop p X0).v i) j = rd X0 j) ∧
    (∀ i, 1 ≤ i → i ≤ p.N →
      rd (rd (__fminsearch_min_init_loop p X0).v i) (i - 1) =
        if rd X0 (i - 1) = Dbl.fin 0 then p.zero_delta
        else if 1 < i ∧ Dbl.isinf (rd (__fminsearch_min_init_loop p X0).fv (i - 1)) = true then
          Dbl.mul (Dbl.add (Dbl.fin 1) (Dbl.mul (Dbl.fin 100) p.delta)) (rd X0 (i - 1))
        else Dbl.mul (Dbl.add (Dbl.fin 1) p.delta) (rd X0 (i - 1))) ∧
    (∀ i, i ≤ p.N → rd (__fminsearch_min_init_loop p X0).fv i =
      f (rd (__fminsearch_min_init_loop p X0).v i)) := by
  obtain ⟨l1, l2, l3⟩ := fminsearch_min_init_loop_spec p hwf X0
  have hN1 := hwf.hN1
  refine ⟨?_, ?_, ?_, ?_⟩
  · apply list_ext_rd
    · rw [l1.hvrow 0 (by rw [l2.hN1]; omega), l2.hN, hlen]
    · intro j hj
      rw [l1.hvrow 0 (by rw [l2.hN1]; omega), l2.hN] at hj
      rw [(l3 0 (by omega)).1 j hj, init_entry_eq, if_neg (by omega)]
  · intro i j hi1 hi2 hj hne
    rw [(l3 i (by omega)).1 j hj, init_entry_eq, if_neg (by omega)]
  · intro i hi1 hi2
    rw [(l3 i (by omega)).1 (i - 1) (by omega), init_entry_eq, if_pos (by omega), l2.hzero_delta,
      l2.hdelta]
  · intro i hi
    rw [(l3 i (by omega)).2, calculate_score_eq hsc]

/-- Witness of `initial_simplex`: the optimizer of `sqScore` and `x0 = (1)`. -/
theorem initial_simplex_witness :
    sqOptimizer.WF ∧ sqOptimizer.scorer = some sqScore ∧
    [Dbl.fin 1].length = sqOptimizer.N ∧
    rd (__fminsearch_min_init_loop sqOptimizer [Dbl.fin 1]).v 0 = [Dbl.fin 1] :=
  ⟨sqOptimizer_WF, rfl, rfl,
    (initial_simplex sqScore sqOptimizer sqOptimizer_WF rfl [Dbl.fin 1] rfl).1⟩

/-! ## C9: the length of the initial guess -/

/-- Rewriting a vertex by a row of `N` coordinates and its score keeps the sizes. -/
theorem WF_set_vertex (q : FMinSearch) (hwf : q.WF) (i : Nat) (row : List Dbl)
    (hrow : row.length = q.N) (val : Dbl) :
    ({ q with v := q.v.set i row, fv := q.fv.set i val } : FMinSearch).WF := by
  refine ⟨hwf.hN1, by simp [hwf.hfv], hwf.hidx, by simp [hwf.hv], ?_, hwf.hvsort,
    hwf.hvsortrow, hwf.hx_mean, hwf.hx_r, hwf.hx_tmp⟩
  intro k hk
  simp only
  rw [rd_set]
  split_ifs
  · exact hrow
  · exact hwf.hvrow k hk

theorem rd_append_left (a b : List Dbl) (j : Nat) (hj : j < a.length) :
    rd (a ++ b) j = rd a j := by
  unfold rd
  exact List.getD_append a b _ j hj

/-- The entries written by `__fminsearch_min_init` read `X0` at the columns `j < N`
only. -/
theorem init_entry_append (q : FMinSearch) (X0 extra : List Dbl) (i j : Nat)
    (hj : j < X0.length) : init_entry q (X0 ++ extra) i j = init_entry q X0 i j := by
  unfold init_entry
  rw [rd_append_left X0 extra j hj]

/-- The loops of `__fminsearch_min_init` read the first `N` coordinates of `X0` only. -/
theorem init_loop_append (p : FMinSearch) (hwf : p.WF) (X0 extra : List Dbl)
    (hlen : X0.length = p.N) :
    __fminsearch_min_init_loop p (X0 ++ extra) = __fminsearch_min_init_loop p X0 := by
  have key := forLoop_inv (fun (n : Nat) (q : FMinSearch) =>
      q = forLoop n (fun i pfm =>
        let pfm := forLoop pfm.N (fun j pfm =>
          { pfm with v := set2 pfm.v i j (init_entry pfm X0 i j) }) pfm;
        { pfm with fv := pfm.fv.set i (calculate_score pfm (rd pfm.v i)) }) p ∧
      q.WF ∧ q.N = p.N ∧ q.N1 = p.N1)
    p.N1 (fun i pfm =>
        let pfm := forLoop pfm.N (fun j pfm =>
          { pfm with v := set2 pfm.v i j (init_entry pfm (X0 ++ extra) i j) }) pfm;
        { pfm with fv := pfm.fv.set i (calculate_score pfm (rd pfm.v i)) }) p
    ⟨rfl, hwf, rfl, rfl⟩
    (by
      intro i q hi ⟨q1, q2, q3, q4⟩
      beta_reduce
      have hiv : i < q.v.length := by rw [q2.hv, q4]; exact hi
      have hfill : forLoop q.N (fun j row => row.set j (init_entry q (X0 ++ extra) i j))
          (rd q.v i) =
          forLoop q.N (fun j row => row.set j (init_entry q X0 i j)) (rd q.v i) := by
        apply forLoop_congr
        intro j t hj
        rw [init_entry_append q X0 extra i j (by rw [hlen, ← q3]; exact hj)]
      rw [init_round_eq q (X0 ++ extra) i hiv, hfill]
      refine ⟨?_, ?_, q3, q4⟩
      · rw [forLoop_succ, ← q1, init_round_eq q X0 i hiv]
      · apply WF_set_vertex q q2
        rw [forLoop_fill_length]
        exact q2.hvrow i (by rw [q4]; exact hi))
  exact key.1

/-- C9, counterexample.  The optimizer configured for `N = 2` (scorer
`(x - 3)^2 + (y + 1)^2`) accepts the guess `(1, 2, 7)` of length 3: no failure is
signalled, the run is the run for `(1, 2)` and ends with the same flag, iteration
count, best point and best score. -/
theorem dimension_mismatch_counterexample :
    [Dbl.fin 1, Dbl.fin 2, Dbl.fin 7].length ≠ quadOptimizer.N ∧
    (fminsearch_min quadOptimizer [Dbl.fin 1, Dbl.fin 2, Dbl.fin 7]).bymax =
      (fminsearch_min quadOptimizer [Dbl.fin 1, Dbl.fin 2]).bymax ∧
    (fminsearch_min quadOptimizer [Dbl.fin 1, Dbl.fin 2, Dbl.fin 7]).iters =
      (fminsearch_min quadOptimizer [Dbl.fin 1, Dbl.fin 2]).iters ∧
    fminsearch_get_minX (fminsearch_min quadOptimizer [Dbl.fin 1, Dbl.fin 2, Dbl.fin 7]) =
      fminsearch_get_minX (fminsearch_min quadOptimizer [Dbl.fin 1, Dbl.fin 2]) ∧
    fminsearch_get_minF (fminsearch_min quadOptimizer [Dbl.fin 1, Dbl.fin 2, Dbl.fin 7]) =
      fminsearch_get_minF (fminsearch_min quadOptimizer [Dbl.fin 1, Dbl.fin 2]) := by
  have e : fminsearch_min quadOptimizer [Dbl.fin 1, Dbl.fin 2, Dbl.fin 7] =
      fminsearch_min quadOptimizer [Dbl.fin 1, Dbl.fin 2] := by
    have h := init_loop_append quadOptimizer (fminsearch_new_with_eq_WF quadScore 2 (by decide))
      [Dbl.fin 1, Dbl.fin 2] [Dbl.fin 7] rfl
    unfold fminsearch_min __fminsearch_min_init
    rw [show [Dbl.fin 1, Dbl.fin 2, Dbl.fin 7] = [Dbl.fin 1, Dbl.fin 2] ++ [Dbl.fin 7] from rfl, h]
  rw [e]
  exact ⟨by decide, rfl, rfl, rfl, rfl⟩

/-- C9, amended.  `fminsearch_min` receives the guess as a bare pointer and reads its
first `N` coordinates only: a guess that is longer than `N` is processed exactly like
its first `N` coordinates, and no failure is signalled. -/
theorem dimension_mismatch (p : FMinSearch) (hwf : p.WF) (X0 extra : List Dbl)
    (hlen : X0.length = p.N) :
    fminsearch_min p (X0 ++ extra) = fminsearch_min p X0 := by
  unfold fminsearch_min __fminsearch_min_init
  rw [init_loop_append p hwf X0 extra hlen]

/-- Witness of `dimension_mismatch`: the optimizer of `sqScore` (`N = 1`) with the guess
`(1, 5)`. -/
theorem dimension_mismatch_witness :
    sqOptimizer.WF ∧ [Dbl.fin 1].length = sqOptimizer.N ∧
    fminsearch_min sqOptimizer ([Dbl.fin 1] ++ [Dbl.fin 5]) =
      fminsearch_min sqOptimizer [Dbl.fin 1] :=
  ⟨sqOptimizer_WF, rfl, dimension_mismatch sqOptimizer sqOptimizer_WF [Dbl.fin 1] [Dbl.fin 5] rfl⟩

/-! ## C6: the concrete scenario -/

/-- C6 (concrete scenario).  With the defaults of `fminsearch_new`, `N = 2`,
`f(x, y) = (x - 3)^2 + (y + 1)^2` and `x0 = (0, 0)`, `fminsearch_min` returns 0
(converged, not cap-hit), `fminsearch_get_minX` is within
`1e-4` of `(3, -1)` in each coordinate and `fminsearch_get_minF` is within `1e-6` of 0. -/
theorem concrete_scenario :
    quadOptimizer.rho = Dbl.fin 1 ∧ quadOptimizer.chi = Dbl.fin 2 ∧
    quadOptimizer.psi = Dbl.fin (1 / 2) ∧ quadOptimizer.sigma = Dbl.fin (1 / 2) ∧
    quadOptimizer.delta = Dbl.fin (5 / 100) ∧ quadOptimizer.zero_delta = Dbl.fin (25 / 100000) ∧
    quadOptimizer.tolx = Dbl.fin (1 / 1000000) ∧ quadOptimizer.tolf = Dbl.fin (1 / 1000000) ∧
    quadOptimizer.maxiters = 10000 ∧ quadOptimizer.N = 2 ∧
    (fminsearch_min quadOptimizer [Dbl.fin 0, Dbl.fin 0]).bymax = 0 ∧
    Dbl.le (Dbl.fabs (Dbl.sub
      (rd (fminsearch_get_minX (fminsearch_min quadOptimizer [Dbl.fin 0, Dbl.fin 0])) 0)
      (Dbl.fin 3))) (Dbl.fin (1 / 10000)) = true ∧
    Dbl.le (Dbl.fabs (Dbl.sub
      (rd (fminsearch_get_minX (fminsearch_min quadOptimizer [Dbl.fin 0, Dbl.fin 0])) 1)
      (Dbl.fin (-1)))) (Dbl.fin (1 / 10000)) = true ∧
    Dbl.le (Dbl.fabs (Dbl.sub
      (fminsearch_get_minF (fminsearch_min quadOptimizer [Dbl.fin 0, Dbl.fin 0]))
      (Dbl.fin 0))) (Dbl.fin (1 / 1000000)) = true := by
  decide!

/-! ## C8: infinite scores -/

/-- The best score never rises: after any number of iterations it is `<=` the best
score of the sorted initial simplex. -/
theorem best_le_initial (f : List Dbl → Dbl) (hf : ∀ x, f x ≠ Dbl.nan) (p : FMinSearch)
    (hwf : p.WF) (hsc : p.scorer = some f) (hN : 1 ≤ p.N) (X0 : List Dbl) (n : Nat) :
    Dbl.le (rd (fminsearch_iteration^[n] (__fminsearch_min_init p X0)).fv 0)
      (rd (__fminsearch_min_init p X0).fv 0) = true := by
  induction n with
  | zero =>
    obtain ⟨_, h1, h2⟩ := fminsearch_min_init_inv f p hwf hsc X0
    exact Dbl.le_refl_of_ne_nan _ (h1.scores_noNaN hf 0 (le_refl _)
      (by rw [h2.hN1, hwf.hN1]; omega))
  | succ m ih =>
    obtain ⟨i1, i2⟩ := fminsearch_iterate_inv f p hwf hsc X0 m
    rw [Function.iterate_succ_apply']
    exact Dbl.le_transitive
      (fminsearch_iteration_spec f hf _ i1 (by rw [i2.hN]; exact hN)).2 ih

theorem Dbl.isFinite_iff (a : Dbl) : Dbl.isFinite a = true ↔ ∃ q, a = Dbl.fin q := by
  cases a <;> simp [Dbl.isFinite]

theorem rd_map_range {β : Type} [Inhabited β] (n : Nat) (g : Nat → β) (j : Nat) (hj : j < n) :
    rd ((List.range n).map g) j = g j := by
  rw [rd_eq_getElem _ _ (by simp [hj])]
  simp

theorem map_range_congr {β : Type} (n : Nat) (g h : Nat → β) (hgh : ∀ j, j < n → g j = h j) :
    (List.range n).map g = (List.range n).map h := by
  apply List.map_congr_left
  intro j hj
  exact hgh j (List.mem_range.mp hj)

theorem fill_eq_map_range {β : Type} [Inhabited β] (n : Nat) (g : Nat → β) (a0 : List β)
    (h : a0.length = n) : forLoop n (fun i a => a.set i (g i)) a0 = (List.range n).map g := by
  apply list_ext_rd
  · rw [forLoop_fill_length]
    simp [h]
  · intro i hi
    rw [forLoop_fill_length] at hi
    rw [forLoop_fill_rd n g a0 i (by omega) hi, rd_map_range n g i (by omega)]

/-- A loop that keeps adding into the cell `i` of an array adds up in that cell. -/
theorem forLoop_accum (n i : Nat) (g : Nat → Dbl) (a : List Dbl) :
    forLoop n (fun j xm => xm.set i (Dbl.add (rd xm i) (g j))) a =
      a.set i (forLoop n (fun j acc => Dbl.add acc (g j)) (rd a i)) := by
  induction n with
  | zero => exact (set_rd_self a i).symm
  | succ n ih =>
    rw [forLoop_succ, forLoop_succ, ih, List.set_set]
    by_cases hi : i < a.length
    · rw [rd_set_self _ _ _ hi]
    · rw [List.set_eq_of_length_le (by omega), List.set_eq_of_length_le (by omega)]

/-- One round of the outer loop of `__fminsearch_x_mean` stores the centroid coordinate. -/
theorem x_mean_round_eq (p : FMinSearch) (i : Nat) (xm : List Dbl) :
    (let x_mean := xm.set i (Dbl.ofInt 0)
     let x_mean := forLoop p.N (fun j x_mean =>
        x_mean.set i (Dbl.add (rd x_mean i) (rd (rd p.v j) i))) x_mean
     x_mean.set i (Dbl.div (rd x_mean i) (Dbl.ofInt p.N))) = xm.set i (centroid p i) := by
  simp only
  rw [forLoop_accum p.N i (fun j => rd (rd p.v j) i), List.set_set, List.set_set]
  by_cases hi : i < xm.length
  · rw [rd_set_self _ _ _ (by simpa using hi), rd_set_self _ _ _ hi]
    rfl
  · rw [List.set_eq_of_length_le (by omega), List.set_eq_of_length_le (by omega)]

theorem fminsearch_x_mean_eq (p : FMinSearch) (hwf : p.WF) :
    __fminsearch_x_mean p = with_scratch (centroid_point p) p.x_r p.x_tmp p := by
  have h : forLoop p.N (fun i x_mean =>
      let x_mean := x_mean.set i (Dbl.ofInt 0)
      let x_mean := forLoop p.N (fun j x_mean =>
        x_mean.set i (Dbl.add (rd x_mean i) (rd (rd p.v j) i))) x_mean
      x_mean.set i (Dbl.div (rd x_mean i) (Dbl.ofInt p.N))) p.x_mean = centroid_point p := by
    rw [forLoop_congr p.N _ (fun i a => a.set i (centroid p i)) p.x_mean
      (fun i t _ => x_mean_round_eq p i t)]
    exact fill_eq_map_range p.N _ p.x_mean hwf.hx_mean
  unfold __fminsearch_x_mean
  rw [h]
  rfl

theorem fminsearch_x_reflection_eq (p : FMinSearch) (b c : List Dbl) (hb : b.length = p.N) :
    __fminsearch_x_reflection (with_scratch (centroid_point p) b c p) =
      (with_scratch (centroid_point p) (reflection_point p) c p,
        calculate_score p (reflection_point p)) := by
  have h : forLoop p.N (fun i x_r =>
      x_r.set i (Dbl.add (rd (centroid_point p) i)
        (Dbl.mul p.rho (Dbl.sub (rd (centroid_point p) i) (rd (rd p.v p.N) i))))) b =
      reflection_point p := by
    rw [fill_eq_map_range p.N _ b hb]
    apply map_range_congr
    intro j hj
    simp only [centroid_point, rd_map_range p.N _ j hj]
  unfold __fminsearch_x_reflection with_scratch
  simp only
  rw [h]
  rfl

theorem fminsearch_x_expansion_eq (p : FMinSearch) (c : List Dbl) (hc : c.length = p.N) :
    __fminsearch_x_expansion (with_scratch (centroid_point p) (reflection_point p) c p) =
      (with_scratch (centroid_point p) (reflection_point p) (expansion_point p) p,
        calculate_score p (expansion_point p)) := by
  have h : forLoop p.N (fun i x_tmp =>
      x_tmp.set i (Dbl.add (rd (centroid_point p) i)
        (Dbl.mul p.chi (Dbl.sub (rd (reflection_point p) i) (rd (centroid_point p) i))))) c =
      expansion_point p := by
    rw [fill_eq_map_range p.N _ c hc]
    apply map_range_congr
    intro j hj
    simp only [centroid_point, rd_map_range p.N _ j hj]
  unfold __fminsearch_x_expansion with_scratch
  simp only
  rw [h]
  rfl

theorem fminsearch_x_contract_outside_eq (p : FMinSearch) (c : List Dbl)
    (hc : c.length = p.N) :
    __fminsearch_x_contract_outside
        (with_scratch (centroid_point p) (reflection_point p) c p) =
      (with_scratch (centroid_point p) (reflection_point p) (contract_outside_point p) p,
        calculate_score p (contract_outside_point p)) := by
  have h : forLoop p.N (fun i x_tmp =>
      x_tmp.set i (Dbl.add (rd (centroid_point p) i)
        (Dbl.mul p.psi (Dbl.sub (rd (reflection_point p) i) (rd (centroid_point p) i))))) c =
      contract_outside_point p := by
    rw [fill_eq_map_range p.N _ c hc]
    apply map_range_congr
    intro j hj
    simp only [centroid_point, rd_map_range p.N _ j hj]
  unfold __fminsearch_x_contract_outside with_scratch
  simp only
  rw [h]
  rfl

theorem fminsearch_x_contract_inside_eq (p : FMinSearch) (c : List Dbl)
    (hc : c.length = p.N) :
    __fminsearch_x_contract_inside
        (with_scratch (centroid_point p) (reflection_point p) c p) =
      (with_scratch (centroid_point p) (reflection_point p) (contract_inside_point p) p,
        calculate_score p (contract_inside_point p)) := by
  have h : forLoop p.N (fun i x_tmp =>
      x_tmp.set i (Dbl.add (rd (centroid_point p) i)
        (Dbl.mul p.psi (Dbl.sub (rd (centroid_point p) i) (rd (rd p.v p.N) i))))) c =
      contract_inside_point p := by
    rw [fill_eq_map_range p.N _ c hc]
    apply map_range_congr
    intro j hj
    simp only [centroid_point, rd_map_range p.N _ j hj]
  unfold __fminsearch_x_contract_inside with_scratch
  simp only
  rw [h]
  rfl

/-! ## One iteration, branch by branch -/

theorem forLoop_comm {σ : Type} (g : σ → σ) (n : Nat) (body : Nat → σ → σ) (s : σ)
    (h : ∀ i t, body i (g t) = g (body i t)) : forLoop n body (g s) = g (forLoop n body s) := by
  induction n with
  | zero => rfl
  | succ n ih => rw [forLoop_succ, forLoop_succ, ih, h]

theorem fminsearch_sort_with_scratch (a b c : List Dbl) (p : FMinSearch) :
    __fminsearch_sort (with_scratch a b c p) = with_scratch a b c (__fminsearch_sort p) := rfl

theorem fminsearch_set_last_element_with_scratch (a b c : List Dbl) (p : FMinSearch)
    (x : List Dbl) (val : Dbl) :
    __fminsearch_set_last_element (with_scratch a b c p) x val =
      with_scratch a b c (__fminsearch_set_last_element p x val) := rfl

theorem fminsearch_x_shrink_loop_with_scratch (a b c : List Dbl) (p : FMinSearch) :
    __fminsearch_x_shrink_loop (with_scratch a b c p) =
      with_scratch a b c (__fminsearch_x_shrink_loop p) := by
  unfold __fminsearch_x_shrink_loop
  have hN1 : (with_scratch a b c p).N1 = p.N1 := rfl
  rw [hN1]
  apply forLoop_comm
  intro k t
  simp only
  have hN : (with_scratch a b c t).N = t.N := rfl
  rw [hN, forLoop_comm (with_scratch a b c) t.N]
  · rfl
  · intro j u
    rfl

theorem fminsearch_x_shrink_with_scratch (a b c : List Dbl) (p : FMinSearch) :
    __fminsearch_x_shrink (with_scratch a b c p) =
      with_scratch a b c (__fminsearch_x_shrink p) := by
  unfold __fminsearch_x_shrink
  rw [fminsearch_x_shrink_loop_with_scratch, fminsearch_sort_with_scratch]

/-- The assignments of `__fminsearch_set_last_element` replace the worst vertex and its
score and nothing else. -/
theorem set_last_element_loop_eq (p : FMinSearch) (hwf : p.WF) (x : List Dbl) (val : Dbl)
    (hx : x.length = p.N) :
    __fminsearch_set_last_element_loop p x val = replace_worst p x val := by
  unfold __fminsearch_set_last_element_loop replace_worst
  simp only
  rw [forLoop_fill_row p.N p.N (fun i => rd x i) p.v]
  have h : forLoop p.N (fun j row => row.set j (rd x j)) (rd p.v p.N) = x :=
    memcpy_eq (rd p.v p.N) x p.N (hwf.hvrow p.N (by rw [hwf.hN1]; omega)) hx
  rw [h]

theorem length_map_range {β : Type} (n : Nat) (g : Nat → β) :
    ((List.range n).map g).length = n := by simp

/-- The whole iteration as a decision tree over the trial points: the state after the
iteration is the old state with the worst vertex replaced and sorted
(`__fminsearch_set_last_element`) or shrunk (`__fminsearch_x_shrink`), and with the
scratch vectors holding the centroid and the trial points that were computed. -/
theorem fminsearch_iteration_eq (f : List Dbl → Dbl) (p : FMinSearch) (hwf : p.WF)
    (hsc : p.scorer = some f) :
    fminsearch_iteration p =
      if Dbl.lt (f (reflection_point p)) (rd p.fv 0) then
        if Dbl.lt (f (expansion_point p)) (f (reflection_point p)) then
          with_scratch (centroid_point p) (reflection_point p) (expansion_point p)
            (__fminsearch_set_last_element p (expansion_point p) (f (expansion_point p)))
        else
          with_scratch (centroid_point p) (reflection_point p) (expansion_point p)
            (__fminsearch_set_last_element p (reflection_point p) (f (reflection_point p)))
      else if Dbl.le (rd p.fv p.N) (f (reflection_point p)) then
        if Dbl.lt (rd p.fv p.N) (f (reflection_point p)) then
          if Dbl.lt (f (contract_inside_point p)) (rd p.fv p.N) then
            with_scratch (centroid_point p) (reflection_point p) (contract_inside_point p)
              (__fminsearch_set_last_element p (contract_inside_point p)
                (f (contract_inside_point p)))
          else
            with_scratch (centroid_point p) (reflection_point p) (contract_inside_point p)
              (__fminsearch_x_shrink p)
        else
          if Dbl.le (f (contract_outside_point p)) (f (reflection_point p)) then
            with_scratch (centroid_point p) (reflection_point p) (contract_outside_point p)
              (__fminsearch_set_last_element p (contract_outside_point p)
                (f (contract_outside_point p)))
          else
            with_scratch (centroid_point p) (reflection_point p) (contract_outside_point p)
              (__fminsearch_x_shrink p)
      else
        with_scratch (centroid_point p) (reflection_point p) p.x_tmp
          (__fminsearch_set_last_element p (reflection_point p) (f (reflection_point p))) := by
  unfold fminsearch_iteration
  simp only
  rw [fminsearch_x_mean_eq p hwf, fminsearch_x_reflection_eq p p.x_r p.x_tmp hwf.hx_r,
    fminsearch_x_expansion_eq p p.x_tmp hwf.hx_tmp,
    fminsearch_x_contract_inside_eq p p.x_tmp hwf.hx_tmp,
    fminsearch_x_contract_outside_eq p p.x_tmp hwf.hx_tmp]
  simp only [calculate_score_eq hsc, fminsearch_set_last_element_with_scratch,
    fminsearch_x_shrink_with_scratch]
  rfl

/-! ## C14, C15, C17: the branches of one iteration -/

theorem Dbl.lt_false_of_le {a b : Dbl} (h : Dbl.le a b = true) : Dbl.lt b a = false := by
  cases a <;> cases b <;> simp_all [Dbl.le, Dbl.lt]

theorem Dbl.le_false_of_lt {a b : Dbl} (h : Dbl.lt a b = true) : Dbl.le b a = false := by
  cases a <;> cases b <;> simp_all [Dbl.le, Dbl.lt]

theorem Dbl.lt_self_false (a : Dbl) : Dbl.lt a a = false := by
  cases a <;> simp [Dbl.lt]

/-- The function `__fminsearch_set_last_element` is the sort of the simplex with the worst
vertex replaced. -/
theorem fminsearch_set_last_element_eq (p : FMinSearch) (hwf : p.WF) (x : List Dbl)
    (val : Dbl) (hx : x.length = p.N) :
    __fminsearch_set_last_element p x val = __fminsearch_sort (replace_worst p x val) := by
  unfold __fminsearch_set_last_element
  rw [set_last_element_loop_eq p hwf x val hx]

theorem reflection_point_length (p : FMinSearch) : (reflection_point p).length = p.N :=
  length_map_range p.N _

theorem expansion_point_length (p : FMinSearch) : (expansion_point p).length = p.N :=
  length_map_range p.N _

theorem contract_outside_point_length (p : FMinSearch) :
    (contract_outside_point p).length = p.N :=
  length_map_range p.N _

theorem contract_inside_point_length (p : FMinSearch) :
    (contract_inside_point p).length = p.N :=
  length_map_range p.N _

/-- The sums of the centroid are sums of rationals when the coordinates are finite. -/
theorem centroid_sum_eq (p : FMinSearch) (j : Nat) (c : ℕ → ℚ) (n : Nat)
    (h : ∀ i, i < n → rd (rd p.v i) j = Dbl.fin (c i)) :
    forLoop n (fun i acc => Dbl.add acc (rd (rd p.v i) j)) (Dbl.ofInt 0) =
      Dbl.fin (∑ i in Finset.range n, c i) := by
  induction n with
  | zero => simp [forLoop, Dbl.ofInt]
  | succ n ih =>
    rw [forLoop_succ, ih (fun i hi => h i (by omega)), h n (by omega), Finset.sum_range_succ]
    rfl

/-- The centroid of finite vertices is their arithmetic mean, with divisor `N`. -/
theorem centroid_eq_mean (p : FMinSearch) (hN : 1 ≤ p.N) (j : Nat) (c : ℕ → ℚ)
    (h : ∀ i, i < p.N → rd (rd p.v i) j = Dbl.fin (c i)) :
    centroid p j = Dbl.fin ((∑ i in Finset.range p.N, c i) / (p.N : ℚ)) := by
  unfold centroid
  rw [centroid_sum_eq p j c p.N h]
  have hne : ((p.N : ℤ) : ℚ) ≠ 0 := by
    have : (0 : ℚ) < ((p.N : ℤ) : ℚ) := by exact_mod_cast hN
    exact ne_of_gt this
  simp only [Dbl.ofInt, Dbl.div, hne, if_false]
  simp

theorem WF_with_scorer (p : FMinSearch) (hwf : p.WF) (g : Option (List Dbl → Dbl)) :
    FMinSearch.WF { p with scorer := g } :=
  ⟨hwf.hN1, hwf.hfv, hwf.hidx, hwf.hv, hwf.hvrow, hwf.hvsort, hwf.hvsortrow, hwf.hx_mean,
    hwf.hx_r, hwf.hx_tmp⟩

/-- C14 (expansion branch).  In one iteration on a state with its arrays in place, if the
reflected point scores `fr < fv[0]`, the expanded point
`x_e = centroid + chi * (x_r - centroid)` is computed (it is what `x_tmp` holds afterwards)
and scored, and the new simplex is the sort of the old simplex with only the worst
vertex `N` replaced: by `(x_e, f(x_e))` if `f(x_e) < fr`, and by `(x_r, fr)` otherwise,
which includes `f(x_e) = fr`. -/
theorem expansion_branch (f : List Dbl → Dbl) (p : FMinSearch) (hwf : p.WF)
    (hsc : p.scorer = some f)
    (hlt : Dbl.lt (f (reflection_point p)) (rd p.fv 0) = true) :
    (∀ j, j < p.N → rd (expansion_point p) j =
      Dbl.add (centroid p j)
        (Dbl.mul p.chi (Dbl.sub (rd (reflection_point p) j) (centroid p j)))) ∧
    (fminsearch_iteration p).x_tmp = expansion_point p ∧
    fminsearch_iteration p =
      with_scratch (centroid_point p) (reflection_point p) (expansion_point p)
        (__fminsearch_sort
          (if Dbl.lt (f (expansion_point p)) (f (reflection_point p)) then
            replace_worst p (expansion_point p) (f (expansion_point p))
          else replace_worst p (reflection_point p) (f (reflection_point p)))) ∧
    (f (expansion_point p) = f (reflection_point p) →
      fminsearch_iteration p =
        with_scratch (centroid_point p) (reflection_point p) (expansion_point p)
          (__fminsearch_sort (replace_worst p (reflection_point p) (f (reflection_point p))))) := by
  have hmain : fminsearch_iteration p =
      with_scratch (centroid_point p) (reflection_point p) (expansion_point p)
        (__fminsearch_sort
          (if Dbl.lt (f (expansion_point p)) (f (reflection_point p)) then
            replace_worst p (expansion_point p) (f (expansion_point p))
          else replace_worst p (reflection_point p) (f (reflection_point p)))) := by
    rw [fminsearch_iteration_eq f p hwf hsc, if_pos hlt]
    by_cases he : Dbl.lt (f (expansion_point p)) (f (reflection_point p)) = true
    · rw [if_pos he, if_pos he,
        fminsearch_set_last_element_eq p hwf _ _ (expansion_point_length p)]
    · rw [if_neg he, if_neg he,
        fminsearch_set_last_element_eq p hwf _ _ (reflection_point_length p)]
  refine ⟨fun j hj => rd_map_range p.N _ j hj, ?_, hmain, ?_⟩
  · rw [hmain]
    rfl
  · intro heq
    rw [hmain, heq, Dbl.lt_self_false]
    rfl

theorem sqStart_inv : RunInv sqScore sqStart :=
  (fminsearch_min_init_inv sqScore sqOptimizer sqOptimizer_WF rfl [Dbl.fin 1]).2.1

/-- Witness of `expansion_branch`: the start simplex `{1, 1.05}` of `x^2`; the reflected
point 0.95 scores below the best vertex and the expanded point 0.9 is accepted. -/
theorem expansion_branch_witness :
    sqStart.WF ∧ sqStart.scorer = some sqScore ∧
    Dbl.lt (sqScore (reflection_point sqStart)) (rd sqStart.fv 0) = true ∧
    fminsearch_iteration sqStart =
      with_scratch (centroid_point sqStart) (reflection_point sqStart)
        (expansion_point sqStart)
        (__fminsearch_sort
          (if Dbl.lt (sqScore (expansion_point sqStart))
              (sqScore (reflection_point sqStart)) then
            replace_worst sqStart (expansion_point sqStart)
              (sqScore (expansion_point sqStart))
          else replace_worst sqStart (reflection_point sqStart)
            (sqScore (reflection_point sqStart)))) :=
  ⟨sqStart_inv.hwf, sqStart_inv.hscorer, by decide!,
    (expansion_branch sqScore sqStart sqStart_inv.hwf sqStart_inv.hscorer (by decide!)).2.2.1⟩

/-- C15 (contraction boundary).  In one iteration with `fr >= fv[0]`: if `fr > fv[N]` the
trial point is the inside contraction `centroid + psi * (centroid - v[N])`, which
replaces the worst vertex exactly when its score is `< fv[N]`; if `fr = fv[N]` the trial
point is the outside contraction `centroid + psi * (x_r - centroid)`, which replaces the
worst vertex exactly when its score is `<= fr`; a rejected trial point leads to a shrink
in both cases.  When `fr < fv[N]` no contraction is computed (`x_tmp` keeps its content)
and the reflected point replaces the worst vertex. -/
theorem contraction_boundary (f : List Dbl → Dbl) (p : FMinSearch) (hwf : p.WF)
    (hsc : p.scorer = some f)
    (h0 : Dbl.le (rd p.fv 0) (f (reflection_point p)) = true) :
    (∀ j, j < p.N → rd (contract_inside_point p) j =
      Dbl.add (centroid p j) (Dbl.mul p.psi (Dbl.sub (centroid p j) (rd (rd p.v p.N) j)))) ∧
    (∀ j, j < p.N → rd (contract_outside_point p) j =
      Dbl.add (centroid p j)
        (Dbl.mul p.psi (Dbl.sub (rd (reflection_point p) j) (centroid p j)))) ∧
    (Dbl.lt (rd p.fv p.N) (f (reflection_point p)) = true →
      fminsearch_iteration p =
        with_scratch (centroid_point p) (reflection_point p) (contract_inside_point p)
          (if Dbl.lt (f (contract_inside_point p)) (rd p.fv p.N) then
            __fminsearch_sort
              (replace_worst p (contract_inside_point p) (f (contract_inside_point p)))
          else __fminsearch_x_shrink p)) ∧
    (f (reflection_point p) = rd p.fv p.N →
      fminsearch_iteration p =
        with_scratch (centroid_point p) (reflection_point p) (contract_outside_point p)
          (if Dbl.le (f (contract_outside_point p)) (f (reflection_point p)) then
            __fminsearch_sort
              (replace_worst p (contract_outside_point p) (f (contract_outside_point p)))
          else __fminsearch_x_shrink p)) ∧
    (Dbl.lt (f (reflection_point p)) (rd p.fv p.N) = true →
      fminsearch_iteration p =
        with_scratch (centroid_point p) (reflection_point p) p.x_tmp
          (__fminsearch_sort
            (replace_worst p (reflection_point p) (f (reflection_point p))))) := by
  have hnlt : Dbl.lt (f (reflection_point p)) (rd p.fv 0) = false := Dbl.lt_false_of_le h0
  have hmain := fminsearch_iteration_eq f p hwf hsc
  rw [hnlt] at hmain
  simp only [Bool.false_eq_true, if_false] at hmain
  refine ⟨fun j hj => rd_map_range p.N _ j hj, fun j hj => rd_map_range p.N _ j hj, ?_, ?_, ?_⟩
  · intro hgt
    rw [hmain, if_pos (Dbl.le_of_lt_true hgt), if_pos hgt]
    by_cases hc : Dbl.lt (f (contract_inside_point p)) (rd p.fv p.N) = true
    · rw [if_pos hc, if_pos hc,
        fminsearch_set_last_element_eq p hwf _ _ (contract_inside_point_length p)]
    · rw [if_neg hc, if_neg hc]
  · intro heq
    have hle : Dbl.le (rd p.fv p.N) (f (reflection_point p)) = true := by
      rw [← heq]
      exact Dbl.le_refl_of_ne_nan _ (Dbl.ne_nan_of_le_right h0)
    have hnl : ¬ Dbl.lt (rd p.fv p.N) (f (reflection_point p)) = true := by
      rw [← heq, Dbl.lt_self_false]
      simp
    rw [hmain, if_pos hle, if_neg hnl]
    by_cases hc : Dbl.le (f (contract_outside_point p)) (f (reflection_point p)) = true
    · rw [if_pos hc, if_pos hc,
        fminsearch_set_last_element_eq p hwf _ _ (contract_outside_point_length p)]
    · rw [if_neg hc, if_neg hc]
  · intro hlt
    have hnle : ¬ Dbl.le (rd p.fv p.N) (f (reflection_point p)) = true := by
      rw [Dbl.le_false_of_lt hlt]
      simp
    rw [hmain, if_neg hnle,
      fminsearch_set_last_element_eq p hwf _ _ (reflection_point_length p)]

theorem sqStartZero_inv : RunInv sqScore sqStartZero :=
  (fminsearch_min_init_inv sqScore sqOptimizer sqOptimizer_WF rfl [Dbl.fin 0]).2.1

/-- Witness of `contraction_boundary`: the start simplex `{0, 0.00025}` of `x^2`; the
reflected point -0.00025 scores exactly `fv[N]`, and the outside contraction -0.000125
is accepted. -/
theorem contraction_boundary_witness :
    sqStartZero.WF ∧ sqStartZero.scorer = some sqScore ∧
    Dbl.le (rd sqStartZero.fv 0) (sqScore (reflection_point sqStartZero)) = true ∧
    sqScore (reflection_point sqStartZero) = rd sqStartZero.fv sqStartZero.N ∧
    fminsearch_iteration sqStartZero =
      with_scratch (centroid_point sqStartZero) (reflection_point sqStartZero)
        (contract_outside_point sqStartZero)
        (if Dbl.le (sqScore (contract_outside_point sqStartZero))
            (sqScore (reflection_point sqStartZero)) then
          __fminsearch_sort
            (replace_worst sqStartZero (contract_outside_point sqStartZero)
              (sqScore (contract_outside_point sqStartZero)))
        else __fminsearch_x_shrink sqStartZero) :=
  ⟨sqStartZero_inv.hwf, sqStartZero_inv.hscorer, by decide!, by decide!,
    (contraction_boundary sqScore sqStartZero sqStartZero_inv.hwf sqStartZero_inv.hscorer
      (by decide!)).2.2.2.1 (by decide!)⟩

/-- C17 (reflection step).  In one iteration `x_mean` is the centroid of the vertices
`0 .. N-1`, for finite coordinates their arithmetic mean with divisor `N` (the worst
vertex `N` is left out), and `x_r = centroid + rho * (centroid - v[N])`.  When
`fv[0] <= f(x_r) < fv[N]` the new simplex is the sort of the old simplex with only the
worst vertex replaced by `(x_r, f(x_r))`, no other trial point is computed (`x_tmp`
keeps its content) and the scorer is consulted at `x_r` only: a scorer `g` with
`g(x_r) = f(x_r)` gives the same new simplex. -/
theorem reflection_step (f : List Dbl → Dbl) (p : FMinSearch) (hwf : p.WF)
    (hsc : p.scorer = some f) :
    (fminsearch_iteration p).x_mean = centroid_point p ∧
    (fminsearch_iteration p).x_r = reflection_point p ∧
    (∀ j, j < p.N → rd (centroid_point p) j = centroid p j) ∧
    (∀ j (c : ℕ → ℚ), 1 ≤ p.N → (∀ i, i < p.N → rd (rd p.v i) j = Dbl.fin (c i)) →
      centroid p j = Dbl.fin ((∑ i in Finset.range p.N, c i) / (p.N : ℚ))) ∧
    (∀ j, j < p.N → rd (reflection_point p) j =
      Dbl.add (centroid p j) (Dbl.mul p.rho (Dbl.sub (centroid p j) (rd (rd p.v p.N) j)))) ∧
    (Dbl.le (rd p.fv 0) (f (reflection_point p)) = true →
      Dbl.lt (f (reflection_point p)) (rd p.fv p.N) = true →
      fminsearch_iteration p =
        with_scratch (centroid_point p) (reflection_point p) p.x_tmp
          (__fminsearch_sort
            (replace_worst p (reflection_point p) (f (reflection_point p)))) ∧
      ∀ g : List Dbl → Dbl, g (reflection_point p) = f (reflection_point p) →
        (fminsearch_iteration { p with scorer := some g }).v = (fminsearch_iteration p).v ∧
        (fminsearch_iteration { p with scorer := some g }).fv = (fminsearch_iteration p).fv) := by
  have hbranch : ∀ (g : List Dbl → Dbl) (q : FMinSearch), q.WF → q.scorer = some g →
      Dbl.le (rd q.fv 0) (g (reflection_point q)) = true →
      Dbl.lt (g (reflection_point q)) (rd q.fv q.N) = true →
      fminsearch_iteration q =
        with_scratch (centroid_point q) (reflection_point q) q.x_tmp
          (__fminsearch_sort
            (replace_worst q (reflection_point q) (g (reflection_point q)))) := by
    intro g q hq hg h0 h1
    have hnle : ¬ Dbl.le (rd q.fv q.N) (g (reflection_point q)) = true := by
      rw [Dbl.le_false_of_lt h1]
      simp
    have hnlt : ¬ Dbl.lt (g (reflection_point q)) (rd q.fv 0) = true := by
      rw [Dbl.lt_false_of_le h0]
      simp
    rw [fminsearch_iteration_eq g q hq hg, if_neg hnlt, if_neg hnle,
      fminsearch_set_last_element_eq q hq _ _ (reflection_point_length q)]
  refine ⟨?_, ?_, fun j hj => rd_map_range p.N _ j hj,
    fun j c hN h => centroid_eq_mean p hN j c h, fun j hj => rd_map_range p.N _ j hj, ?_⟩
  · rw [fminsearch_iteration_eq f p hwf hsc]
    split_ifs <;> rfl
  · rw [fminsearch_iteration_eq f p hwf hsc]
    split_ifs <;> rfl
  · intro h0 h1
    refine ⟨hbranch f p hwf hsc h0 h1, ?_⟩
    intro g hg
    have hq : reflection_point { p with scorer := some g } = reflection_point p := rfl
    have e1 := hbranch g { p with scorer := some g } (WF_with_scorer p hwf (some g)) rfl
      (by rw [hq, hg]; exact h0) (by rw [hq, hg]; exact h1)
    rw [e1, hbranch f p hwf hsc h0 h1, hq, hg]
    exact ⟨rfl, rfl⟩

theorem offsetStart_inv : RunInv (quadratic [Dbl.fin (53 / 50)]) offsetStart :=
  (fminsearch_min_init_inv (quadratic [Dbl.fin (53 / 50)]) offsetOptimizer
    (fminsearch_new_with_eq_WF _ 1 (le_refl _)) rfl [Dbl.fin 1]).2.1

/-- Witness of `reflection_step`: the start simplex `{1.05, 1}` of `(x - 1.06)^2`; the
reflected point 1.1 scores 0.0016, between the scores 0.0001 and 0.0036 of the two
vertices. -/
theorem reflection_step_witness :
    offsetStart.WF ∧ offsetStart.scorer = some (quadratic [Dbl.fin (53 / 50)]) ∧
    Dbl.le (rd offsetStart.fv 0)
      (quadratic [Dbl.fin (53 / 50)] (reflection_point offsetStart)) = true ∧
    Dbl.lt (quadratic [Dbl.fin (53 / 50)] (reflection_point offsetStart))
      (rd offsetStart.fv offsetStart.N) = true ∧
    fminsearch_iteration offsetStart =
      with_scratch (centroid_point offsetStart) (reflection_point offsetStart)
        offsetStart.x_tmp
        (__fminsearch_sort
          (replace_worst offsetStart (reflection_point offsetStart)
            (quadratic [Dbl.fin (53 / 50)] (reflection_point offsetStart)))) :=
  ⟨offsetStart_inv.hwf, offsetStart_inv.hscorer, by decide!, by decide!,
    ((reflection_step (quadratic [Dbl.fin (53 / 50)]) offsetStart offsetStart_inv.hwf
      offsetStart_inv.hscorer).2.2.2.2.2 (by decide!) (by decide!)).1⟩

/-! ## C16: the shrink -/

/-- The loops of the shrink change the vertices and the scores and nothing else. -/
theorem fminsearch_x_shrink_loop_frame (p : FMinSearch) (hwf : p.WF) :
    ∃ vv ff, __fminsearch_x_shrink_loop p = { p with v := vv, fv := ff } := by
  have key : (fun (_ : Nat) (q : FMinSearch) => ∃ vv ff, vv.length = p.N1 ∧
      q = { p with v := vv, fv := ff }) (p.N1 - 1) (__fminsearch_x_shrink_loop p) := by
    unfold __fminsearch_x_shrink_loop
    apply forLoop_inv (fun (_ : Nat) (q : FMinSearch) => ∃ vv ff, vv.length = p.N1 ∧
      q = { p with v := vv, fv := ff })
    · exact ⟨p.v, p.fv, hwf.hv, rfl⟩
    · intro k q hk ⟨vv, ff, hlen, hq⟩
      subst hq
      rw [shrink_round_eq _ (k + 1) (by omega) (by simp only; omega)]
      exact ⟨_, _, by simp only [List.length_set]; exact hlen, rfl⟩
  obtain ⟨vv, ff, _, h⟩ := key
  exact ⟨vv, ff, h⟩

theorem shrink_point_length (p : FMinSearch) (i : Nat) : (shrink_point p i).length = p.N :=
  length_map_range p.N _

/-- C16 (shrink).  The function `__fminsearch_x_shrink` is the sort, applied once after all
vertices have been moved, of the simplex in which vertex 0 keeps its coordinates and its
stored score, and every other vertex `i` in `1 .. N` is replaced by
`v[0] + sigma * (v[i] - v[0])` with its score recomputed by the scorer; nothing but the
vertices and the scores changes before the sort. -/
theorem shrink_step (f : List Dbl → Dbl) (p : FMinSearch) (hwf : p.WF)
    (hsc : p.scorer = some f) :
    __fminsearch_x_shrink p = __fminsearch_sort (__fminsearch_x_shrink_loop p) ∧
    __fminsearch_x_shrink_loop p =
      { p with v := (__fminsearch_x_shrink_loop p).v, fv := (__fminsearch_x_shrink_loop p).fv } ∧
    (__fminsearch_x_shrink_loop p).v.length = p.N + 1 ∧
    (__fminsearch_x_shrink_loop p).fv.length = p.N + 1 ∧
    rd (__fminsearch_x_shrink_loop p).v 0 = rd p.v 0 ∧
    rd (__fminsearch_x_shrink_loop p).fv 0 = rd p.fv 0 ∧
    ∀ i, 1 ≤ i → i ≤ p.N →
      rd (__fminsearch_x_shrink_loop p).v i = shrink_point p i ∧
      rd (__fminsearch_x_shrink_loop p).fv i = f (shrink_point p i) ∧
      ∀ j, j < p.N → rd (shrink_point p i) j =
        Dbl.add (rd (rd p.v 0) j)
          (Dbl.mul p.sigma (Dbl.sub (rd (rd p.v i) j) (rd (rd p.v 0) j))) := by
  obtain ⟨lwf, lcfg, l0fv, l0v, lrest⟩ := fminsearch_x_shrink_loop_spec p hwf
  refine ⟨rfl, ?_, ?_, ?_, l0v, l0fv, ?_⟩
  · obtain ⟨vv, ff, h⟩ := fminsearch_x_shrink_loop_frame p hwf
    rw [h]
  · rw [lwf.hv, lcfg.hN1, hwf.hN1]
  · rw [lwf.hfv, lcfg.hN1, hwf.hN1]
  · intro i hi1 hi2
    obtain ⟨hrow, hscore⟩ := lrest i hi1 (by rw [hwf.hN1]; omega)
    have hv : rd (__fminsearch_x_shrink_loop p).v i = shrink_point p i := by
      apply list_ext_rd
      · rw [lwf.hvrow i (by rw [lcfg.hN1, hwf.hN1]; omega), lcfg.hN, shrink_point_length]
      · intro j hj
        rw [lwf.hvrow i (by rw [lcfg.hN1, hwf.hN1]; omega), lcfg.hN] at hj
        rw [hrow j hj]
        exact (rd_map_range p.N _ j hj).symm
    refine ⟨hv, ?_, fun j hj => rd_map_range p.N _ j hj⟩
    rw [hscore, hv, calculate_score_eq hsc]

/-- Witness of `shrink_step`: the start simplex `{1, 1.05}` of `x^2`. -/
theorem shrink_step_witness :
    sqStart.WF ∧ sqStart.scorer = some sqScore ∧
    rd (__fminsearch_x_shrink_loop sqStart).v 0 = rd sqStart.v 0 ∧
    rd (__fminsearch_x_shrink_loop sqStart).fv 0 = rd sqStart.fv 0 :=
  ⟨sqStart_inv.hwf, sqStart_inv.hscorer,
    (shrink_step sqScore sqStart sqStart_inv.hwf sqStart_inv.hscorer).2.2.2.2.1,
    (shrink_step sqScore sqStart sqStart_inv.hwf sqStart_inv.hscorer).2.2.2.2.2.1⟩

/-! ## C18: every vertex carries its own score -/

/-- C18 (score/vertex pairing).  For every scorer `f`, after `__fminsearch_min_init` and
after every iteration of the loop, every stored score is the score of its vertex,
`fv[i] = f(v[i])` for `i` in `0 .. N`; the same holds of the state at the end of
`fminsearch_min`, so that `fminsearch_get_minF` is `f(fminsearch_get_minX)`. -/
theorem pairing_invariant (f : List Dbl → Dbl) (p : FMinSearch) (hwf : p.WF)
    (hsc : p.scorer = some f) (X0 : List Dbl) :
    (∀ n i, i ≤ p.N →
      rd (fminsearch_iteration^[n] (__fminsearch_min_init p X0)).fv i =
        f (rd (fminsearch_iteration^[n] (__fminsearch_min_init p X0)).v i)) ∧
    (∀ i, i ≤ p.N →
      rd (fminsearch_min p X0).fv i = f (rd (fminsearch_min p X0).v i)) ∧
    fminsearch_get_minF (fminsearch_min p X0) =
      f (fminsearch_get_minX (fminsearch_min p X0)) := by
  have hall : ∀ n i, i ≤ p.N →
      rd (fminsearch_iteration^[n] (__fminsearch_min_init p X0)).fv i =
        f (rd (fminsearch_iteration^[n] (__fminsearch_min_init p X0)).v i) := by
    intro n i hi
    obtain ⟨i1, i2⟩ := fminsearch_iterate_inv f p hwf hsc X0 n
    exact i1.hpair i (by rw [i2.hN1, hwf.hN1]; omega)
  obtain ⟨m, _, e, _, _⟩ := fminsearch_min_run f p hwf hsc X0
  have hend : ∀ i, i ≤ p.N →
      rd (fminsearch_min p X0).fv i = f (rd (fminsearch_min p X0).v i) := by
    intro i hi
    rw [e]
    exact hall m i hi
  exact ⟨hall, hend, hend 0 (Nat.zero_le _)⟩

/-- Witness of `pairing_invariant`: the optimizer of `sqScore` started at `x0 = 1`. -/
theorem pairing_invariant_witness :
    sqOptimizer.WF ∧ sqOptimizer.scorer = some sqScore ∧
    fminsearch_get_minF (fminsearch_min sqOptimizer [Dbl.fin 1]) =
      sqScore (fminsearch_get_minX (fminsearch_min sqOptimizer [Dbl.fin 1])) :=
  ⟨sqOptimizer_WF, rfl,
    (pairing_invariant sqScore sqOptimizer sqOptimizer_WF rfl [Dbl.fin 1]).2.2⟩

/-! ## C19: the result is never worse than the start -/

/-- Vertex 0 of the initial simplex is the start point. -/
theorem init_vertex_zero (p : FMinSearch) (hwf : p.WF) (X0 : List Dbl)
    (hlen : X0.length = p.N) : rd (__fminsearch_min_init_loop p X0).v 0 = X0 := by
  obtain ⟨lwf, lcfg, lrest⟩ := fminsearch_min_init_loop_spec p hwf X0
  apply list_ext_rd
  · rw [lwf.hvrow 0 (by rw [lcfg.hN1, hwf.hN1]; omega), lcfg.hN, hlen]
  · intro j hj
    rw [lwf.hvrow 0 (by rw [lcfg.hN1, hwf.hN1]; omega), lcfg.hN] at hj
    rw [(lrest 0 (by rw [hwf.hN1]; omega)).1 j hj, init_entry_eq, if_neg (by omega)]

/-- C19 (result never worse than start).  For `N >= 1`, a scorer that never returns NaN
(scores totally ordered), any configuration (any `maxiters >= 0`) and any start point
`x0` of `N` coordinates, the score returned by `fminsearch_get_minF` after
`fminsearch_min` is `<= f(x0)` and `<=` the score of each of the `N + 1` vertices of
the initial simplex. -/
theorem result_not_worse (f : List Dbl → Dbl) (hf : ∀ x, f x ≠ Dbl.nan) (p : FMinSearch)
    (hwf : p.WF) (hsc : p.scorer = some f) (hN : 1 ≤ p.N) (X0 : List Dbl)
    (hlen : X0.length = p.N) :
    Dbl.le (fminsearch_get_minF (fminsearch_min p X0)) (f X0) = true ∧
    (∀ k, k ≤ p.N →
      Dbl.le (fminsearch_get_minF (fminsearch_min p X0))
        (f (rd (__fminsearch_min_init_loop p X0).v k)) = true) ∧
    (∀ k, k ≤ p.N →
      Dbl.le (fminsearch_get_minF (fminsearch_min p X0))
        (rd (__fminsearch_min_init p X0).fv k) = true) := by
  obtain ⟨m, _, e, _, _⟩ := fminsearch_min_run f p hwf hsc X0
  obtain ⟨hpre, hpost, hcfg⟩ := fminsearch_min_init_inv f p hwf hsc X0
  obtain ⟨_, l2, _⟩ := fminsearch_min_init_loop_spec p hwf X0
  obtain ⟨s1, s2⟩ := fminsearch_sort_min _ hpre.hwf (hpre.scores_noNaN hf)
  have h1 := best_le_initial f hf p hwf hsc hN X0 m
  have hmin : fminsearch_get_minF (fminsearch_min p X0) =
      rd (fminsearch_iteration^[m] (__fminsearch_min_init p X0)).fv 0 := by
    rw [e]; rfl
  have hvert : ∀ k, k ≤ p.N →
      Dbl.le (fminsearch_get_minF (fminsearch_min p X0))
        (f (rd (__fminsearch_min_init_loop p X0).v k)) = true := by
    intro k hk
    rw [hmin, ← hpre.hpair k (by rw [l2.hN1, hwf.hN1]; omega)]
    exact Dbl.le_transitive h1 (s2 k (by rw [l2.hN1, hwf.hN1]; omega))
  refine ⟨?_, hvert, ?_⟩
  · have h0 := hvert 0 (Nat.zero_le _)
    rw [init_vertex_zero p hwf X0 hlen] at h0
    exact h0
  · intro k hk
    rw [hmin]
    exact Dbl.le_transitive h1 (s1 0 k (le_refl _) (Nat.zero_le _) (by rw [l2.hN1, hwf.hN1]; omega))

/-- Witness of `result_not_worse`: the optimizer of `sqScore` started at `x0 = 1`. -/
theorem result_not_worse_witness :
    (∀ x, sqScore x ≠ Dbl.nan) ∧ sqOptimizer.WF ∧ sqOptimizer.scorer = some sqScore ∧
    1 ≤ sqOptimizer.N ∧ [Dbl.fin 1].length = sqOptimizer.N ∧
    Dbl.le (fminsearch_get_minF (fminsearch_min sqOptimizer [Dbl.fin 1]))
      (sqScore [Dbl.fin 1]) = true :=
  ⟨sqScore_ne_nan, sqOptimizer_WF, rfl, le_refl _, rfl,
    (result_not_worse sqScore sqScore_ne_nan sqOptimizer sqOptimizer_WF rfl (le_refl _)
      [Dbl.fin 1] rfl).1⟩

/-! ## C12: what the sort guarantees -/

theorem map_perm_range (σ : Equiv.Perm ℕ) (n : Nat) (hfix : ∀ k, n ≤ k → σ k = k) :
    List.Perm ((List.range n).map σ) (List.range n) := by
  apply (List.perm_ext_iff_of_nodup ((List.nodup_range n).map σ.injective)
    (List.nodup_range n)).2
  intro x
  simp only [List.mem_map, List.mem_range]
  constructor
  · rintro ⟨k, hk, rfl⟩
    exact (perm_maps_range σ 0 n (fun k h => hfix k (by omega)) k (Nat.zero_le _) hk).2
  · intro hx
    refine ⟨σ.symm x, ?_, by simp⟩
    by_contra hge
    have h := hfix (σ.symm x) (by omega)
    simp only [Equiv.apply_symm_apply] at h
    omega

theorem eq_map_range_rd {β : Type} [Inhabited β] (a : List β) (n : Nat) (h : a.length = n) :
    a = (List.range n).map (fun k => rd a k) := by
  apply list_ext_rd
  · simp [h]
  · intro i hi
    rw [rd_map_range n _ i (by omega)]

/-- Two arrays rearranged in step by a permutation of the positions hold the same
multiset of pairs. -/
theorem zip_perm_of_rd {α β : Type} [Inhabited α] [Inhabited β] (a a2 : List α)
    (b b2 : List β) (n : Nat) (ha : a.length = n) (ha2 : a2.length = n) (hb : b.length = n)
    (hb2 : b2.length = n) (σ : Equiv.Perm ℕ) (hfix : ∀ k, n ≤ k → σ k = k)
    (h : ∀ k, k < n → rd a2 k = rd a (σ k) ∧ rd b2 k = rd b (σ k)) :
    List.Perm (List.zip a2 b2) (List.zip a b) := by
  have e1 : List.zip a b = (List.range n).map (fun k => (rd a k, rd b k)) := by
    conv_lhs => rw [eq_map_range_rd a n ha, eq_map_range_rd b n hb]
    rw [List.zip_map']
  have e2 : List.zip a2 b2 = ((List.range n).map σ).map (fun k => (rd a k, rd b k)) := by
    conv_lhs => rw [eq_map_range_rd a2 n ha2, eq_map_range_rd b2 n hb2]
    rw [List.zip_map', List.map_map]
    apply map_range_congr
    intro k hk
    simp only [Function.comp, (h k hk).1, (h k hk).2]
  rw [e1, e2]
  exact (map_perm_range σ n hfix).map _

/-- C12 (sort correctness).  For every state with its arrays in place (`N >= 0`) and
scores without NaN (totally ordered), after `__fminsearch_sort` the scores are in
non-decreasing order, `idx` is a permutation of `0 .. N`, the new `v[i]` is the old
`v[idx[i]]` and the new `fv[i]` is the old `fv[idx[i]]` for all `i`, and the multiset
of (vertex, score) pairs is unchanged. -/
theorem sort_correct (p : FMinSearch) (hwf : p.WF) (hnn : NoNaN p.fv 0 (p.N + 1)) :
    SortedOn (__fminsearch_sort p).fv 0 (p.N + 1) ∧
    List.Perm (__fminsearch_sort p).idx (List.range (p.N + 1)) ∧
    (∀ i, i ≤ p.N →
      rd (__fminsearch_sort p).idx i ≤ p.N ∧
      rd (__fminsearch_sort p).v i = rd p.v (rd (__fminsearch_sort p).idx i) ∧
      rd (__fminsearch_sort p).fv i = rd p.fv (rd (__fminsearch_sort p).idx i)) ∧
    List.Perm (List.zip (__fminsearch_sort p).v (__fminsearch_sort p).fv)
      (List.zip p.v p.fv) := by
  obtain ⟨swf, scfg, _, _, _, ⟨σ, hfix, hσ⟩, hsorted⟩ := fminsearch_sort_spec p hwf
  have hN1 := hwf.hN1
  rw [hN1] at hsorted hfix hσ
  refine ⟨hsorted hnn, ?_, ?_, ?_⟩
  · have e : (__fminsearch_sort p).idx = (List.range (p.N + 1)).map σ := by
      rw [eq_map_range_rd (__fminsearch_sort p).idx (p.N + 1)
        (by rw [swf.hidx, scfg.hN1, hN1])]
      apply map_range_congr
      intro k hk
      exact (hσ k hk).2.2
    rw [e]
    exact map_perm_range σ (p.N + 1) hfix
  · intro i hi
    obtain ⟨h1, h2, h3⟩ := hσ i (by omega)
    rw [h3]
    exact ⟨by
      have := (perm_maps_range σ 0 (p.N + 1) (fun k h => hfix k (by omega)) i
        (Nat.zero_le _) (by omega)).2
      omega, h2, h1⟩
  · exact zip_perm_of_rd p.v (__fminsearch_sort p).v p.fv (__fminsearch_sort p).fv (p.N + 1)
      (by rw [hwf.hv, hN1]) (by rw [swf.hv, scfg.hN1, hN1]) (by rw [hwf.hfv, hN1])
      (by rw [swf.hfv, scfg.hN1, hN1]) σ hfix (fun k hk => ⟨(hσ k hk).2.1, (hσ k hk).1⟩)

/-- Witness of `sort_correct`: the initial simplex of `x^2` at `x0 = 1`, before it is
sorted. -/
theorem sort_correct_witness :
    (__fminsearch_min_init_loop sqOptimizer [Dbl.fin 1]).WF ∧
    NoNaN (__fminsearch_min_init_loop sqOptimizer [Dbl.fin 1]).fv 0
      ((__fminsearch_min_init_loop sqOptimizer [Dbl.fin 1]).N + 1) ∧
    SortedOn (__fminsearch_sort (__fminsearch_min_init_loop sqOptimizer [Dbl.fin 1])).fv 0
      ((__fminsearch_min_init_loop sqOptimizer [Dbl.fin 1]).N + 1) :=
  ⟨(fminsearch_min_init_inv sqScore sqOptimizer sqOptimizer_WF rfl [Dbl.fin 1]).1.hwf,
    (fminsearch_min_init_inv sqScore sqOptimizer sqOptimizer_WF rfl
      [Dbl.fin 1]).1.scores_noNaN sqScore_ne_nan,
    (sort_correct (__fminsearch_min_init_loop sqOptimizer [Dbl.fin 1])
      (fminsearch_min_init_inv sqScore sqOptimizer sqOptimizer_WF rfl [Dbl.fin 1]).1.hwf
      ((fminsearch_min_init_inv sqScore sqOptimizer sqOptimizer_WF rfl
        [Dbl.fin 1]).1.scores_noNaN sqScore_ne_nan)).1⟩

/-! ## C11: ties in the sort -/

/-- C11, counterexample.  With the default configuration, `N = 2`, `x0 = (1, 1)` and
the scorer that is 2 at `(1, 1)` and 1 elsewhere, the initial simplex has the scores
`(2, 1, 1)`.  After `__fminsearch_sort` the positions 0 and 1 hold the equal scores
`(1, 1)` with `idx = (2, 1, 0)`: the tie is in the reverse of the original order. -/
theorem sort_stable_counterexample :
    (__fminsearch_min_init_loop tieOptimizer [Dbl.fin 1, Dbl.fin 1]).fv =
      [Dbl.fin 2, Dbl.fin 1, Dbl.fin 1] ∧
    (__fminsearch_min_init tieOptimizer [Dbl.fin 1, Dbl.fin 1]).fv =
      [Dbl.fin 1, Dbl.fin 1, Dbl.fin 2] ∧
    (__fminsearch_min_init tieOptimizer [Dbl.fin 1, Dbl.fin 1]).idx = [2, 1, 0] ∧
    ¬ (∀ a b, a < b → b ≤ 2 →
      rd (__fminsearch_min_init tieOptimizer [Dbl.fin 1, Dbl.fin 1]).fv a =
        rd (__fminsearch_min_init tieOptimizer [Dbl.fin 1, Dbl.fin 1]).fv b →
      rd (__fminsearch_min_init tieOptimizer [Dbl.fin 1, Dbl.fin 1]).idx a <
        rd (__fminsearch_min_init tieOptimizer [Dbl.fin 1, Dbl.fin 1]).idx b) := by
  have h1 : (__fminsearch_min_init tieOptimizer [Dbl.fin 1, Dbl.fin 1]).fv =
      [Dbl.fin 1, Dbl.fin 1, Dbl.fin 2] := by decide!
  have h2 : (__fminsearch_min_init tieOptimizer [Dbl.fin 1, Dbl.fin 1]).idx = [2, 1, 0] := by
    decide!
  refine ⟨by decide!, h1, h2, ?_⟩
  intro h
  have h3 := h 0 1 (by omega) (by omega)
  rw [h1, h2] at h3
  exact absurd (h3 rfl) (by decide)

theorem qsort_scan_down_sorted (list : List Dbl) (pivot : Dbl) (from_ to_ : Nat)
    (hft : from_ ≤ to_)
    (h : ∀ k, from_ < k → k ≤ to_ → Dbl.le pivot (rd list k) = true) :
    qsort_scan_down list pivot from_ to_ = from_ := by
  obtain ⟨h1, h2, _, h4⟩ := qsort_scan_down_spec list pivot from_ to_ hft
  rcases h4 with h4 | h4
  · exact h4
  · by_contra hne
    rw [h _ (by omega) h2] at h4
    exact absurd h4 (by simp)

theorem qsort_round_sorted (pivot : Dbl) (s : QState) (hft : s.from_ ≤ s.to_)
    (h : ∀ k, s.from_ < k → k ≤ s.to_ → Dbl.le pivot (rd s.list k) = true) :
    qsort_round pivot s = { s with to_ := s.from_ } := by
  unfold qsort_round qsort_down
  simp only [qsort_scan_down_sorted s.list pivot s.from_ s.to_ hft h, ne_eq, not_true_eq_false,
    if_false]
  unfold qsort_up
  simp only [Nat.sub_self, qsort_scan_up, ne_eq, not_true_eq_false, if_false]

theorem qsort_partition_sorted (pivot : Dbl) : ∀ (fuel : Nat) (s : QState),
    s.from_ ≤ s.to_ → s.to_ - s.from_ ≤ fuel →
    (∀ k, s.from_ < k → k ≤ s.to_ → Dbl.le pivot (rd s.list k) = true) →
    qsort_partition pivot fuel s = { s with to_ := s.from_ } := by
  intro fuel
  induction fuel with
  | zero =>
    intro s hft hfuel _
    have e : s.to_ = s.from_ := by omega
    unfold qsort_partition
    cases s
    simp only at e
    rw [e]
  | succ fuel ih =>
    intro s hft hfuel h
    unfold qsort_partition
    by_cases hlt : s.from_ < s.to_
    · rw [if_pos hlt, qsort_round_sorted pivot s hft h]
      rw [ih _ (le_refl _) (by simp) (fun k h1 h2 => by simp only at h1 h2; omega)]
    · rw [if_neg hlt]
      have e : s.to_ = s.from_ := by omega
      cases s
      simp only at e
      rw [e]

/-- The quicksort leaves a range that is already in non-decreasing order as it is. -/
theorem qsort_rec_sorted : ∀ (fuel : Nat) (list : List Dbl) (idx : List Nat)
    (left right : Nat), left ≤ right → SortedOn list left (right + 1) →
    qsort_rec fuel list idx left right = (list, idx) := by
  intro fuel
  induction fuel with
  | zero => intro list idx left right _ _; rfl
  | succ fuel ih =>
    intro list idx left right hlr hs
    have hp := qsort_partition_sorted (rd list left) (right - left)
      { list := list, idx := idx, from_ := left, to_ := right } hlr (le_refl _)
      (fun k h1 h2 => hs left k (le_refl _) (by simp only at h1; omega)
        (by simp only at h2; omega))
    unfold qsort_rec
    simp only [hp, set_rd_self, lt_self_iff_false, if_false]
    by_cases hgt : right > left
    · rw [if_pos hgt]
      exact ih list idx (left + 1) right (by omega)
        (fun a b h1 h2 h3 => hs a b (by omega) h2 h3)
    · rw [if_neg hgt]

/-- C11, amended.  The sort does not break ties by original position in general, but on
scores that are already in non-decreasing order it changes nothing: the scores and the
vertices stay where they are and `idx` is the identity, so that `idx[a] < idx[b]` for
all positions `a < b`, ties included. -/
theorem sort_ties (p : FMinSearch) (hwf : p.WF) (hs : SortedOn p.fv 0 (p.N + 1)) :
    (__fminsearch_sort p).fv = p.fv ∧ (__fminsearch_sort p).v = p.v ∧
    (∀ k, k ≤ p.N → rd (__fminsearch_sort p).idx k = k) ∧
    (∀ a b, a < b → b ≤ p.N →
      rd (__fminsearch_sort p).idx a < rd (__fminsearch_sort p).idx b) := by
  obtain ⟨swf, scfg, _, _, _, ⟨σ, hfix, hσ⟩, _⟩ := fminsearch_sort_spec p hwf
  have hq : __qsort_double_with_index p.fv
      (forLoop p.N1 (fun i idx => idx.set i i) p.idx) 0 p.N =
      (p.fv, forLoop p.N1 (fun i idx => idx.set i i) p.idx) :=
    qsort_rec_sorted _ _ _ 0 p.N (Nat.zero_le _) hs
  have hfv : (__fminsearch_sort p).fv = p.fv := by
    show (__qsort_double_with_index p.fv
      (forLoop p.N1 (fun i idx => idx.set i i) p.idx) 0 p.N).1 = p.fv
    rw [hq]
  have hidx : ∀ k, k ≤ p.N → rd (__fminsearch_sort p).idx k = k := by
    intro k hk
    show rd (__qsort_double_with_index p.fv
      (forLoop p.N1 (fun i idx => idx.set i i) p.idx) 0 p.N).2 k = k
    rw [hq]
    exact forLoop_fill_rd p.N1 (fun i => i) p.idx k (by rw [hwf.hN1]; omega)
      (by rw [hwf.hidx, hwf.hN1]; omega)
  refine ⟨hfv, ?_, hidx, ?_⟩
  · apply list_ext_rd
    · rw [swf.hv, scfg.hN1, hwf.hv]
    · intro k hk
      rw [swf.hv, scfg.hN1] at hk
      obtain ⟨_, h2, h3⟩ := hσ k hk
      rw [h2, ← h3, hidx k (by rw [hwf.hN1] at hk; omega)]
  · intro a b hab hb
    rw [hidx a (by omega), hidx b hb]
    exact hab

/-- Witness of `sort_ties`: the sorted start simplex `{1, 1.05}` of `x^2`. -/
theorem sort_ties_witness :
    sqStart.WF ∧ SortedOn sqStart.fv 0 (sqStart.N + 1) ∧
    (__fminsearch_sort sqStart).fv = sqStart.fv ∧ (__fminsearch_sort sqStart).v = sqStart.v :=
  have hs : SortedOn sqStart.fv 0 (sqStart.N + 1) :=
    (fminsearch_sort_min (__fminsearch_min_init_loop sqOptimizer [Dbl.fin 1])
      (fminsearch_min_init_inv sqScore sqOptimizer sqOptimizer_WF rfl [Dbl.fin 1]).1.hwf
      ((fminsearch_min_init_inv sqScore sqOptimizer sqOptimizer_WF rfl
        [Dbl.fin 1]).1.scores_noNaN sqScore_ne_nan)).1
  ⟨sqStart_inv.hwf, hs, (sort_ties sqStart sqStart_inv.hwf hs).1,
    (sort_ties sqStart sqStart_inv.hwf hs).2.1⟩

/-! ## C13: when the loop stops -/

/-- The partition loop ends because its condition `from < to` fails, not because the fuel
runs out. -/
theorem qsort_partition_exit (list : List Dbl) (idx : List Nat) (left right : Nat)
    (hlr : left ≤ right) (hr : right < list.length) (hio : idx.length = list.length) :
    (qsort_partition (rd list left) (right - left)
      { list := list, idx := idx, from_ := left, to_ := right }).from_ =
    (qsort_partition (rd list left) (right - left)
      { list := list, idx := idx, from_ := left, to_ := right }).to_ := by
  have h0 : HoleInv list idx left right (rd list left) (rd idx left)
      { list := list, idx := idx, from_ := left, to_ := right } left := by
    refine ⟨le_refl _, hlr, le_refl _, rfl, rfl, Or.inl rfl, ?_, ?_⟩
    · exact ⟨1, fun _ _ => rfl, fun _ _ => ⟨rfl, rfl⟩, rfl, rfl⟩
    · intro _
      exact ⟨fun k h1 h2 => by simp only at h2; omega, fun k h1 h2 => by simp only at h1; omega⟩
  exact (qsort_partition_inv hr hio (right - left) _ h0 (le_refl _)).2

/-- The result of the recursion does not depend on the fuel once the fuel exceeds the
width of the range: the recursion ends by itself. -/
theorem qsort_rec_fuel : ∀ (fuel fuel2 : Nat) (list : List Dbl) (idx : List Nat)
    (left right : Nat), left ≤ right → right < list.length → idx.length = list.length →
    right - left < fuel → right - left < fuel2 →
    qsort_rec fuel list idx left right = qsort_rec fuel2 list idx left right := by
  intro fuel
  induction fuel with
  | zero => intro _ _ _ _ _ _ _ _ h; omega
  | succ n ih =>
    intro fuel2 list idx left right hlr hr hio hf hf2
    obtain ⟨n2, rfl⟩ : ∃ n2, fuel2 = n2 + 1 := ⟨fuel2 - 1, by omega⟩
    obtain ⟨s, hs⟩ : ∃ s, s = qsort_partition (rd list left) (right - left)
      { list := list, idx := idx, from_ := left, to_ := right } := ⟨_, rfl⟩
    obtain ⟨p1, p2, p3, _, _⟩ := qsort_partition_spec list idx left right hlr hr hio s hs
    obtain ⟨l1, hl1⟩ : ∃ l1, l1 = s.list.set s.from_ (rd list left) := ⟨_, rfl⟩
    obtain ⟨i1, hi1⟩ : ∃ i1, i1 = s.idx.set s.from_ (rd idx left) := ⟨_, rfl⟩
    rw [← hl1, ← hi1] at p3
    have hl1len : l1.length = list.length := p3.1
    have hi1len : i1.length = idx.length := p3.2.1
    obtain ⟨r1, hr1⟩ : ∃ r1, r1 =
      if left < s.from_ then qsort_rec n l1 i1 left (s.from_ - 1) else (l1, i1) := ⟨_, rfl⟩
    have hr1' : r1 =
        if left < s.from_ then qsort_rec n2 l1 i1 left (s.from_ - 1) else (l1, i1) := by
      rw [hr1]
      by_cases c : left < s.from_
      · rw [if_pos c, if_pos c]
        exact ih n2 l1 i1 left (s.from_ - 1) (by omega) (by omega) (by omega) (by omega)
          (by omega)
      · rw [if_neg c, if_neg c]
    have hres : qsort_rec (n + 1) list idx left right =
        if right > s.from_ then qsort_rec n r1.1 r1.2 (s.from_ + 1) right else r1 := by
      rw [hr1, hl1, hi1, hs]; rfl
    have hres2 : qsort_rec (n2 + 1) list idx left right =
        if right > s.from_ then qsort_rec n2 r1.1 r1.2 (s.from_ + 1) right else r1 := by
      rw [hr1', hl1, hi1, hs]; rfl
    rw [hres, hres2]
    have R1 : Rearranged l1 i1 r1.1 r1.2 left s.from_ := by
      by_cases c : left < s.from_
      · rw [hr1, if_pos c]
        have e : s.from_ - 1 + 1 = s.from_ := by omega
        have := (qsort_rec_spec n l1 i1 left (s.from_ - 1) (by omega) (by omega) (by omega)
          (by omega)).1
        rw [e] at this
        exact this
      · rw [hr1, if_neg c]
        exact Rearranged.id_perm _ _ _ _
    by_cases c : right > s.from_
    · rw [if_pos c, if_pos c]
      exact ih n2 r1.1 r1.2 (s.from_ + 1) right (by omega) (by rw [R1.1, hl1len]; exact hr)
        (by rw [R1.1, R1.2.1, hl1len, hi1len]; exact hio) (by omega) (by omega)
    · rw [if_neg c, if_neg c]

/-- The recursion of `__qsort_double_with_index`, as the C function states it: partition,
then a call on the part left of the pivot and a call on the part right of it. -/
theorem qsort_unfold (list : List Dbl) (idx : List Nat) (left right : Nat)
    (hlr : left ≤ right) (hr : right < list.length) (hio : idx.length = list.length)
    (s : QState)
    (hs : s = qsort_partition (rd list left) (right - left)
      { list := list, idx := idx, from_ := left, to_ := right }) :
    __qsort_double_with_index list idx left right =
      if right > s.from_ then
        __qsort_double_with_index
          (if left < s.from_ then
            __qsort_double_with_index (s.list.set s.from_ (rd list left))
              (s.idx.set s.from_ (rd idx left)) left (s.from_ - 1)
          else (s.list.set s.from_ (rd list left), s.idx.set s.from_ (rd idx left))).1
          (if left < s.from_ then
            __qsort_double_with_index (s.list.set s.from_ (rd list left))
              (s.idx.set s.from_ (rd idx left)) left (s.from_ - 1)
          else (s.list.set s.from_ (rd list left), s.idx.set s.from_ (rd idx left))).2
          (s.from_ + 1) right
      else
        if left < s.from_ then
          __qsort_double_with_index (s.list.set s.from_ (rd list left))
            (s.idx.set s.from_ (rd idx left)) left (s.from_ - 1)
        else (s.list.set s.from_ (rd list left), s.idx.set s.from_ (rd idx left)) := by
  obtain ⟨p1, p2, p3, _, _⟩ := qsort_partition_spec list idx left right hlr hr hio s hs
  obtain ⟨l1, hl1⟩ : ∃ l1, l1 = s.list.set s.from_ (rd list left) := ⟨_, rfl⟩
  obtain ⟨i1, hi1⟩ : ∃ i1, i1 = s.idx.set s.from_ (rd idx left) := ⟨_, rfl⟩
  rw [← hl1, ← hi1] at p3 ⊢
  have hl1len : l1.length = list.length := p3.1
  have hi1len : i1.length = idx.length := p3.2.1
  obtain ⟨r1, hr1⟩ : ∃ r1, r1 =
    if left < s.from_ then qsort_rec (right - left) l1 i1 left (s.from_ - 1)
    else (l1, i1) := ⟨_, rfl⟩
  have hr1' : r1 =
      if left < s.from_ then __qsort_double_with_index l1 i1 left (s.from_ - 1)
      else (l1, i1) := by
    rw [hr1]
    by_cases c : left < s.from_
    · rw [if_pos c, if_pos c]
      exact qsort_rec_fuel _ _ l1 i1 left (s.from_ - 1) (by omega) (by omega) (by omega)
        (by omega) (by omega)
    · rw [if_neg c, if_neg c]
  have hres : __qsort_double_with_index list idx left right =
      if right > s.from_ then qsort_rec (right - left) r1.1 r1.2 (s.from_ + 1) right
      else r1 := by
    rw [hr1, hl1, hi1, hs]; rfl
  rw [hres, ← hr1']
  have R1 : Rearranged l1 i1 r1.1 r1.2 left s.from_ := by
    by_cases c : left < s.from_
    · rw [hr1', if_pos c]
      have e : s.from_ - 1 + 1 = s.from_ := by omega
      have := (qsort_spec l1 i1 left (s.from_ - 1) (by omega) (by omega) (by omega)).1
      rw [e] at this
      exact this
    · rw [hr1', if_neg c]
      exact Rearranged.id_perm _ _ _ _
  by_cases c : right > s.from_
  · rw [if_pos c, if_pos c]
    exact qsort_rec_fuel _ _ r1.1 r1.2 (s.from_ + 1) right (by omega)
      (by rw [R1.1, hl1len]; exact hr)
      (by rw [R1.1, R1.2.1, hl1len, hi1len]; exact hio) (by omega) (by omega)
  · rw [if_neg c, if_neg c]

/-! ### The quicksort reads its range only -/

theorem qsort_scan_down_congr (l1 l2 : List Dbl) (pivot : Dbl) (from_ : Nat) :
    ∀ to_, (∀ k, from_ ≤ k → k ≤ to_ → rd l1 k = rd l2 k) →
      qsort_scan_down l1 pivot from_ to_ = qsort_scan_down l2 pivot from_ to_ := by
  intro to_
  induction to_ with
  | zero => intro _; rfl
  | succ t ih =>
    intro h
    unfold qsort_scan_down
    by_cases hlt : from_ < t + 1
    · rw [h (t + 1) (by omega) (le_refl _), ih (fun k h1 h2 => h k h1 (by omega))]
    · simp [hlt]

theorem qsort_scan_up_congr (l1 l2 : List Dbl) (pivot : Dbl) (to_ : Nat) :
    ∀ fuel from_, (∀ k, from_ ≤ k → k ≤ to_ → rd l1 k = rd l2 k) →
      qsort_scan_up l1 pivot to_ fuel from_ = qsort_scan_up l2 pivot to_ fuel from_ := by
  intro fuel
  induction fuel with
  | zero => intro _ _; rfl
  | succ n ih =>
    intro from_ h
    unfold qsort_scan_up
    by_cases hlt : from_ < to_
    · rw [h from_ (le_refl _) (by omega), ih (from_ + 1) (fun k h1 h2 => h k (by omega) h2)]
    · simp [hlt]

theorem AgreeOn.set {β : Type} [Inhabited β] {a b : List β} {lo hi : Nat}
    (h : AgreeOn a b lo hi) (hlen : b.length = a.length) (i : Nat) (x : β) :
    AgreeOn (a.set i x) (b.set i x) lo hi := by
  intro k h1 h2
  rw [rd_set, rd_set, hlen, h k h1 h2]

theorem qsort_down_congr (pivot : Dbl) {lo hi : Nat} {s1 s2 : QState}
    (h : QAgree lo hi s1 s2) : QAgree lo hi (qsort_down pivot s1) (qsort_down pivot s2) := by
  obtain ⟨t, ht⟩ : ∃ t, t = qsort_scan_down s1.list pivot s1.from_ s1.to_ := ⟨_, rfl⟩
  have ht2 : qsort_scan_down s2.list pivot s1.from_ s1.to_ = t := by
    rw [ht]
    exact (qsort_scan_down_congr s1.list s2.list pivot s1.from_ s1.to_
      (fun k h1 h2 => h.hlist k (by have := h.hlo; omega) (by have := h.hhi; omega))).symm
  obtain ⟨b1, b2, _, _⟩ := qsort_scan_down_spec s1.list pivot s1.from_ s1.to_ h.hft
  rw [← ht] at b1 b2
  have hlo := h.hlo
  have hhi := h.hhi
  unfold qsort_down
  simp only [h.hfrom, h.hto, ht2, ← ht]
  by_cases hne : s1.from_ = t
  · simp only [hne, ne_eq, not_true_eq_false, if_false]
    exact ⟨rfl, rfl, h.hlist, h.hidx, h.hlen, h.hilen, by simp only; omega,
      by simp only; omega, by simp only; omega⟩
  · simp only [ne_eq, hne, not_false_eq_true, if_true]
    refine ⟨rfl, rfl, ?_, ?_, by simp [h.hlen], by simp [h.hilen], by simp only; omega,
      by simp only; omega, by simp only; omega⟩
    · simp only
      rw [← h.hlist t (by omega) (by omega)]
      exact h.hlist.set h.hlen _ _
    · simp only
      rw [← h.hidx t (by omega) (by omega)]
      exact h.hidx.set h.hilen _ _

theorem qsort_up_congr (pivot : Dbl) {lo hi : Nat} {s1 s2 : QState}
    (h : QAgree lo hi s1 s2) : QAgree lo hi (qsort_up pivot s1) (qsort_up pivot s2) := by
  obtain ⟨t, ht⟩ : ∃ t, t = qsort_scan_up s1.list pivot s1.to_ (s1.to_ - s1.from_) s1.from_ :=
    ⟨_, rfl⟩
  have ht2 : qsort_scan_up s2.list pivot s1.to_ (s1.to_ - s1.from_) s1.from_ = t := by
    rw [ht]
    exact (qsort_scan_up_congr s1.list s2.list pivot s1.to_ _ s1.from_
      (fun k h1 h2 => h.hlist k (by have := h.hlo; omega) (by have := h.hhi; omega))).symm
  obtain ⟨b1, b2, _, _⟩ := qsort_scan_up_spec s1.list pivot s1.to_ (s1.to_ - s1.from_) s1.from_
    h.hft (le_refl _)
  rw [← ht] at b1 b2
  have hlo := h.hlo
  have hhi := h.hhi
  unfold qsort_up
  simp only [h.hfrom, h.hto, ht2, ← ht]
  by_cases hne : t = s1.to_
  · simp only [hne, ne_eq, not_true_eq_false, if_false]
    exact ⟨rfl, rfl, h.hlist, h.hidx, h.hlen, h.hilen, by simp only; omega,
      by simp only; omega, by simp only; omega⟩
  · simp only [ne_eq, hne, not_false_eq_true, if_true]
    refine ⟨rfl, rfl, ?_, ?_, by simp [h.hlen], by simp [h.hilen], by simp only; omega,
      by simp only; omega, by simp only; omega⟩
    · simp only
      rw [← h.hlist t (by omega) (by omega)]
      exact h.hlist.set h.hlen _ _
    · simp only
      rw [← h.hidx t (by omega) (by omega)]
      exact h.hidx.set h.hilen _ _

theorem qsort_partition_congr (pivot : Dbl) {lo hi : Nat} : ∀ (fuel : Nat) (s1 s2 : QState),
    QAgree lo hi s1 s2 →
    QAgree lo hi (qsort_partition pivot fuel s1) (qsort_partition pivot fuel s2) := by
  intro fuel
  induction fuel with
  | zero => intro s1 s2 h; exact h
  | succ n ih =>
    intro s1 s2 h
    unfold qsort_partition
    rw [h.hfrom, h.hto]
    by_cases hlt : s1.from_ < s1.to_
    · rw [if_pos hlt, if_pos hlt]
      exact ih _ _ (qsort_up_congr pivot (qsort_down_congr pivot h))
    · rw [if_neg hlt, if_neg hlt]
      exact h

/-- The partition step on arrays that agree on `[lo, hi]`, a range that contains
`[left, right]`: the pivot lands at the same position and the arrays agree afterwards. -/
theorem qsort_partition_agree (l1 l2 : List Dbl) (i1 i2 : List Nat) (lo hi left right : Nat)
    (hlo : lo ≤ left) (hlr : left ≤ right) (hhi : right ≤ hi) (hr : right < l1.length)
    (hio : i1.length = l1.length) (hlen2 : l2.length = l1.length)
    (hilen2 : i2.length = l1.length) (hl : AgreeOn l1 l2 lo hi) (hi' : AgreeOn i1 i2 lo hi)
    (s1 s2 : QState)
    (hs1 : s1 = qsort_partition (rd l1 left) (right - left)
      { list := l1, idx := i1, from_ := left, to_ := right })
    (hs2 : s2 = qsort_partition (rd l2 left) (right - left)
      { list := l2, idx := i2, from_ := left, to_ := right }) :
    s2.from_ = s1.from_ ∧ left ≤ s1.from_ ∧ s1.from_ ≤ right ∧
    AgreeOn (s1.list.set s1.from_ (rd l1 left)) (s2.list.set s2.from_ (rd l2 left)) lo hi ∧
    AgreeOn (s1.idx.set s1.from_ (rd i1 left)) (s2.idx.set s2.from_ (rd i2 left)) lo hi ∧
    (s1.list.set s1.from_ (rd l1 left)).length = l1.length ∧
    (s1.idx.set s1.from_ (rd i1 left)).length = l1.length ∧
    (s2.list.set s2.from_ (rd l2 left)).length = l1.length ∧
    (s2.idx.set s2.from_ (rd i2 left)).length = l1.length := by
  have hp : rd l2 left = rd l1 left := (hl left hlo (le_trans hlr hhi)).symm
  have hpi : rd i2 left = rd i1 left := (hi' left hlo (le_trans hlr hhi)).symm
  have hq : QAgree left right s1 s2 := by
    rw [hs1, hs2, hp]
    exact qsort_partition_congr (rd l1 left) (right - left) _ _
      ⟨rfl, rfl, fun k h1 h2 => hl k (le_trans hlo h1) (le_trans h2 hhi),
        fun k h1 h2 => hi' k (le_trans hlo h1) (le_trans h2 hhi), hlen2, hilen2.trans hio.symm,
        le_refl _, hlr, le_refl _⟩
  obtain ⟨p1, p2, p3, _, _⟩ := qsort_partition_spec l1 i1 left right hlr hr hio s1 hs1
  obtain ⟨_, _, q3, _, _⟩ := qsort_partition_spec l2 i2 left right hlr (hlen2 ▸ hr)
    (hilen2.trans hlen2.symm) s2 hs2
  refine ⟨hq.hfrom, p1, p2, ?_, ?_, p3.1, p3.2.1.trans hio, q3.1.trans hlen2,
    q3.2.1.trans hilen2⟩
  · intro k h1 h2
    by_cases hin : left ≤ k ∧ k ≤ right
    · rw [hq.hfrom, hp]
      exact hq.hlist.set hq.hlen _ _ k hin.1 hin.2
    · have hout : k < left ∨ right + 1 ≤ k := by omega
      rw [(p3.outside k hout).1, (q3.outside k hout).1]
      exact hl k h1 h2
  · intro k h1 h2
    by_cases hin : left ≤ k ∧ k ≤ right
    · rw [hq.hfrom, hpi]
      exact hq.hidx.set hq.hilen _ _ k hin.1 hin.2
    · have hout : k < left ∨ right + 1 ≤ k := by omega
      rw [(p3.outside k hout).2, (q3.outside k hout).2]
      exact hi' k h1 h2

/-- One level of the recursion of the quicksort. -/
theorem qsort_rec_succ (n : Nat) (list : List Dbl) (idx : List Nat) (left right : Nat)
    (s : QState)
    (hs : s = qsort_partition (rd list left) (right - left)
      { list := list, idx := idx, from_ := left, to_ := right })
    (r : List Dbl × List Nat)
    (hr : r = if left < s.from_ then
        qsort_rec n (s.list.set s.from_ (rd list left)) (s.idx.set s.from_ (rd idx left)) left
          (s.from_ - 1)
      else (s.list.set s.from_ (rd list left), s.idx.set s.from_ (rd idx left))) :
    qsort_rec (n + 1) list idx left right =
      if right > s.from_ then qsort_rec n r.1 r.2 (s.from_ + 1) right else r := by
  rw [hr, hs]
  rfl

/-- A call of the quicksort keeps the lengths of the arrays. -/
theorem qsort_rec_length (n : Nat) (list : List Dbl) (idx : List Nat) (left right : Nat) :
    (qsort_rec n list idx left right).1.length = list.length ∧
    (qsort_rec n list idx left right).2.length = idx.length := by
  induction n generalizing list idx left right with
  | zero => exact ⟨rfl, rfl⟩
  | succ n ih =>
    rw [qsort_rec_succ n list idx left right _ rfl _ rfl]
    have hpl : ∀ (pivot : Dbl) (fuel : Nat) (s : QState),
        (qsort_partition pivot fuel s).list.length = s.list.length ∧
        (qsort_partition pivot fuel s).idx.length = s.idx.length := by
      intro pivot fuel
      induction fuel with
      | zero => intro s; exact ⟨rfl, rfl⟩
      | succ m ihm =>
        intro s
        unfold qsort_partition
        split_ifs
        · rw [(ihm _).1, (ihm _).2]
          unfold qsort_round qsort_up qsort_down
          constructor <;> (simp only; split_ifs <;> simp)
        · exact ⟨rfl, rfl⟩
    have h1 := hpl (rd list left) (right - left)
      { list := list, idx := idx, from_ := left, to_ := right }
    simp only at h1
    split_ifs
    · rw [(ih _ _ _ _).1, (ih _ _ _ _).2, (ih _ _ _ _).1, (ih _ _ _ _).2]
      simp [h1.1, h1.2]
    · rw [(ih _ _ _ _).1, (ih _ _ _ _).2]
      simp [h1.1, h1.2]
    · rw [(ih _ _ _ _).1, (ih _ _ _ _).2]
      simp [h1.1, h1.2]
    · simp [h1.1, h1.2]

theorem qsort_left_range (left m right hi n len : Nat) (c : left < m) (p2 : m ≤ right)
    (hhi : right ≤ hi) (hr : right < len) (hf : right - left < n + 1) :
    left ≤ m - 1 ∧ m - 1 ≤ hi ∧ m - 1 < len ∧ m - 1 - left < n := by
  omega

theorem qsort_right_range (lo left m right n len : Nat) (hlo : lo ≤ left) (p1 : left ≤ m)
    (c : right > m) (hr : right < len) (hf : right - left < n + 1) :
    lo ≤ m + 1 ∧ m + 1 ≤ right ∧ right < len ∧ right - (m + 1) < n := by
  omega

/-- Two runs of the quicksort on arrays that agree on `[lo, hi]`, a range that contains
`[left, right]`, give arrays that agree on `[lo, hi]`: the positions outside the range
are not read. -/
theorem qsort_rec_congr : ∀ (fuel : Nat) (l1 l2 : List Dbl) (i1 i2 : List Nat)
    (lo hi left right : Nat), lo ≤ left → left ≤ right → right ≤ hi →
    right < l1.length → i1.length = l1.length → l2.length = l1.length →
    i2.length = l1.length → right - left < fuel →
    AgreeOn l1 l2 lo hi → AgreeOn i1 i2 lo hi →
    AgreeOn (qsort_rec fuel l1 i1 left right).1 (qsort_rec fuel l2 i2 left right).1 lo hi ∧
    AgreeOn (qsort_rec fuel l1 i1 left right).2 (qsort_rec fuel l2 i2 left right).2 lo hi := by
  intro fuel
  induction fuel with
  | zero => intro _ _ _ _ _ _ _ _ _ _ _ _ _ _ _ h; exact absurd h (Nat.not_lt_zero _)
  | succ n ih =>
    intro l1 l2 i1 i2 lo hi left right hlo hlr hhi hr hio hlen2 hilen2 hf hl hi'
    obtain ⟨hfrom, p1, p2, ha, hb, ha1len, hb1len, ha2len, hb2len⟩ :=
      qsort_partition_agree l1 l2 i1 i2 lo hi left right hlo hlr hhi hr hio hlen2 hilen2 hl hi'
        _ _ rfl rfl
    rw [qsort_rec_succ n l1 i1 left right _ rfl _ rfl,
      qsort_rec_succ n l2 i2 left right _ rfl _ rfl, hfrom]
    rw [hfrom] at ha hb ha2len hb2len
    generalize (qsort_partition (rd l1 left) (right - left)
      { list := l1, idx := i1, from_ := left, to_ := right }).from_ = m at *
    generalize (qsort_partition (rd l1 left) (right - left)
      { list := l1, idx := i1, from_ := left, to_ := right }).list.set m (rd l1 left) = a1 at *
    generalize (qsort_partition (rd l1 left) (right - left)
      { list := l1, idx := i1, from_ := left, to_ := right }).idx.set m (rd i1 left) = b1 at *
    generalize (qsort_partition (rd l2 left) (right - left)
      { list := l2, idx := i2, from_ := left, to_ := right }).list.set m (rd l2 left) = a2 at *
    generalize (qsort_partition (rd l2 left) (right - left)
      { list := l2, idx := i2, from_ := left, to_ := right }).idx.set m (rd i2 left) = b2 at *
    have hr12 : AgreeOn
        (if left < m then qsort_rec n a1 b1 left (m - 1) else (a1, b1)).1
        (if left < m then qsort_rec n a2 b2 left (m - 1) else (a2, b2)).1 lo hi ∧
      AgreeOn
        (if left < m then qsort_rec n a1 b1 left (m - 1) else (a1, b1)).2
        (if left < m then qsort_rec n a2 b2 left (m - 1) else (a2, b2)).2 lo hi := by
      by_cases c : left < m
      · rw [if_pos c, if_pos c]
        obtain ⟨c1, c2, c3, c4⟩ := qsort_left_range left m right hi n a1.length c p2 hhi
          (ha1len ▸ hr) hf
        exact ih a1 a2 b1 b2 lo hi left (m - 1) hlo c1 c2 c3 (hb1len.trans ha1len.symm)
          (ha2len.trans ha1len.symm) (hb2len.trans ha1len.symm) c4 ha hb
      · rw [if_neg c, if_neg c]
        exact ⟨ha, hb⟩
    have hlens : (if left < m then qsort_rec n a1 b1 left (m - 1) else (a1, b1)).1.length =
          l1.length ∧
        (if left < m then qsort_rec n a1 b1 left (m - 1) else (a1, b1)).2.length = l1.length ∧
        (if left < m then qsort_rec n a2 b2 left (m - 1) else (a2, b2)).1.length = l1.length ∧
        (if left < m then qsort_rec n a2 b2 left (m - 1) else (a2, b2)).2.length =
          l1.length := by
      by_cases c : left < m
      · rw [if_pos c, if_pos c]
        exact ⟨(qsort_rec_length n a1 b1 left (m - 1)).1.trans ha1len,
          (qsort_rec_length n a1 b1 left (m - 1)).2.trans hb1len,
          (qsort_rec_length n a2 b2 left (m - 1)).1.trans ha2len,
          (qsort_rec_length n a2 b2 left (m - 1)).2.trans hb2len⟩
      · rw [if_neg c, if_neg c]
        exact ⟨ha1len, hb1len, ha2len, hb2len⟩
    generalize (if left < m then qsort_rec n a1 b1 left (m - 1) else (a1, b1)) = r1 at *
    generalize (if left < m then qsort_rec n a2 b2 left (m - 1) else (a2, b2)) = r2 at *
    obtain ⟨g3, g4, g5, g6⟩ := hlens
    by_cases c : right > m
    · rw [if_pos c, if_pos c]
      obtain ⟨c1, c2, c3, c4⟩ := qsort_right_range lo left m right n r1.1.length hlo p1 c
        (g3 ▸ hr) hf
      exact ih r1.1 r2.1 r1.2 r2.2 lo hi (m + 1) right c1 c2 hhi c3 (g4.trans g3.symm)
        (g5.trans g3.symm) (g6.trans g3.symm) c4 hr12.1 hr12.2
    · rw [if_neg c, if_neg c]
      exact hr12

/-- C20 (quicksort safety and termination).  For arrays of length `n` and
`0 <= left <= right < n`, `__qsort_double_with_index(list, idx, left, right)` terminates:
the partition loop ends with `from = to`, and the recursion yields the same result for
every fuel above the width of the range.  It writes `list` and `idx` only inside
`[left, right]` (lengths and all elements outside are unchanged) and reads them only
there (arrays that agree on the range give results that agree on the range).  The pivot
position satisfies `left <= from <= right`, and the two recursive calls are made on
`[left, from - 1]` only if `left < from` and on `[from + 1, right]` only if
`from < right`: ranges with `left <= right` that are strictly smaller. -/
theorem qsort_safety (list : List Dbl) (idx : List Nat) (left right : Nat)
    (hlr : left ≤ right) (hr : right < list.length) (hio : idx.length = list.length)
    (s : QState)
    (hs : s = qsort_partition (rd list left) (right - left)
      { list := list, idx := idx, from_ := left, to_ := right }) :
    (s.from_ = s.to_ ∧
      ∀ fuel, right - left < fuel →
        qsort_rec fuel list idx left right = __qsort_double_with_index list idx left right) ∧
    ((__qsort_double_with_index list idx left right).1.length = list.length ∧
      (__qsort_double_with_index list idx left right).2.length = idx.length ∧
      ∀ k, (k < left ∨ right < k) →
        rd (__qsort_double_with_index list idx left right).1 k = rd list k ∧
        rd (__qsort_double_with_index list idx left right).2 k = rd idx k) ∧
    (∀ (list2 : List Dbl) (idx2 : List Nat), list2.length = list.length →
      idx2.length = idx.length → AgreeOn list list2 left right → AgreeOn idx idx2 left right →
      AgreeOn (__qsort_double_with_index list idx left right).1
        (__qsort_double_with_index list2 idx2 left right).1 left right ∧
      AgreeOn (__qsort_double_with_index list idx left right).2
        (__qsort_double_with_index list2 idx2 left right).2 left right) ∧
    (left ≤ s.from_ ∧ s.from_ ≤ right ∧
      (left < s.from_ → left ≤ s.from_ - 1 ∧ (s.from_ - 1) - left < right - left) ∧
      (right > s.from_ → s.from_ + 1 ≤ right ∧ right - (s.from_ + 1) < right - left) ∧
      __qsort_double_with_index list idx left right =
        if right > s.from_ then
          __qsort_double_with_index
            (if left < s.from_ then
              __qsort_double_with_index (s.list.set s.from_ (rd list left))
                (s.idx.set s.from_ (rd idx left)) left (s.from_ - 1)
            else (s.list.set s.from_ (rd list left), s.idx.set s.from_ (rd idx left))).1
            (if left < s.from_ then
              __qsort_double_with_index (s.list.set s.from_ (rd list left))
                (s.idx.set s.from_ (rd idx left)) left (s.from_ - 1)
            else (s.list.set s.from_ (rd list left), s.idx.set s.from_ (rd idx left))).2
            (s.from_ + 1) right
        else
          if left < s.from_ then
            __qsort_double_with_index (s.list.set s.from_ (rd list left))
              (s.idx.set s.from_ (rd idx left)) left (s.from_ - 1)
          else (s.list.set s.from_ (rd list left), s.idx.set s.from_ (rd idx left))) := by
  obtain ⟨p1, p2, _, _, _⟩ := qsort_partition_spec list idx left right hlr hr hio s hs
  have hR := (qsort_spec list idx left right hlr hr hio).1
  refine ⟨⟨?_, ?_⟩, ⟨hR.1, hR.2.1, ?_⟩, ?_, p1, p2, fun h => by omega, fun h => by omega,
    qsort_unfold list idx left right hlr hr hio s hs⟩
  · rw [hs]
    exact qsort_partition_exit list idx left right hlr hr hio
  · intro fuel hfuel
    exact qsort_rec_fuel fuel (right - left + 1) list idx left right hlr hr hio hfuel
      (by omega)
  · intro k hk
    exact hR.outside k (by omega)
  · intro list2 idx2 hl2 hi2 hal hai
    exact qsort_rec_congr (right - left + 1) list list2 idx idx2 left right left right
      (le_refl _) hlr (le_refl _) hr hio hl2 (by rw [hi2, hio]) (by omega) hal hai

/-- Witness of `qsort_safety`: the scores `(2, 1, 1, 3)` sorted on the range `[0, 2]`;
the element at position 3 stays. -/
theorem qsort_safety_witness :
    (0 : Nat) ≤ 2 ∧ 2 < [Dbl.fin 2, Dbl.fin 1, Dbl.fin 1, Dbl.fin 3].length ∧
    [0, 1, 2, 3].length = [Dbl.fin 2, Dbl.fin 1, Dbl.fin 1, Dbl.fin 3].length ∧
    (∀ k, (k < 0 ∨ 2 < k) →
      rd (__qsort_double_with_index [Dbl.fin 2, Dbl.fin 1, Dbl.fin 1, Dbl.fin 3]
        [0, 1, 2, 3] 0 2).1 k = rd [Dbl.fin 2, Dbl.fin 1, Dbl.fin 1, Dbl.fin 3] k ∧
      rd (__qsort_double_with_index [Dbl.fin 2, Dbl.fin 1, Dbl.fin 1, Dbl.fin 3]
        [0, 1, 2, 3] 0 2).2 k = rd [0, 1, 2, 3] k) :=
  ⟨by decide, by decide, rfl,
    (qsort_safety [Dbl.fin 2, Dbl.fin 1, Dbl.fin 1, Dbl.fin 3] [0, 1, 2, 3] 0 2 (by decide)
      (by decide) rfl _ rfl).2.1.2.2⟩

end CAFE
